import Mathlib

/-!
Verification of the SLDC tiling / merging / dispatch pipeline (Python package
`sldc`), through a shallow embedding of the source code into Lean.

Conventions used throughout this development:
* Python integers are embedded as `ℤ` (or `ℕ` where the source value is a
  count or an index that is provably non-negative).
* Python `//` and `%` are floor division and floor-signed modulus; they are
  embedded as `Int.fdiv` and `Int.fmod`, which have exactly the same
  semantics for every sign of the operands.
* code that can raise is embedded in `Except`; the error payload records the
  kind of Python exception raised.
* calls into the external geometry library (shapely) are embedded as fields
  of an explicit `GeomOps` record: the merging engine treats the geometric
  predicates (`intersects`, `distance`, `area`, dilation/union/erosion) as
  oracles, which is exactly how the Python code consumes shapely.
-/

deriving instance DecidableEq for Except

/-! ## Tile topology — `src/sldc/image.py`, class `TileTopology` -/

/-- Embedding of `TileTopology`: the topology is fully determined by the
image dimensions, the maximal tile dimensions and the overlap
(`TileTopology.__init__`). -/
structure TileTopology where
  image_width : ℤ
  image_height : ℤ
  max_width : ℤ
  max_height : ℤ
  overlap : ℤ
deriving Repr, DecidableEq

namespace TileTopology

/-- Exact-ceiling idealisation of the static method `TileTopology.tile_count_1d`:
`1 if length < tile_length else int(math.ceil(float(length - overlap) / (tile_length - overlap)))`.
The ceiling of the exact rational quotient is rendered on integers as
`-((-a).fdiv b)`.  The source computes the ceiling through IEEE-754 doubles;
`tile_count_1d_float` below embeds that pipeline faithfully, and
`tile_count_1d_float_eq` proves the two agree whenever
`length - overlap ≤ 2^53` (they differ beyond, where `float()` rounds —
see the claim C2 counterexample).  The topology theorems below use this
idealisation; their properties are structural in the computed count. -/
def tile_count_1d (length tile_length overlap : ℤ) : ℤ :=
  if length < tile_length then 1
  else -((-(length - overlap)).fdiv (tile_length - overlap))

/-- Embeds the property `TileTopology.tile_horizontal_count`. -/
def tile_horizontal_count (t : TileTopology) : ℤ :=
  tile_count_1d t.image_width t.max_width t.overlap

/-- Embeds the property `TileTopology.tile_vertical_count`. -/
def tile_vertical_count (t : TileTopology) : ℤ :=
  tile_count_1d t.image_height t.max_height t.overlap

/-- Embeds the property `TileTopology.tile_count` (`vertical * horizontal`). -/
def tile_count (t : TileTopology) : ℤ :=
  t.tile_vertical_count * t.tile_horizontal_count

/-- Embeds `TileTopology._tile_coord`: `(row, col)` of a tile in the grid,
`((identifier - 1) // h, (identifier - 1) % h)` with Python floor
division/modulus. -/
def tile_coord (t : TileTopology) (identifier : ℤ) : ℤ × ℤ :=
  ((identifier - 1).fdiv t.tile_horizontal_count,
   (identifier - 1).fmod t.tile_horizontal_count)

/-- Embeds `TileTopology._check_identifier`: the source only raises
`ValueError` when the identifier exceeds `tile_count` (there is no lower
bound check in the source). -/
def check_identifier (t : TileTopology) (identifier : ℤ) : Except String Unit :=
  if identifier > t.tile_count then .error "invalid tile identifier" else .ok ()

/-- Embeds `TileTopology.tile_offset`. -/
def tile_offset (t : TileTopology) (identifier : ℤ) : Except String (ℤ × ℤ) :=
  match t.check_identifier identifier with
  | .error e => .error e
  | .ok _ =>
    let rc := t.tile_coord identifier
    .ok (rc.2 * (t.max_width - t.overlap), rc.1 * (t.max_height - t.overlap))

/-- Embeds `TileTopology.tile_neighbours`; the result tuple is ordered
`(top, bottom, left, right)` as in the source. -/
def tile_neighbours (t : TileTopology) (identifier : ℤ) :
    Except String (Option ℤ × Option ℤ × Option ℤ × Option ℤ) :=
  match t.check_identifier identifier with
  | .error e => .error e
  | .ok _ =>
    let tc := t.tile_count
    let h := t.tile_horizontal_count
    let tile_row := (t.tile_coord identifier).1
    let top := if identifier - h ≥ 1 then some (identifier - h) else none
    let bottom := if identifier + h ≤ tc then some (identifier + h) else none
    -- left neighbour, nulled when it would wrap to the previous grid row
    let left := if identifier > 1 then
        (if (t.tile_coord (identifier - 1)).1 ≠ tile_row then none
         else some (identifier - 1))
      else none
    -- right neighbour, nulled when it would wrap to the next grid row
    let right := if identifier < tc then
        (if (t.tile_coord (identifier + 1)).1 ≠ tile_row then none
         else some (identifier + 1))
      else none
    .ok (top, bottom, left, right)

/-- Embedding of the `Tile` view produced by `TileTopology.tile` /
`Image.tile` (`src/sldc/image.py`): an offset plus the clamped width and
height.  Pixel data is not part of the topology model. -/
structure TileView where
  offset_x : ℤ
  offset_y : ℤ
  width : ℤ
  height : ℤ
deriving Repr, DecidableEq

/-- Embeds `TileTopology.tile` composed with `Image.tile`: identifier check,
offset computation, the image-bounds check of `Image._check_tile_offset`
(raising `IndexError`), and the clamping of the tile dimensions. -/
def tile (t : TileTopology) (identifier : ℤ) : Except String TileView :=
  match t.check_identifier identifier with
  | .error e => .error e
  | .ok _ =>
    match t.tile_offset identifier with
    | .error e => .error e
    | .ok (ox, oy) =>
      if ¬(0 ≤ ox ∧ ox < t.image_width ∧ 0 ≤ oy ∧ oy < t.image_height) then
        .error "IndexError"
      else
        .ok ⟨ox, oy, min t.max_width (t.image_width - ox),
             min t.max_height (t.image_height - oy)⟩

/-- Validity of the topology construction parameters, as assumed by the
specification (`0 ≤ overlap < min(tile_width, tile_height)`, non-degenerate
image). -/
def params_ok (t : TileTopology) : Prop :=
  1 ≤ t.image_width ∧ 1 ≤ t.image_height ∧ 0 ≤ t.overlap ∧
    t.overlap < t.max_width ∧ t.overlap < t.max_height

instance (t : TileTopology) : Decidable t.params_ok := by
  unfold params_ok; infer_instance

/-- Integer characterisation of `tile_count_1d` in the non-trivial branch:
it is the least `n` with `n * (tile_length - overlap) ≥ length - overlap`. -/
theorem tile_count_1d_bounds (length tile_length overlap : ℤ)
    (hge : tile_length ≤ length) (hlt : overlap < tile_length) :
    length - overlap ≤ tile_count_1d length tile_length overlap * (tile_length - overlap) ∧
    (tile_count_1d length tile_length overlap - 1) * (tile_length - overlap) < length - overlap := by
  have hb : (0 : ℤ) < tile_length - overlap := by omega
  unfold tile_count_1d
  rw [if_neg (by omega)]
  rw [Int.fdiv_eq_ediv _ (by omega)]
  have h1 := Int.ediv_add_emod (-(length - overlap)) (tile_length - overlap)
  have h2 := Int.emod_nonneg (-(length - overlap)) (by omega : tile_length - overlap ≠ 0)
  have h3 := Int.emod_lt_of_pos (-(length - overlap)) hb
  constructor <;> nlinarith [h1, h2, h3]

/-- Under valid parameters the per-dimension tile count is at least one. -/
theorem tile_count_1d_pos (length tile_length overlap : ℤ)
    (hlen : 1 ≤ length) (ho : 0 ≤ overlap) (hlt : overlap < tile_length) :
    1 ≤ tile_count_1d length tile_length overlap := by
  by_cases h : length < tile_length
  · unfold tile_count_1d; rw [if_pos h]
  · have := tile_count_1d_bounds length tile_length overlap (by omega) hlt
    nlinarith [this.1, this.2]

theorem tile_horizontal_count_pos (t : TileTopology) (h : t.params_ok) :
    1 ≤ t.tile_horizontal_count :=
  tile_count_1d_pos _ _ _ h.1 h.2.2.1 h.2.2.2.1

theorem tile_vertical_count_pos (t : TileTopology) (h : t.params_ok) :
    1 ≤ t.tile_vertical_count :=
  tile_count_1d_pos _ _ _ h.2.1 h.2.2.1 h.2.2.2.2

theorem tile_count_pos (t : TileTopology) (h : t.params_ok) :
    1 ≤ t.tile_count := by
  have h1 := t.tile_horizontal_count_pos h
  have h2 := t.tile_vertical_count_pos h
  unfold tile_count
  nlinarith

/-- Row/column decomposition of a tile identifier: writing
`(row, col) = tile_coord id`, we have `id - 1 = row * h + col` with
`0 ≤ col < h`. Holds for every integer identifier (also out-of-range ones)
as long as the grid has at least one column. -/
theorem tile_coord_spec (t : TileTopology) (hh : 1 ≤ t.tile_horizontal_count)
    (identifier : ℤ) :
    identifier - 1 =
      (t.tile_coord identifier).1 * t.tile_horizontal_count + (t.tile_coord identifier).2 ∧
    0 ≤ (t.tile_coord identifier).2 ∧
    (t.tile_coord identifier).2 < t.tile_horizontal_count := by
  unfold tile_coord
  dsimp only
  rw [Int.fdiv_eq_ediv _ (by omega), Int.fmod_eq_emod _ (by omega)]
  refine ⟨?_, ?_, ?_⟩
  · have := Int.ediv_add_emod' (identifier - 1) t.tile_horizontal_count
    omega
  · exact Int.emod_nonneg _ (by omega)
  · exact Int.emod_lt_of_pos _ (by omega)

/-- The exact-ceiling idealisation `tile_count_1d` equals the rational
ceiling `⌈(length − overlap) / (tile_length − overlap)⌉` in the
non-trivial branch (and `1` below `tile_length`); `3` on `700/300/100`. -/
theorem tile_count_1d_ceil_rat (length tile_length overlap : ℤ)
    (hlen : 1 ≤ length) (ho : 0 ≤ overlap) (hlt : overlap < tile_length) :
    (length < tile_length → tile_count_1d length tile_length overlap = 1) ∧
    (tile_length ≤ length →
      tile_count_1d length tile_length overlap =
        ⌈((length : ℚ) - (overlap : ℚ)) / ((tile_length : ℚ) - (overlap : ℚ))⌉) ∧
    tile_count_1d 700 300 100 = 3 := by
  refine ⟨fun h => by unfold tile_count_1d; rw [if_pos h], fun h => ?_, by decide⟩
  have hb : (0 : ℤ) < tile_length - overlap := by omega
  have hbq : (0 : ℚ) < (tile_length : ℚ) - (overlap : ℚ) := by
    have := hb; push_cast; exact_mod_cast by exact_mod_cast this
  obtain ⟨h1, h2⟩ := tile_count_1d_bounds length tile_length overlap h hlt
  symm
  rw [Int.ceil_eq_iff]
  constructor
  · rw [lt_div_iff hbq]
    push_cast
    exact_mod_cast by exact_mod_cast h2
  · rw [div_le_iff hbq]
    push_cast
    exact_mod_cast by exact_mod_cast h1

/-- Value computed by `tile_neighbours` on an identifier that passes the
range check. -/
theorem tile_neighbours_ok (t : TileTopology) (identifier : ℤ)
    (hid : identifier ≤ t.tile_count) :
    t.tile_neighbours identifier = .ok
      (if identifier - t.tile_horizontal_count ≥ 1 then
         some (identifier - t.tile_horizontal_count) else none,
       if identifier + t.tile_horizontal_count ≤ t.tile_count then
         some (identifier + t.tile_horizontal_count) else none,
       if identifier > 1 then
         (if (t.tile_coord (identifier - 1)).1 ≠ (t.tile_coord identifier).1 then none
          else some (identifier - 1))
       else none,
       if identifier < t.tile_count then
         (if (t.tile_coord (identifier + 1)).1 ≠ (t.tile_coord identifier).1 then none
          else some (identifier + 1))
       else none) := by
  unfold tile_neighbours check_identifier
  rw [if_neg (by omega)]

/-- Shifting an identifier by the horizontal tile count does not change its
grid column. -/
theorem tile_coord_snd_shift (t : TileTopology) (hh : 1 ≤ t.tile_horizontal_count)
    (x : ℤ) :
    (t.tile_coord (x + t.tile_horizontal_count)).2 = (t.tile_coord x).2 := by
  unfold tile_coord
  dsimp only
  rw [Int.fmod_eq_emod _ (by omega), Int.fmod_eq_emod _ (by omega)]
  have hx : x + t.tile_horizontal_count - 1 = (x - 1) + t.tile_horizontal_count * 1 := by
    ring
  rw [hx, Int.add_mul_emod_self_left]

/-- Claim C3: neighbour symmetry (a reported right neighbour reports the
original tile as its left neighbour, and the same in the three other
directions), and reported left/right neighbours share the tile's grid row
while reported top/bottom neighbours share its grid column. -/
theorem C3_tile_neighbours_symm (t : TileTopology) (hp : t.params_ok)
    (id1 id2 : ℤ) (hid1 : 1 ≤ id1 ∧ id1 ≤ t.tile_count)
    (hid2 : 1 ≤ id2 ∧ id2 ≤ t.tile_count)
    (nb1 nb2 : Option ℤ × Option ℤ × Option ℤ × Option ℤ)
    (h1 : t.tile_neighbours id1 = .ok nb1) (h2 : t.tile_neighbours id2 = .ok nb2) :
    (nb1.2.2.2 = some id2 → nb2.2.2.1 = some id1) ∧
    (nb1.2.2.1 = some id2 → nb2.2.2.2 = some id1) ∧
    (nb1.2.1 = some id2 → nb2.1 = some id1) ∧
    (nb1.1 = some id2 → nb2.2.1 = some id1) ∧
    (nb1.2.2.2 = some id2 → (t.tile_coord id2).1 = (t.tile_coord id1).1) ∧
    (nb1.2.2.1 = some id2 → (t.tile_coord id2).1 = (t.tile_coord id1).1) ∧
    (nb1.1 = some id2 → (t.tile_coord id2).2 = (t.tile_coord id1).2) ∧
    (nb1.2.1 = some id2 → (t.tile_coord id2).2 = (t.tile_coord id1).2) := by
  have hh := t.tile_horizontal_count_pos hp
  rw [tile_neighbours_ok t id1 hid1.2] at h1
  rw [tile_neighbours_ok t id2 hid2.2] at h2
  injection h1 with h1
  injection h2 with h2
  subst h1
  subst h2
  dsimp only
  -- inversion of the four neighbour expressions
  have hrinv : ∀ a b : ℤ,
      (if a < t.tile_count then
        (if (t.tile_coord (a + 1)).1 ≠ (t.tile_coord a).1 then none else some (a + 1))
       else none) = some b →
      a + 1 = b ∧ a < t.tile_count ∧ (t.tile_coord (a + 1)).1 = (t.tile_coord a).1 := by
    intro a b h
    by_cases hc1 : a < t.tile_count
    · rw [if_pos hc1] at h
      by_cases hc2 : (t.tile_coord (a + 1)).1 ≠ (t.tile_coord a).1
      · rw [if_pos hc2] at h
        exact Option.noConfusion h
      · rw [if_neg hc2] at h
        exact ⟨Option.some.inj h, hc1, not_ne_iff.mp hc2⟩
    · rw [if_neg hc1] at h
      exact Option.noConfusion h
  have hlinv : ∀ a b : ℤ,
      (if a > 1 then
        (if (t.tile_coord (a - 1)).1 ≠ (t.tile_coord a).1 then none else some (a - 1))
       else none) = some b →
      a - 1 = b ∧ a > 1 ∧ (t.tile_coord (a - 1)).1 = (t.tile_coord a).1 := by
    intro a b h
    by_cases hc1 : a > 1
    · rw [if_pos hc1] at h
      by_cases hc2 : (t.tile_coord (a - 1)).1 ≠ (t.tile_coord a).1
      · rw [if_pos hc2] at h
        exact Option.noConfusion h
      · rw [if_neg hc2] at h
        exact ⟨Option.some.inj h, hc1, not_ne_iff.mp hc2⟩
    · rw [if_neg hc1] at h
      exact Option.noConfusion h
  have htinv : ∀ a b : ℤ,
      (if a - t.tile_horizontal_count ≥ 1 then some (a - t.tile_horizontal_count)
       else none) = some b →
      a - t.tile_horizontal_count = b ∧ a - t.tile_horizontal_count ≥ 1 := by
    intro a b h
    by_cases hc1 : a - t.tile_horizontal_count ≥ 1
    · rw [if_pos hc1] at h
      exact ⟨Option.some.inj h, hc1⟩
    · rw [if_neg hc1] at h
      exact Option.noConfusion h
  have hbinv : ∀ a b : ℤ,
      (if a + t.tile_horizontal_count ≤ t.tile_count then
        some (a + t.tile_horizontal_count) else none) = some b →
      a + t.tile_horizontal_count = b ∧ a + t.tile_horizontal_count ≤ t.tile_count := by
    intro a b h
    by_cases hc1 : a + t.tile_horizontal_count ≤ t.tile_count
    · rw [if_pos hc1] at h
      exact ⟨Option.some.inj h, hc1⟩
    · rw [if_neg hc1] at h
      exact Option.noConfusion h
  refine ⟨?_, ?_, ?_, ?_, ?_, ?_, ?_, ?_⟩
  · -- right neighbour reports left
    intro h
    obtain ⟨he, hlt, hrow⟩ := hrinv id1 id2 h
    subst he
    rw [if_pos (by omega : id1 + 1 > 1)]
    have e1 : id1 + 1 - 1 = id1 := by omega
    rw [e1, if_neg (not_ne_iff.mpr hrow.symm)]
  · -- left neighbour reports right
    intro h
    obtain ⟨he, hgt, hrow⟩ := hlinv id1 id2 h
    subst he
    rw [if_pos (by omega : id1 - 1 < t.tile_count)]
    have e1 : id1 - 1 + 1 = id1 := by omega
    rw [e1, if_neg (not_ne_iff.mpr hrow.symm)]
  · -- bottom neighbour reports top
    intro h
    obtain ⟨he, hle⟩ := hbinv id1 id2 h
    rw [if_pos (by omega : id2 - t.tile_horizontal_count ≥ 1)]
    exact congrArg some (by omega)
  · -- top neighbour reports bottom
    intro h
    obtain ⟨he, hge⟩ := htinv id1 id2 h
    rw [if_pos (by omega : id2 + t.tile_horizontal_count ≤ t.tile_count)]
    exact congrArg some (by omega)
  · -- right neighbour in the same row
    intro h
    obtain ⟨he, hlt, hrow⟩ := hrinv id1 id2 h
    rw [← he]
    exact hrow
  · -- left neighbour in the same row
    intro h
    obtain ⟨he, hgt, hrow⟩ := hlinv id1 id2 h
    rw [← he]
    exact hrow
  · -- top neighbour in the same column
    intro h
    obtain ⟨he, hge⟩ := htinv id1 id2 h
    have e1 : id1 = id2 + t.tile_horizontal_count := by omega
    rw [e1, tile_coord_snd_shift t hh]
  · -- bottom neighbour in the same column
    intro h
    obtain ⟨he, hle⟩ := hbinv id1 id2 h
    have e1 : id2 = id1 + t.tile_horizontal_count := by omega
    rw [e1, tile_coord_snd_shift t hh]

/-- Concrete 3×3 topology (image 700×700, tiles 300×300, overlap 100) used
as a regression instance by the specification. -/
def topo700 : TileTopology := ⟨700, 700, 300, 300, 100⟩

/-- Witness for C3: on the 3×3 topology, tile 5 reports right neighbour 6,
which lies in the same row and reports 5 back as its left neighbour. -/
theorem C3_tile_neighbours_symm_witness :
    topo700.params_ok ∧
    topo700.tile_neighbours 5 = .ok (some 2, some 8, some 4, some 6) ∧
    topo700.tile_neighbours 6 = .ok (some 3, some 9, some 5, none) ∧
    (some 5 : Option ℤ) = some 5 ∧
    (topo700.tile_coord 6).1 = (topo700.tile_coord 5).1 := by
  have hmain := C3_tile_neighbours_symm topo700 (by decide) 5 6
    (by constructor <;> decide) (by constructor <;> decide)
    (some 2, some 8, some 4, some 6) (some 3, some 9, some 5, none)
    (by decide) (by decide)
  exact ⟨by decide, by decide, by decide, hmain.1 rfl, hmain.2.2.2.2.1 rfl⟩

/-- Counterexample for C5: the source's `_check_identifier` has no lower
bound check, so `tile_offset(0)` succeeds (returning an offset computed from
the floor-division coordinates of identifier 0) even though `0 < 1`, while
the claim requires it to fail. -/
theorem C5_tile_offset_counterexample :
    (0 : ℤ) < 1 ∧ topo700.tile_offset 0 = .ok (400, -200) := by
  constructor <;> decide

/-- Claim C5, amended: `tile_offset(id)` fails with the out-of-range error
exactly when `id > tile_count`; for every `id ≤ tile_count` — including every
`id < 1`, for which the source performs no check — it succeeds and returns
`(col·(tw−o), row·(th−o))` where `(row, col)` are the floor-division grid
coordinates of `id`. -/
theorem C5_tile_offset_amended (t : TileTopology) (hp : t.params_ok)
    (identifier : ℤ) :
    (t.tile_count < identifier →
      t.tile_offset identifier = .error "invalid tile identifier") ∧
    (identifier ≤ t.tile_count →
      t.tile_offset identifier = .ok
        ((t.tile_coord identifier).2 * (t.max_width - t.overlap),
         (t.tile_coord identifier).1 * (t.max_height - t.overlap))) := by
  refine ⟨fun h => ?_, fun h => ?_⟩
  · unfold tile_offset check_identifier
    rw [if_pos (by omega : identifier > t.tile_count)]
  · unfold tile_offset check_identifier
    rw [if_neg (by omega)]

/-- Witness for the amended C5 at the in-range identifier 5 of the 3×3
topology. -/
theorem C5_tile_offset_amended_witness :
    topo700.tile_offset 5 = .ok (200, 200) :=
  ((C5_tile_offset_amended topo700 (by decide) 5).2 (by decide)).trans (by decide)

end TileTopology

/-! ## Association-list dictionaries

Python `dict`s with a fixed key set are embedded as insertion-ordered
association lists; updating an existing key keeps its position, as in
CPython. -/

/-- Lookup in an association list (first matching key wins). -/
def dictGet {κ α : Type} [DecidableEq κ] : List (κ × α) → κ → Option α
  | [], _ => none
  | (k, v) :: rest, e => if k = e then some v else dictGet rest e

/-- Key list of an association list. -/
def dictKeys {κ α : Type} (l : List (κ × α)) : List κ := l.map Prod.fst

theorem dictGet_mem_keys {κ α : Type} [DecidableEq κ] {l : List (κ × α)} {e : κ} {v : α}
    (h : dictGet l e = some v) : e ∈ dictKeys l := by
  induction l with
  | nil => exact Option.noConfusion h
  | cons p rest ih =>
    obtain ⟨k, w⟩ := p
    by_cases hk : k = e
    · subst hk
      exact List.mem_cons_self _ _
    · rw [dictGet, if_neg hk] at h
      exact List.mem_cons_of_mem _ (ih h)

theorem dictGet_of_mem_keys {κ α : Type} [DecidableEq κ] {l : List (κ × α)} {e : κ}
    (h : e ∈ dictKeys l) : ∃ v, dictGet l e = some v := by
  induction l with
  | nil => exact absurd h (by simp [dictKeys])
  | cons p rest ih =>
    obtain ⟨k, w⟩ := p
    by_cases hk : k = e
    · exact ⟨w, by rw [dictGet, if_pos hk]⟩
    · rcases List.mem_cons.mp h with h1 | h1
      · exact absurd h1.symm hk
      · obtain ⟨v, hv⟩ := ih h1
        exact ⟨v, by rw [dictGet, if_neg hk]; exact hv⟩

theorem dictGet_eq_none_of_not_mem {κ α : Type} [DecidableEq κ] {l : List (κ × α)} {e : κ}
    (h : e ∉ dictKeys l) : dictGet l e = none := by
  cases hd : dictGet l e with
  | none => rfl
  | some v => exact absurd (dictGet_mem_keys hd) h

/-! ## Union-find — `src/sldc/merger.py`, class `UnionFind` -/

/-- Embedding of `UnionFind`: `nodes` is the Python dict `self._nodes`
mapping an element to its `(parent, rank)` pair.  The extra field `bound` is
a recursion budget for the shallow embedding of Python's unbounded recursion
in `_find`: the well-formedness invariant `UnionFind.wf` shows it always
exceeds the depth of every element on states reachable through `init`,
`union`, `same`, `find` and `connected_components`, so the budget is never
exhausted and the embedding computes exactly what the Python code computes. -/
structure UnionFind where
  nodes : List (ℕ × (ℕ × ℕ))
  bound : ℕ
deriving Repr, DecidableEq

namespace UnionFind

/-- Key set of a node table. -/
def nkeys (ns : List (ℕ × (ℕ × ℕ))) : List ℕ := dictKeys ns

/-- Embeds `UnionFind.__init__`: `{e: (e, 0) for e in elements}`. -/
def init (elements : List ℕ) : UnionFind :=
  ⟨elements.map fun e => (e, (e, 0)), elements.length + 1⟩

/-- Python dict update on a (present) key: the stored value changes, the
insertion order does not. -/
def setNode : List (ℕ × (ℕ × ℕ)) → ℕ → (ℕ × ℕ) → List (ℕ × (ℕ × ℕ))
  | [], _, _ => []
  | (k', w) :: rest, k, v =>
    (if k' = k then (k, v) else (k', w)) :: setNode rest k v

/-- Embeds `UnionFind.has`. -/
def hasElem (uf : UnionFind) (e : ℕ) : Bool := (dictGet uf.nodes e).isSome

/-- Embeds `UnionFind._find` (with path compression), fuelled: returns the
`(root, root rank)` pair together with the compressed node table.  The fuel
is only a termination device; under `wf` it is never exhausted. -/
def findAux : ℕ → List (ℕ × (ℕ × ℕ)) → ℕ → Option (ℕ × ℕ) × List (ℕ × (ℕ × ℕ))
  | 0, ns, _ => (none, ns)
  | fuel + 1, ns, e =>
    match dictGet ns e with
    | none => (none, ns)
    | some (p, r) =>
      if p = e then (some (e, r), ns)
      else
        match findAux fuel ns p with
        | (some (pp, pr), ns') => (some (pp, pr), setNode ns' e (pp, r))
        | (none, ns') => (none, ns')

/-- Embeds `UnionFind._find` at the object level. -/
def findWithRank (uf : UnionFind) (e : ℕ) : Option (ℕ × ℕ) × UnionFind :=
  match findAux uf.bound uf.nodes e with
  | (res, ns') => (res, ⟨ns', uf.bound⟩)

/-- Embeds `UnionFind.find`. -/
def find (uf : UnionFind) (e : ℕ) : Option ℕ × UnionFind :=
  match uf.findWithRank e with
  | (res, uf') => (res.map Prod.fst, uf')

/-- Embeds `UnionFind.same`; as in the Python `and`, the second `find` is
not evaluated when the first one returns `None`. -/
def same (uf : UnionFind) (e1 e2 : ℕ) : Bool × UnionFind :=
  match uf.find e1 with
  | (none, uf1) => (false, uf1)
  | (some p1, uf1) =>
    match uf1.find e2 with
    | (p2, uf2) => (decide (p2 = some p1), uf2)

/-- Return value of `UnionFind.union` (`False`, `True`, or the new root). -/
inductive UnionResult where
  | absent : UnionResult
  | already : UnionResult
  | merged : ℕ → UnionResult
deriving Repr, DecidableEq

/-- Embeds `UnionFind.union`: membership check, two `_find` calls, then
either nothing (same root) or re-parenting with the source's rank update. -/
def union (uf : UnionFind) (e1 e2 : ℕ) : UnionResult × UnionFind :=
  if ¬(uf.hasElem e1 ∧ uf.hasElem e2) then (.absent, uf)
  else
    match uf.findWithRank e1 with
    | (none, uf1) => (.absent, uf1)    -- unreachable: `has e1` was checked
    | (some (p1, r1), uf1) =>
      match uf1.findWithRank e2 with
      | (none, uf2) => (.absent, uf2)  -- unreachable: `has e2` was checked
      | (some (p2, r2), uf2) =>
        if p1 = p2 then (.already, uf2)
        else if r1 > r2 then
          (.merged p2,
           ⟨setNode (setNode uf2.nodes p1 (p2, r1)) p2 (p2, r2 + 1), uf2.bound + 1⟩)
        else
          (.merged p1,
           ⟨setNode (setNode uf2.nodes p2 (p1, r2)) p1 (p1, r1 + 1), uf2.bound + 1⟩)

/-- Append an element to the bucket of a key, creating the bucket at the end
when absent (a `defaultdict(list)` access followed by `append`). -/
def bucketAdd : List (ℕ × List ℕ) → ℕ → ℕ → List (ℕ × List ℕ)
  | [], k, e => [(k, [e])]
  | (k', l) :: rest, k, e =>
    if k' = k then (k', l ++ [e]) :: rest else (k', l) :: bucketAdd rest k e

/-- Iteration of `UnionFind.connected_components` over the (fixed) key list,
reading each element's current `(parent, rank)` pair from the live table and
threading the compression performed by the inner `find` calls. -/
def ccAux : List ℕ → UnionFind → List (ℕ × List ℕ) → List (ℕ × List ℕ) × UnionFind
  | [], uf, buckets => (buckets, uf)
  | e :: rest, uf, buckets =>
    match dictGet uf.nodes e with
    | none => ccAux rest uf buckets  -- unreachable: `e` is drawn from the key list
    | some (p, _) =>
      if e = p then ccAux rest uf (bucketAdd buckets e e)
      else
        match uf.find e with
        | (root?, uf') => ccAux rest uf' (bucketAdd buckets (root?.getD e) e)

/-- Embeds `UnionFind.connected_components` (the `.values()` view of the
root-keyed `defaultdict`). -/
def connected_components (uf : UnionFind) : List (List ℕ) :=
  (ccAux (nkeys uf.nodes) uf []).1.map Prod.snd

/-- Pure (compression-free) root computation, used to state the semantics of
the operations. -/
def rootAux : ℕ → List (ℕ × (ℕ × ℕ)) → ℕ → Option ℕ
  | 0, _, _ => none
  | fuel + 1, ns, e =>
    match dictGet ns e with
    | none => none
    | some (p, _) => if p = e then some e else rootAux fuel ns p

/-- Root of an element in the current state. -/
def root (uf : UnionFind) (e : ℕ) : Option ℕ := rootAux uf.bound uf.nodes e

/-- Well-formedness of a node table with respect to a depth measure `d`:
distinct keys, parents stay inside the key set, `d` strictly decreases along
non-trivial parent links, and the recursion budget dominates `d`. -/
structure WFWith (ns : List (ℕ × (ℕ × ℕ))) (bound : ℕ) (d : ℕ → ℕ) : Prop where
  nodup : (nkeys ns).Nodup
  closed : ∀ e p r, dictGet ns e = some (p, r) → p ∈ nkeys ns
  decr : ∀ e p r, dictGet ns e = some (p, r) → p ≠ e → d p < d e
  bdd : ∀ e ∈ nkeys ns, d e < bound

/-- Well-formedness of a union-find state. -/
def wf (uf : UnionFind) : Prop := ∃ d, WFWith uf.nodes uf.bound d

theorem nkeys_setNode (ns : List (ℕ × (ℕ × ℕ))) (k : ℕ) (v : ℕ × ℕ) :
    nkeys (setNode ns k v) = nkeys ns := by
  induction ns with
  | nil => rfl
  | cons p rest ih =>
    obtain ⟨k', w⟩ := p
    rw [setNode]
    by_cases hk : k' = k
    · rw [if_pos hk]
      show k :: nkeys (setNode rest k v) = k' :: nkeys rest
      rw [ih, hk]
    · rw [if_neg hk]
      show k' :: nkeys (setNode rest k v) = k' :: nkeys rest
      rw [ih]

theorem dictGet_setNode_self {ns : List (ℕ × (ℕ × ℕ))} {k : ℕ} (v : ℕ × ℕ)
    (h : k ∈ nkeys ns) : dictGet (setNode ns k v) k = some v := by
  induction ns with
  | nil => exact absurd h (by simp [nkeys, dictKeys])
  | cons p rest ih =>
    obtain ⟨k', w⟩ := p
    rw [setNode]
    by_cases hk : k' = k
    · rw [if_pos hk, dictGet, if_pos rfl]
    · rw [if_neg hk, dictGet, if_neg hk]
      have h' : k ∈ k' :: nkeys rest := h
      rcases List.mem_cons.mp h' with h1 | h1
      · exact absurd h1.symm hk
      · exact ih h1

theorem dictGet_setNode_other {ns : List (ℕ × (ℕ × ℕ))} {k e : ℕ} (v : ℕ × ℕ)
    (h : e ≠ k) : dictGet (setNode ns k v) e = dictGet ns e := by
  induction ns with
  | nil => rfl
  | cons p rest ih =>
    obtain ⟨k', w⟩ := p
    rw [setNode]
    by_cases hk : k' = k
    · subst hk
      rw [if_pos rfl, dictGet, dictGet,
        if_neg (fun hh => h hh.symm), if_neg (fun hh => h hh.symm)]
      exact ih
    · rw [if_neg hk, dictGet, dictGet]
      by_cases he : k' = e
      · rw [if_pos he, if_pos he]
      · rw [if_neg he, if_neg he]
        exact ih

theorem rootAux_succ (f : ℕ) (ns : List (ℕ × (ℕ × ℕ))) (e : ℕ) :
    rootAux (f + 1) ns e =
      match dictGet ns e with
      | none => none
      | some (p, _) => if p = e then some e else rootAux f ns p := rfl

theorem findAux_succ (f : ℕ) (ns : List (ℕ × (ℕ × ℕ))) (e : ℕ) :
    findAux (f + 1) ns e =
      match dictGet ns e with
      | none => (none, ns)
      | some (p, r) =>
        if p = e then (some (e, r), ns)
        else
          match findAux f ns p with
          | (some (pp, pr), ns') => (some (pp, pr), setNode ns' e (pp, r))
          | (none, ns') => (none, ns') := rfl

/-- Root of an element whose table entry is a self-loop. -/
theorem rootAux_root_entry {ns : List (ℕ × (ℕ × ℕ))} {ρ r : ℕ}
    (h : dictGet ns ρ = some (ρ, r)) {f : ℕ} (hf : 0 < f) :
    rootAux f ns ρ = some ρ := by
  cases f with
  | zero => omega
  | succ g => rw [rootAux_succ, h]; simp

theorem rootAux_not_mem {ns : List (ℕ × (ℕ × ℕ))} {e : ℕ}
    (h : e ∉ nkeys ns) (f : ℕ) : rootAux f ns e = none := by
  cases f with
  | zero => rfl
  | succ g => rw [rootAux_succ, dictGet_eq_none_of_not_mem h]

/-- Under well-formedness, the root computation succeeds on every key whose
depth the fuel dominates, and returns a self-looping key of no larger
depth. -/
theorem rootAux_spec {ns : List (ℕ × (ℕ × ℕ))} {bound : ℕ} {d : ℕ → ℕ}
    (hwf : WFWith ns bound d) :
    ∀ (fuel e : ℕ), e ∈ nkeys ns → d e < fuel →
      ∃ ρ, rootAux fuel ns e = some ρ ∧ ρ ∈ nkeys ns ∧
        (∃ r, dictGet ns ρ = some (ρ, r)) ∧ (ρ = e ∨ d ρ < d e) := by
  intro fuel
  induction fuel with
  | zero => intro e _ hf; omega
  | succ f ih =>
    intro e he hf
    obtain ⟨⟨p, r⟩, hget⟩ := dictGet_of_mem_keys he
    by_cases hp : p = e
    · subst hp
      refine ⟨p, ?_, he, ⟨r, hget⟩, Or.inl rfl⟩
      rw [rootAux_succ, hget]
      simp
    · have hpm := hwf.closed _ _ _ hget
      have hdp := hwf.decr _ _ _ hget hp
      obtain ⟨ρ, hρeq, hρm, hρroot, hρd⟩ := ih p hpm (by omega)
      refine ⟨ρ, ?_, hρm, hρroot, Or.inr ?_⟩
      · rw [rootAux_succ, hget]
        simpa [hp] using hρeq
      · rcases hρd with h1 | h1
        · rw [h1]
          omega
        · omega

/-- Fuel irrelevance of the root computation above the element's depth. -/
theorem rootAux_fuel_irrel {ns : List (ℕ × (ℕ × ℕ))} {bound : ℕ} {d : ℕ → ℕ}
    (hwf : WFWith ns bound d) :
    ∀ (fuel fuel' e : ℕ), e ∈ nkeys ns → d e < fuel → d e < fuel' →
      rootAux fuel ns e = rootAux fuel' ns e := by
  intro fuel
  induction fuel with
  | zero => intro fuel' e _ hf; omega
  | succ f ih =>
    intro fuel' e he hf hf'
    cases fuel' with
    | zero => omega
    | succ f' =>
      obtain ⟨⟨p, r⟩, hget⟩ := dictGet_of_mem_keys he
      rw [rootAux_succ, rootAux_succ, hget]
      by_cases hp : p = e
      · simp [hp]
      · have hpm := hwf.closed _ _ _ hget
        have hdp := hwf.decr _ _ _ hget hp
        simpa [hp] using ih f' p hpm (by omega) (by omega)

/-- Re-parenting an element directly to its own root does not change the
root of any element (the path-compression step is semantically silent). -/
theorem root_preserve_reparent {ns : List (ℕ × (ℕ × ℕ))} {bound : ℕ} {d : ℕ → ℕ}
    (hwf : WFWith ns bound d) {e ρ : ℕ} (rnew : ℕ)
    (he : e ∈ nkeys ns)
    (hroot : ∀ f, d e < f → rootAux f ns e = some ρ)
    (hρroot : ∃ rr, dictGet ns ρ = some (ρ, rr))
    (hd : ρ = e ∨ d ρ < d e) :
    ∀ (f x : ℕ), x ∈ nkeys ns → d x < f →
      rootAux f (setNode ns e (ρ, rnew)) x = rootAux f ns x := by
  intro f
  induction f with
  | zero => intro x _ hf; omega
  | succ g ih =>
    intro x hx hf
    by_cases hxe : x = e
    · subst hxe
      rw [rootAux_succ, dictGet_setNode_self _ he, hroot (g + 1) hf]
      show (if ρ = x then some x else rootAux g (setNode ns x (ρ, rnew)) ρ) = some ρ
      by_cases hρe : ρ = x
      · rw [if_pos hρe, hρe]
      · have hdρ : d ρ < d x := hd.resolve_left hρe
        obtain ⟨rr, hrr⟩ := hρroot
        have hentry : dictGet (setNode ns x (ρ, rnew)) ρ = some (ρ, rr) := by
          rw [dictGet_setNode_other _ hρe]
          exact hrr
        rw [if_neg hρe]
        exact rootAux_root_entry hentry (by omega)
    · obtain ⟨⟨px, rx⟩, hgetx⟩ := dictGet_of_mem_keys hx
      have hget' : dictGet (setNode ns e (ρ, rnew)) x = some (px, rx) := by
        rw [dictGet_setNode_other _ hxe]
        exact hgetx
      rw [rootAux_succ, rootAux_succ, hget', hgetx]
      by_cases hpx : px = x
      · simp [hpx]
      · have hpm := hwf.closed _ _ _ hgetx
        have hdp := hwf.decr _ _ _ hgetx hpx
        simpa [hpx] using ih px hpm (by omega)

/-- Updating an absent key is a no-op. -/
theorem setNode_not_mem {ns : List (ℕ × (ℕ × ℕ))} {k : ℕ} (v : ℕ × ℕ)
    (h : k ∉ nkeys ns) : setNode ns k v = ns := by
  induction ns with
  | nil => rfl
  | cons q rest ih =>
    obtain ⟨k', w⟩ := q
    have hk' : ¬(k' = k) := fun hc => h (by rw [← hc]; exact List.mem_cons_self _ _)
    have h' : k ∉ nkeys rest := fun hc => h (List.mem_cons_of_mem _ hc)
    rw [setNode, if_neg hk', ih h']

/-- Re-parenting an element to a key of smaller depth preserves
well-formedness with the same depth measure. -/
theorem wf_setNode_reparent {ns : List (ℕ × (ℕ × ℕ))} {bound : ℕ} {d : ℕ → ℕ}
    (hwf : WFWith ns bound d) {e ρ : ℕ} (rnew : ℕ)
    (hρm : ρ ∈ nkeys ns) (hd : ρ = e ∨ d ρ < d e) :
    WFWith (setNode ns e (ρ, rnew)) bound d := by
  refine ⟨?_, ?_, ?_, ?_⟩
  · rw [nkeys_setNode]
    exact hwf.nodup
  · intro x p r hget
    rw [nkeys_setNode]
    by_cases hxe : x = e
    · subst hxe
      by_cases hxm : x ∈ nkeys ns
      · rw [dictGet_setNode_self _ hxm] at hget
        cases hget
        exact hρm
      · rw [setNode_not_mem _ hxm] at hget
        exact hwf.closed _ _ _ hget
    · rw [dictGet_setNode_other _ hxe] at hget
      exact hwf.closed _ _ _ hget
  · intro x p r hget hne
    by_cases hxe : x = e
    · subst hxe
      by_cases hxm : x ∈ nkeys ns
      · rw [dictGet_setNode_self _ hxm] at hget
        cases hget
        exact hd.resolve_left hne
      · rw [setNode_not_mem _ hxm] at hget
        exact hwf.decr _ _ _ hget hne
    · rw [dictGet_setNode_other _ hxe] at hget
      exact hwf.decr _ _ _ hget hne
  · intro x hx
    rw [nkeys_setNode] at hx
    exact hwf.bdd _ hx

/-- Changing only the rank stored at a self-looping entry changes no root. -/
theorem root_setRank {ns : List (ℕ × (ℕ × ℕ))} {k r0 : ℕ}
    (hk : dictGet ns k = some (k, r0)) (t : ℕ) :
    ∀ (f x : ℕ), rootAux f (setNode ns k (k, t)) x = rootAux f ns x := by
  intro f
  induction f with
  | zero => intro x; rfl
  | succ g ih =>
    intro x
    by_cases hxk : x = k
    · subst hxk
      rw [rootAux_succ, rootAux_succ, hk,
        dictGet_setNode_self _ (dictGet_mem_keys hk)]
      simp
    · rw [rootAux_succ, rootAux_succ, dictGet_setNode_other _ hxk]
      cases hget : dictGet ns x with
      | none => rfl
      | some pr =>
        obtain ⟨px, rx⟩ := pr
        by_cases hpx : px = x
        · simp [hpx]
        · simpa [hpx] using ih px

/-- Changing only the rank stored at a self-looping entry preserves
well-formedness. -/
theorem wf_setRank {ns : List (ℕ × (ℕ × ℕ))} {bound : ℕ} {d : ℕ → ℕ}
    (hwf : WFWith ns bound d) {k r0 : ℕ}
    (hk : dictGet ns k = some (k, r0)) (t : ℕ) :
    WFWith (setNode ns k (k, t)) bound d := by
  refine ⟨?_, ?_, ?_, ?_⟩
  · rw [nkeys_setNode]
    exact hwf.nodup
  · intro x p r hget
    rw [nkeys_setNode]
    by_cases hxk : x = k
    · subst hxk
      rw [dictGet_setNode_self _ (dictGet_mem_keys hk)] at hget
      cases hget
      exact dictGet_mem_keys hk
    · rw [dictGet_setNode_other _ hxk] at hget
      exact hwf.closed _ _ _ hget
  · intro x p r hget hne
    by_cases hxk : x = k
    · subst hxk
      rw [dictGet_setNode_self _ (dictGet_mem_keys hk)] at hget
      cases hget
      exact absurd rfl hne
    · rw [dictGet_setNode_other _ hxk] at hget
      exact hwf.decr _ _ _ hget hne
  · intro x hx
    rw [nkeys_setNode] at hx
    exact hwf.bdd _ hx

/-- A larger recursion budget preserves well-formedness. -/
theorem wf_mono_bound {ns : List (ℕ × (ℕ × ℕ))} {bound bound' : ℕ} {d : ℕ → ℕ}
    (hwf : WFWith ns bound d) (h : bound ≤ bound') : WFWith ns bound' d :=
  ⟨hwf.nodup, hwf.closed, hwf.decr, fun e he => lt_of_lt_of_le (hwf.bdd e he) h⟩

/-- Master specification of `_find` on a well-formed table: it returns the
element's root together with the rank stored at that root, performs path
compression without changing any element's root or any self-looping entry,
and preserves well-formedness with the same depth measure. -/
theorem findAux_spec {ns : List (ℕ × (ℕ × ℕ))} {bound : ℕ} {d : ℕ → ℕ}
    (hwf : WFWith ns bound d) :
    ∀ (f e : ℕ), e ∈ nkeys ns → d e < f →
      ∃ ρ rk ns',
        findAux f ns e = (some (ρ, rk), ns') ∧
        (∀ f', d e < f' → rootAux f' ns e = some ρ) ∧
        dictGet ns ρ = some (ρ, rk) ∧
        nkeys ns' = nkeys ns ∧
        WFWith ns' bound d ∧
        (∀ x rr, dictGet ns x = some (x, rr) → dictGet ns' x = some (x, rr)) ∧
        (∀ (x f' : ℕ), x ∈ nkeys ns → d x < f' → rootAux f' ns' x = rootAux f' ns x) ∧
        (ρ = e ∨ d ρ < d e) := by
  intro f
  induction f with
  | zero => intro e _ hf; omega
  | succ g ih =>
    intro e he hf
    obtain ⟨⟨p, r⟩, hget⟩ := dictGet_of_mem_keys he
    by_cases hp : p = e
    · subst hp
      refine ⟨p, r, ns, ?_, ?_, hget, rfl, hwf, fun x rr h => h,
        fun x f' _ _ => rfl, Or.inl rfl⟩
      · rw [findAux_succ, hget]
        simp
      · intro f' hf'
        cases f' with
        | zero => omega
        | succ g' =>
          rw [rootAux_succ, hget]
          simp
    · have hpm := hwf.closed _ _ _ hget
      have hdp := hwf.decr _ _ _ hget hp
      obtain ⟨ρ, rk, ns₁, hfeq, hrootp, hρentry, hkeys₁, hwf₁, hentries₁, hpres₁, hdisj⟩ :=
        ih p hpm (by omega)
      have hfeq' : findAux (g + 1) ns e = (some (ρ, rk), setNode ns₁ e (ρ, r)) := by
        rw [findAux_succ, hget]
        show (if p = e then (some (e, r), ns)
              else match findAux g ns p with
                   | (some (pp, pr), ns') => (some (pp, pr), setNode ns' e (pp, r))
                   | (none, ns') => (none, ns')) = _
        rw [if_neg hp, hfeq]
      have hroote : ∀ f', d e < f' → rootAux f' ns e = some ρ := by
        intro f' hf'
        cases f' with
        | zero => omega
        | succ g' =>
          rw [rootAux_succ, hget]
          simpa [hp] using hrootp g' (by omega)
      have hdρe : d ρ < d e := by
        rcases hdisj with h1 | h1
        · rw [h1]
          omega
        · omega
      have hρentry₁ : dictGet ns₁ ρ = some (ρ, rk) := hentries₁ _ _ hρentry
      have hem₁ : e ∈ nkeys ns₁ := by rw [hkeys₁]; exact he
      have hroote₁ : ∀ f', d e < f' → rootAux f' ns₁ e = some ρ := by
        intro f' hf'
        rw [hpres₁ e f' he hf']
        exact hroote f' hf'
      refine ⟨ρ, rk, setNode ns₁ e (ρ, r), hfeq', hroote, hρentry, ?_, ?_, ?_, ?_,
        Or.inr hdρe⟩
      · rw [nkeys_setNode, hkeys₁]
      · exact wf_setNode_reparent hwf₁ r (dictGet_mem_keys hρentry₁) (Or.inr hdρe)
      · intro x rr hx
        have hxe : x ≠ e := by
          intro hc
          subst hc
          exact hp (congrArg Prod.fst (Option.some.inj (hget.symm.trans hx)))
        rw [dictGet_setNode_other _ hxe]
        exact hentries₁ _ _ hx
      · intro x f' hx hf'
        have hx₁ : x ∈ nkeys ns₁ := by rw [hkeys₁]; exact hx
        rw [root_preserve_reparent hwf₁ r hem₁ hroote₁ ⟨rk, hρentry₁⟩ (Or.inr hdρe) f' x hx₁ hf']
        exact hpres₁ x f' hx hf'

/-- Linking the root `ρ₁` under the root `ρ₂` redirects exactly the elements
that had root `ρ₁` to root `ρ₂`, and leaves every other root unchanged (the
fuel must dominate the old depth plus the one extra hop through `ρ₁`). -/
theorem root_link {ns : List (ℕ × (ℕ × ℕ))} {bound : ℕ} {d : ℕ → ℕ}
    (hwf : WFWith ns bound d) {ρ₁ ρ₂ s₁ s₂ : ℕ} (t : ℕ)
    (h1 : dictGet ns ρ₁ = some (ρ₁, s₁)) (h2 : dictGet ns ρ₂ = some (ρ₂, s₂))
    (hne : ρ₁ ≠ ρ₂) :
    ∀ (f x : ℕ), x ∈ nkeys ns → d x + 1 < f →
      rootAux f (setNode ns ρ₁ (ρ₂, t)) x =
        (rootAux f ns x).map (fun ρ => if ρ = ρ₁ then ρ₂ else ρ) := by
  intro f
  induction f with
  | zero => intro x _ hf; omega
  | succ g ih =>
    intro x hx hf
    by_cases hx1 : x = ρ₁
    · subst hx1
      rw [rootAux_succ, rootAux_succ, h1,
        dictGet_setNode_self _ (dictGet_mem_keys h1)]
      show (if ρ₂ = x then some x else rootAux g (setNode ns x (ρ₂, t)) ρ₂) =
        Option.map _ (if x = x then some x else rootAux g ns x)
      rw [if_pos rfl, if_neg (fun hc => hne hc.symm)]
      have hentry : dictGet (setNode ns x (ρ₂, t)) ρ₂ = some (ρ₂, s₂) := by
        rw [dictGet_setNode_other _ (fun hc => hne hc.symm)]
        exact h2
      rw [rootAux_root_entry hentry (by omega)]
      simp
    · obtain ⟨⟨px, rx⟩, hgetx⟩ := dictGet_of_mem_keys hx
      have hget' : dictGet (setNode ns ρ₁ (ρ₂, t)) x = some (px, rx) := by
        rw [dictGet_setNode_other _ hx1]
        exact hgetx
      rw [rootAux_succ, rootAux_succ, hget', hgetx]
      by_cases hpx : px = x
      · simp [hpx, hx1]
      · have hpm := hwf.closed _ _ _ hgetx
        have hdp := hwf.decr _ _ _ hgetx hpx
        simpa [hpx] using ih px hpm (by omega)

/-- Well-formedness after linking root `ρ₁` under root `ρ₂`, with the
adjusted depth measure that re-bases the merged tree. -/
theorem wf_link {ns : List (ℕ × (ℕ × ℕ))} {bound : ℕ} {d : ℕ → ℕ}
    (hwf : WFWith ns bound d) {ρ₁ ρ₂ s₁ s₂ : ℕ} (t : ℕ)
    (h1 : dictGet ns ρ₁ = some (ρ₁, s₁)) (h2 : dictGet ns ρ₂ = some (ρ₂, s₂))
    (hne : ρ₁ ≠ ρ₂) :
    WFWith (setNode ns ρ₁ (ρ₂, t)) (bound + 1)
      (fun x => if x = ρ₂ then 0 else d x + 1) := by
  refine ⟨?_, ?_, ?_, ?_⟩
  · rw [nkeys_setNode]
    exact hwf.nodup
  · intro x p r hget
    rw [nkeys_setNode]
    by_cases hx1 : x = ρ₁
    · subst hx1
      rw [dictGet_setNode_self _ (dictGet_mem_keys h1)] at hget
      cases hget
      exact dictGet_mem_keys h2
    · rw [dictGet_setNode_other _ hx1] at hget
      exact hwf.closed _ _ _ hget
  · intro x p r hget hnex
    by_cases hx1 : x = ρ₁
    · subst hx1
      rw [dictGet_setNode_self _ (dictGet_mem_keys h1)] at hget
      cases hget
      rw [if_pos rfl, if_neg hne]
      omega
    · rw [dictGet_setNode_other _ hx1] at hget
      have hxρ₂ : x ≠ ρ₂ := by
        intro hc
        subst hc
        exact hnex (congrArg Prod.fst (Option.some.inj (h2.symm.trans hget))).symm
      rw [if_neg hxρ₂]
      by_cases hpρ₂ : p = ρ₂
      · rw [if_pos hpρ₂]
        omega
      · rw [if_neg hpρ₂]
        have := hwf.decr _ _ _ hget hnex
        omega
  · intro x hx
    rw [nkeys_setNode] at hx
    have := hwf.bdd _ hx
    by_cases hc : x = ρ₂
    · rw [if_pos hc]
      omega
    · rw [if_neg hc]
      omega

/-- Propositional core of the union characterisation: equality of roots
after redirecting `ρ₁` to `ρ₂`. -/
theorem link_iff (ρ₁ ρ₂ rx ry : ℕ) (hne : ρ₁ ≠ ρ₂) :
    ((if rx = ρ₁ then ρ₂ else rx) = (if ry = ρ₁ then ρ₂ else ry)) ↔
      (rx = ry ∨ (rx = ρ₁ ∧ ρ₂ = ry) ∨ (rx = ρ₂ ∧ ρ₁ = ry)) := by
  by_cases h1 : rx = ρ₁ <;> by_cases h2 : ry = ρ₁ <;>
    simp only [h1, h2, if_pos, if_neg, if_true, if_false] <;>
    constructor <;> intro h <;> first
      | tauto
      | (rcases h with h | h | h <;> try tauto)

theorem hasElem_iff_mem (uf : UnionFind) (e : ℕ) :
    uf.hasElem e = true ↔ e ∈ nkeys uf.nodes := by
  unfold hasElem
  constructor
  · intro h
    cases hg : dictGet uf.nodes e with
    | none => rw [hg] at h; exact absurd h (by simp)
    | some v => exact dictGet_mem_keys hg
  · intro h
    obtain ⟨v, hv⟩ := dictGet_of_mem_keys h
    rw [hv]
    rfl

/-- Every key has a root. -/
theorem root_some {uf : UnionFind} {d : ℕ → ℕ}
    (hwf : WFWith uf.nodes uf.bound d) {x : ℕ} (hx : x ∈ nkeys uf.nodes) :
    ∃ rx, root uf x = some rx ∧ rx ∈ nkeys uf.nodes := by
  obtain ⟨ρ, h1, h2, _, _⟩ := rootAux_spec hwf uf.bound x hx (hwf.bdd x hx)
  exact ⟨ρ, h1, h2⟩

/-- Object-level specification of `_find`. -/
theorem findWithRank_specD {uf : UnionFind} {d : ℕ → ℕ}
    (hwf : WFWith uf.nodes uf.bound d) {e : ℕ} (he : e ∈ nkeys uf.nodes) :
    ∃ ρ rk uf',
      uf.findWithRank e = (some (ρ, rk), uf') ∧
      root uf e = some ρ ∧
      dictGet uf.nodes ρ = some (ρ, rk) ∧
      dictGet uf'.nodes ρ = some (ρ, rk) ∧
      uf'.bound = uf.bound ∧
      nkeys uf'.nodes = nkeys uf.nodes ∧
      WFWith uf'.nodes uf'.bound d ∧
      (∀ x rr, dictGet uf.nodes x = some (x, rr) → dictGet uf'.nodes x = some (x, rr)) ∧
      (∀ x, x ∈ nkeys uf.nodes → root uf' x = root uf x) := by
  have hde := hwf.bdd e he
  obtain ⟨ρ, rk, ns', hfeq, hroot, hρ, hkeys, hwf', hentries, hpres, _⟩ :=
    findAux_spec hwf uf.bound e he hde
  refine ⟨ρ, rk, ⟨ns', uf.bound⟩, ?_, hroot uf.bound hde, hρ, hentries _ _ hρ, rfl,
    hkeys, hwf', hentries, ?_⟩
  · unfold findWithRank
    rw [hfeq]
  · intro x hx
    show rootAux uf.bound ns' x = rootAux uf.bound uf.nodes x
    exact hpres x uf.bound hx (hwf.bdd x hx)

/-- Object-level specification of `find`. -/
theorem find_specD {uf : UnionFind} {d : ℕ → ℕ}
    (hwf : WFWith uf.nodes uf.bound d) {e : ℕ} (he : e ∈ nkeys uf.nodes) :
    ∃ ρ uf',
      uf.find e = (some ρ, uf') ∧
      root uf e = some ρ ∧
      uf'.bound = uf.bound ∧
      nkeys uf'.nodes = nkeys uf.nodes ∧
      WFWith uf'.nodes uf'.bound d ∧
      (∀ x rr, dictGet uf.nodes x = some (x, rr) → dictGet uf'.nodes x = some (x, rr)) ∧
      (∀ x, x ∈ nkeys uf.nodes → root uf' x = root uf x) := by
  obtain ⟨ρ, rk, uf', hfeq, hroot, _, _, hbd, hkeys, hwf', hentries, hpres⟩ :=
    findWithRank_specD hwf he
  refine ⟨ρ, uf', ?_, hroot, hbd, hkeys, hwf', hentries, hpres⟩
  unfold find
  rw [hfeq]
  rfl

/-- Object-level specification of `same`: the returned boolean is root
equality, and the state is only compressed. -/
theorem same_specD {uf : UnionFind} {d : ℕ → ℕ}
    (hwf : WFWith uf.nodes uf.bound d) {a b : ℕ}
    (ha : a ∈ nkeys uf.nodes) (hb : b ∈ nkeys uf.nodes) :
    ∃ res uf',
      uf.same a b = (res, uf') ∧
      (res = true ↔ root uf a = root uf b) ∧
      uf'.bound = uf.bound ∧
      nkeys uf'.nodes = nkeys uf.nodes ∧
      WFWith uf'.nodes uf'.bound d ∧
      (∀ x rr, dictGet uf.nodes x = some (x, rr) → dictGet uf'.nodes x = some (x, rr)) ∧
      (∀ x, x ∈ nkeys uf.nodes → root uf' x = root uf x) := by
  obtain ⟨ρ₁, uf₁, hf1, hr1, hbd1, hk1, hw1, hent1, hpres1⟩ := find_specD hwf ha
  have hb₁ : b ∈ nkeys uf₁.nodes := by rw [hk1]; exact hb
  obtain ⟨ρ₂, uf₂, hf2, hr2, hbd2, hk2, hw2, hent2, hpres2⟩ := find_specD hw1 hb₁
  have hrb : root uf b = some ρ₂ := by rw [← hpres1 b hb]; exact hr2
  refine ⟨decide (some ρ₂ = some ρ₁), uf₂, ?_, ?_, hbd2.trans hbd1, hk2.trans hk1, hw2,
    fun x rr hx => hent2 _ _ (hent1 _ _ hx), fun x hx => ?_⟩
  · unfold same
    rw [hf1]
    show (match uf₁.find b with
          | (p2, uf2) => (decide (p2 = some ρ₁), uf2)) = _
    rw [hf2]
  · rw [decide_eq_true_iff, hr1, hrb]
    constructor
    · intro h
      exact h.symm
    · intro h
      exact h.symm
  · rw [hpres2 x (by rw [hk1]; exact hx), hpres1 x hx]

/-- Characterisation of root equality after a `union` whose new state maps
every old root `ρ₁` to `ρ₂`. -/
theorem union_char_of_map {uf uf' : UnionFind} {d : ℕ → ℕ} {a b ρ₁ ρ₂ : ℕ}
    (hwf : WFWith uf.nodes uf.bound d) (hne : ρ₁ ≠ ρ₂)
    (hchar : ∀ x, x ∈ nkeys uf.nodes →
      root uf' x = (root uf x).map (fun ρ => if ρ = ρ₁ then ρ₂ else ρ))
    (hra : root uf a = some ρ₁) (hrb : root uf b = some ρ₂) :
    ∀ x y, x ∈ nkeys uf.nodes → y ∈ nkeys uf.nodes →
      (root uf' x = root uf' y ↔
        (root uf x = root uf y ∨
         (root uf x = root uf a ∧ root uf b = root uf y) ∨
         (root uf x = root uf b ∧ root uf a = root uf y))) := by
  intro x y hx hy
  obtain ⟨rx, hrx, _⟩ := root_some hwf hx
  obtain ⟨ry, hry, _⟩ := root_some hwf hy
  rw [hchar x hx, hchar y hy, hrx, hry, hra, hrb]
  simp only [Option.map_some', Option.some.injEq]
  exact link_iff ρ₁ ρ₂ rx ry hne

/-- Object-level specification of `union` on two present elements: the new
state is well-formed with unchanged keys, and root equality in it is root
equality in the old state extended by exactly the merge of the classes of
`a` and `b`. -/
theorem union_specD {uf : UnionFind} {d : ℕ → ℕ}
    (hwf : WFWith uf.nodes uf.bound d) {a b : ℕ}
    (ha : a ∈ nkeys uf.nodes) (hb : b ∈ nkeys uf.nodes) :
    ∃ res uf',
      uf.union a b = (res, uf') ∧
      wf uf' ∧
      nkeys uf'.nodes = nkeys uf.nodes ∧
      uf.bound ≤ uf'.bound ∧
      (∀ x y, x ∈ nkeys uf.nodes → y ∈ nkeys uf.nodes →
        (root uf' x = root uf' y ↔
          (root uf x = root uf y ∨
           (root uf x = root uf a ∧ root uf b = root uf y) ∨
           (root uf x = root uf b ∧ root uf a = root uf y)))) := by
  have hga : uf.hasElem a = true := (hasElem_iff_mem _ _).mpr ha
  have hgb : uf.hasElem b = true := (hasElem_iff_mem _ _).mpr hb
  obtain ⟨ρ₁, rk₁, uf₁, hf1, hr1, hρ1uf, hρ1uf₁, hbd1, hk1, hw1, hent1, hpres1⟩ :=
    findWithRank_specD hwf ha
  have hb₁ : b ∈ nkeys uf₁.nodes := by rw [hk1]; exact hb
  obtain ⟨ρ₂, rk₂, uf₂, hf2, hr2, hρ2uf₁, hρ2uf₂, hbd2, hk2, hw2, hent2, hpres2⟩ :=
    findWithRank_specD hw1 hb₁
  have hrb : root uf b = some ρ₂ := by rw [← hpres1 b hb]; exact hr2
  have hρ1uf₂ : dictGet uf₂.nodes ρ₁ = some (ρ₁, rk₁) := hent2 _ _ hρ1uf₁
  have hpres : ∀ x, x ∈ nkeys uf.nodes → root uf₂ x = root uf x := by
    intro x hx
    rw [hpres2 x (by rw [hk1]; exact hx), hpres1 x hx]
  have hkeys₂ : nkeys uf₂.nodes = nkeys uf.nodes := hk2.trans hk1
  have hbd₂ : uf₂.bound = uf.bound := hbd2.trans hbd1
  have hueq : uf.union a b =
      (if ρ₁ = ρ₂ then (.already, uf₂)
       else if rk₁ > rk₂ then
         (.merged ρ₂,
          ⟨setNode (setNode uf₂.nodes ρ₁ (ρ₂, rk₁)) ρ₂ (ρ₂, rk₂ + 1), uf₂.bound + 1⟩)
       else
         (.merged ρ₁,
          ⟨setNode (setNode uf₂.nodes ρ₂ (ρ₁, rk₂)) ρ₁ (ρ₁, rk₁ + 1), uf₂.bound + 1⟩)) := by
    unfold union
    rw [if_neg (fun hc => hc ⟨hga, hgb⟩), hf1]
    show (match uf₁.findWithRank b with
          | (none, uf2) => (UnionResult.absent, uf2)
          | (some (p2, r2), uf2) =>
            if ρ₁ = p2 then (UnionResult.already, uf2)
            else if rk₁ > r2 then
              (UnionResult.merged p2,
               ⟨setNode (setNode uf2.nodes ρ₁ (p2, rk₁)) p2 (p2, r2 + 1),
                uf2.bound + 1⟩)
            else
              (UnionResult.merged ρ₁,
               ⟨setNode (setNode uf2.nodes p2 (ρ₁, r2)) ρ₁ (ρ₁, rk₁ + 1),
                uf2.bound + 1⟩)) = _
    rw [hf2]
  by_cases hρ : ρ₁ = ρ₂
  · refine ⟨.already, uf₂, by rw [hueq, if_pos hρ], ⟨d, hw2⟩, hkeys₂,
      le_of_eq hbd₂.symm, ?_⟩
    intro x y hx hy
    rw [hpres x hx, hpres y hy]
    constructor
    · exact Or.inl
    · intro h
      rcases h with h | ⟨h1, h2⟩ | ⟨h1, h2⟩
      · exact h
      · rw [h1, hr1, hρ, ← hrb, h2]
      · rw [h1, hrb, ← hρ, ← hr1, h2]
  · by_cases hrk : rk₁ > rk₂
    · -- `ρ₁` is linked under `ρ₂`
      have hρ2ns₃ : dictGet (setNode uf₂.nodes ρ₁ (ρ₂, rk₁)) ρ₂ = some (ρ₂, rk₂) := by
        rw [dictGet_setNode_other _ (fun hc => hρ hc.symm)]
        exact hρ2uf₂
      have hwf₃ := wf_link hw2 rk₁ hρ1uf₂ hρ2uf₂ hρ
      have hwf' := wf_setRank hwf₃ hρ2ns₃ (rk₂ + 1)
      have hchar : ∀ x, x ∈ nkeys uf.nodes →
          root ⟨setNode (setNode uf₂.nodes ρ₁ (ρ₂, rk₁)) ρ₂ (ρ₂, rk₂ + 1),
                uf₂.bound + 1⟩ x =
            (root uf x).map (fun ρ => if ρ = ρ₁ then ρ₂ else ρ) := by
        intro x hx
        have hx₂ : x ∈ nkeys uf₂.nodes := by rw [hkeys₂]; exact hx
        have hdx := hw2.bdd x hx₂
        show rootAux (uf₂.bound + 1) (setNode (setNode uf₂.nodes ρ₁ (ρ₂, rk₁)) ρ₂
          (ρ₂, rk₂ + 1)) x = _
        rw [root_setRank hρ2ns₃ (rk₂ + 1) (uf₂.bound + 1) x,
          root_link hw2 rk₁ hρ1uf₂ hρ2uf₂ hρ (uf₂.bound + 1) x hx₂ (by omega),
          rootAux_fuel_irrel hw2 (uf₂.bound + 1) uf₂.bound x hx₂ (by omega) hdx,
          show rootAux uf₂.bound uf₂.nodes x = root uf₂ x from rfl, hpres x hx]
      refine ⟨_, _, by rw [hueq, if_neg hρ, if_pos hrk],
        ⟨_, hwf'⟩, ?_, ?_, union_char_of_map hwf hρ hchar hr1 hrb⟩
      · show nkeys (setNode (setNode uf₂.nodes ρ₁ (ρ₂, rk₁)) ρ₂ (ρ₂, rk₂ + 1)) = _
        rw [nkeys_setNode, nkeys_setNode, hkeys₂]
      · show uf.bound ≤ uf₂.bound + 1
        omega
    · -- `ρ₂` is linked under `ρ₁`
      have hρ1ns₃ : dictGet (setNode uf₂.nodes ρ₂ (ρ₁, rk₂)) ρ₁ = some (ρ₁, rk₁) := by
        rw [dictGet_setNode_other _ hρ]
        exact hρ1uf₂
      have hwf₃ := wf_link hw2 rk₂ hρ2uf₂ hρ1uf₂ (fun hc => hρ hc.symm)
      have hwf' := wf_setRank hwf₃ hρ1ns₃ (rk₁ + 1)
      have hchar : ∀ x, x ∈ nkeys uf.nodes →
          root ⟨setNode (setNode uf₂.nodes ρ₂ (ρ₁, rk₂)) ρ₁ (ρ₁, rk₁ + 1),
                uf₂.bound + 1⟩ x =
            (root uf x).map (fun ρ => if ρ = ρ₂ then ρ₁ else ρ) := by
        intro x hx
        have hx₂ : x ∈ nkeys uf₂.nodes := by rw [hkeys₂]; exact hx
        have hdx := hw2.bdd x hx₂
        show rootAux (uf₂.bound + 1) (setNode (setNode uf₂.nodes ρ₂ (ρ₁, rk₂)) ρ₁
          (ρ₁, rk₁ + 1)) x = _
        rw [root_setRank hρ1ns₃ (rk₁ + 1) (uf₂.bound + 1) x,
          root_link hw2 rk₂ hρ2uf₂ hρ1uf₂ (fun hc => hρ hc.symm) (uf₂.bound + 1) x hx₂
            (by omega),
          rootAux_fuel_irrel hw2 (uf₂.bound + 1) uf₂.bound x hx₂ (by omega) hdx,
          show rootAux uf₂.bound uf₂.nodes x = root uf₂ x from rfl, hpres x hx]
      have hmain := union_char_of_map hwf (fun hc => hρ hc.symm) hchar hrb hr1
      refine ⟨_, _, by rw [hueq, if_neg hρ, if_neg hrk], ⟨_, hwf'⟩, ?_, ?_, ?_⟩
      · show nkeys (setNode (setNode uf₂.nodes ρ₂ (ρ₁, rk₂)) ρ₁ (ρ₁, rk₁ + 1)) = _
        rw [nkeys_setNode, nkeys_setNode, hkeys₂]
      · show uf.bound ≤ uf₂.bound + 1
        omega
      · intro x y hx hy
        rw [hmain x y hx hy]
        tauto

theorem nkeys_init (elements : List ℕ) : nkeys (init elements).nodes = elements := by
  induction elements with
  | nil => rfl
  | cons e rest ih =>
    show e :: nkeys (rest.map fun x => (x, (x, 0))) = e :: rest
    rw [show nkeys (rest.map fun x => (x, (x, 0))) = nkeys (init rest).nodes from rfl, ih]

theorem dictGet_init {elements : List ℕ} {e : ℕ} (h : e ∈ elements) :
    dictGet (init elements).nodes e = some (e, 0) := by
  induction elements with
  | nil => exact absurd h (List.not_mem_nil e)
  | cons a rest ih =>
    show dictGet ((a, (a, 0)) :: rest.map fun x => (x, (x, 0))) e = some (e, 0)
    by_cases ha : a = e
    · rw [dictGet, if_pos ha, ha]
    · rw [dictGet, if_neg ha]
      rcases List.mem_cons.mp h with h1 | h1
      · exact absurd h1.symm ha
      · exact ih h1

theorem dictGet_init_inv {elements : List ℕ} {e p r : ℕ}
    (h : dictGet (init elements).nodes e = some (p, r)) : p = e ∧ r = 0 := by
  induction elements with
  | nil => exact Option.noConfusion h
  | cons a rest ih =>
    by_cases ha : a = e
    · have h' : dictGet ((a, (a, 0)) :: rest.map fun x => (x, (x, 0))) e = some (p, r) := h
      rw [dictGet, if_pos ha] at h'
      have := Option.some.inj h'
      exact ⟨(congrArg Prod.fst this).symm.trans ha,
        (congrArg Prod.snd this).symm⟩
    · have h' : dictGet ((a, (a, 0)) :: rest.map fun x => (x, (x, 0))) e = some (p, r) := h
      rw [dictGet, if_neg ha] at h'
      exact ih h'

/-- The freshly initialised structure is well-formed (depth zero). -/
theorem wf_init (elements : List ℕ) (hnd : elements.Nodup) :
    WFWith (init elements).nodes (init elements).bound (fun _ => 0) := by
  refine ⟨?_, ?_, ?_, ?_⟩
  · rw [nkeys_init]
    exact hnd
  · intro e p r hget
    obtain ⟨h1, _⟩ := dictGet_init_inv hget
    subst h1
    exact dictGet_mem_keys hget
  · intro e p r hget hne
    obtain ⟨h1, _⟩ := dictGet_init_inv hget
    exact absurd h1 hne
  · intro e _
    show 0 < elements.length + 1
    omega

theorem root_init {elements : List ℕ} {e : ℕ} (h : e ∈ elements) :
    root (init elements) e = some e := by
  exact rootAux_root_entry (dictGet_init h) (by show 0 < elements.length + 1; omega)

/-- The node-table key list is invariant under `_find`, with no
well-formedness assumption. -/
theorem findAux_keys (f : ℕ) : ∀ (ns : List (ℕ × (ℕ × ℕ))) (e : ℕ),
    nkeys (findAux f ns e).2 = nkeys ns := by
  induction f with
  | zero => intro ns e; rfl
  | succ g ih =>
    intro ns e
    cases hget : dictGet ns e with
    | none => rw [findAux_succ, hget]
    | some pr =>
      obtain ⟨p, r⟩ := pr
      rw [findAux_succ, hget]
      show nkeys (if p = e then (some (e, r), ns)
        else match findAux g ns p with
          | (some (pp, pr), ns') => (some (pp, pr), setNode ns' e (pp, r))
          | (none, ns') => (none, ns')).2 = nkeys ns
      by_cases hp : p = e
      · rw [if_pos hp]
      · rw [if_neg hp]
        rcases hrec : findAux g ns p with ⟨res, ns₁⟩
        have hk₁ : nkeys ns₁ = nkeys ns := by
          have := ih ns p
          rw [hrec] at this
          exact this
        cases res with
        | none => exact hk₁
        | some v =>
          obtain ⟨pp, pr'⟩ := v
          show nkeys (setNode ns₁ e (pp, r)) = nkeys ns
          rw [nkeys_setNode, hk₁]

theorem find_keys (uf : UnionFind) (e : ℕ) :
    nkeys (uf.find e).2.nodes = nkeys uf.nodes := by
  unfold find findWithRank
  rcases hrec : findAux uf.bound uf.nodes e with ⟨res, ns'⟩
  have := findAux_keys uf.bound uf.nodes e
  rw [hrec] at this
  exact this

/-- Moving a singleton across an append, up to permutation. -/
theorem perm_append_singleton_mid (l J : List ℕ) (e : ℕ) :
    ((l ++ [e]) ++ J).Perm ((l ++ J) ++ [e]) := by
  rw [List.append_assoc l [e] J, List.append_assoc l J [e]]
  exact List.Perm.append_left l List.perm_append_comm

/-- Appending to a bucket appends exactly one element to the flattened
contents, up to permutation. -/
theorem join_bucketAdd (bs : List (ℕ × List ℕ)) (k e : ℕ) :
    (((bucketAdd bs k e).map Prod.snd).flatten).Perm
      (((bs.map Prod.snd).flatten) ++ [e]) := by
  induction bs with
  | nil => simp [bucketAdd]
  | cons p rest ih =>
    obtain ⟨k', l⟩ := p
    by_cases hk : k' = k
    · rw [bucketAdd, if_pos hk]
      simp only [List.map_cons, List.flatten_cons]
      exact perm_append_singleton_mid l _ e
    · rw [bucketAdd, if_neg hk]
      simp only [List.map_cons, List.flatten_cons]
      have h3 := List.Perm.append_left l ih
      rw [← List.append_assoc] at h3
      exact h3

/-- The components iteration buckets each visited element exactly once. -/
theorem ccAux_perm : ∀ (l : List ℕ) (uf : UnionFind) (bs : List (ℕ × List ℕ)),
    (∀ e ∈ l, e ∈ nkeys uf.nodes) →
    ((((ccAux l uf bs).1.map Prod.snd).flatten)).Perm
      (((bs.map Prod.snd).flatten) ++ l) := by
  intro l
  induction l with
  | nil =>
    intro uf bs _
    simp [ccAux]
  | cons e rest ih =>
    intro uf bs hsub
    have he := hsub e (List.mem_cons_self _ _)
    obtain ⟨⟨p, r⟩, hget⟩ := dictGet_of_mem_keys he
    rw [ccAux, hget]
    show ((((if e = p then ccAux rest uf (bucketAdd bs e e)
      else match uf.find e with
        | (root?, uf') => ccAux rest uf' (bucketAdd bs (root?.getD e) e)).1.map
          Prod.snd).flatten)).Perm _
    by_cases hpe : e = p
    · rw [if_pos hpe]
      have hmain := ih uf (bucketAdd bs e e) (fun x hx => hsub x (List.mem_cons_of_mem _ hx))
      refine hmain.trans ?_
      have hb := (join_bucketAdd bs e e).append_right rest
      rw [List.append_assoc] at hb
      exact hb.trans (by rw [List.singleton_append])
    · rw [if_neg hpe]
      rcases hfe : uf.find e with ⟨ro, uf'⟩
      have hkeys' : nkeys uf'.nodes = nkeys uf.nodes := by
        have := find_keys uf e
        rw [hfe] at this
        exact this
      have hmain := ih uf' (bucketAdd bs (ro.getD e) e)
        (fun x hx => by rw [hkeys']; exact hsub x (List.mem_cons_of_mem _ hx))
      refine hmain.trans ?_
      have hb := (join_bucketAdd bs (ro.getD e) e).append_right rest
      rw [List.append_assoc] at hb
      exact hb.trans (by rw [List.singleton_append])

/-- Harness quantifying the claim: apply an arbitrary sequence of `union`
calls to a freshly initialised structure. -/
def applyUnions (uf : UnionFind) : List (ℕ × ℕ) → UnionFind
  | [] => uf
  | op :: rest => applyUnions (uf.union op.1 op.2).2 rest

/-- Every state reached by a sequence of `union` calls from a well-formed
state is well-formed and has the same key set. -/
theorem applyUnions_spec :
    ∀ (ops : List (ℕ × ℕ)) (uf : UnionFind) (d : ℕ → ℕ),
      WFWith uf.nodes uf.bound d →
      ∃ d', WFWith (applyUnions uf ops).nodes (applyUnions uf ops).bound d' ∧
        nkeys (applyUnions uf ops).nodes = nkeys uf.nodes := by
  intro ops
  induction ops with
  | nil => intro uf d hwf; exact ⟨d, hwf, rfl⟩
  | cons op rest ih =>
    intro uf d hwf
    obtain ⟨a, b⟩ := op
    by_cases hg : uf.hasElem a = true ∧ uf.hasElem b = true
    · have ha := (hasElem_iff_mem _ _).mp hg.1
      have hb := (hasElem_iff_mem _ _).mp hg.2
      obtain ⟨res, uf', hueq, ⟨d₂, hwf'⟩, hkeys', _, _⟩ := union_specD hwf ha hb
      have : applyUnions uf ((a, b) :: rest) = applyUnions uf' rest := by
        show applyUnions (uf.union a b).2 rest = applyUnions uf' rest
        rw [hueq]
      rw [this]
      obtain ⟨d', h1, h2⟩ := ih uf' d₂ hwf'
      exact ⟨d', h1, h2.trans hkeys'⟩
    · have hueq : uf.union a b = (.absent, uf) := by
        unfold union
        rw [if_pos (fun hc => hg hc)]
      have : applyUnions uf ((a, b) :: rest) = applyUnions uf rest := by
        show applyUnions (uf.union a b).2 rest = applyUnions uf rest
        rw [hueq]
      rw [this]
      exact ih uf d hwf

/-- Claim C10: for every union-find built from a finite (duplicate-free)
element set and any sequence of union calls: immediately after a
`union(a, b)` with both `a` and `b` present, `same(a, b)` returns `True`;
`find` of a present element returns an element of the original set; and
`connected_components()` partitions the original element set — the
concatenation of the returned components is a permutation of the element
set, so every element appears in exactly one component. -/
theorem C10_unionfind_invariants (elements : List ℕ) (hnd : elements.Nodup)
    (ops : List (ℕ × ℕ)) :
    (∀ a b, a ∈ elements → b ∈ elements →
      (((applyUnions (init elements) ops).union a b).2.same a b).1 = true) ∧
    (∀ e ∈ elements, ∃ ρ, ((applyUnions (init elements) ops).find e).1 = some ρ ∧
      ρ ∈ elements) ∧
    (((applyUnions (init elements) ops).connected_components.flatten).Perm elements) := by
  obtain ⟨d, hwf, hkeys⟩ := applyUnions_spec ops (init elements) _ (wf_init elements hnd)
  rw [nkeys_init] at hkeys
  set uf := applyUnions (init elements) ops with huf
  refine ⟨?_, ?_, ?_⟩
  · intro a b ha hb
    have ha' : a ∈ nkeys uf.nodes := by rw [hkeys]; exact ha
    have hb' : b ∈ nkeys uf.nodes := by rw [hkeys]; exact hb
    obtain ⟨res, uf', hueq, ⟨d₂, hwf'⟩, hkeys', _, hchar⟩ := union_specD hwf ha' hb'
    have hroots : root uf' a = root uf' b := by
      rw [hchar a b ha' hb']
      exact Or.inr (Or.inl ⟨rfl, rfl⟩)
    have ha'' : a ∈ nkeys uf'.nodes := by rw [hkeys']; exact ha'
    have hb'' : b ∈ nkeys uf'.nodes := by rw [hkeys']; exact hb'
    obtain ⟨sres, uf'', hseq, hsiff, _⟩ := same_specD hwf' ha'' hb''
    rw [hueq]
    show (uf'.same a b).1 = true
    rw [hseq]
    exact hsiff.mpr hroots
  · intro e he
    have he' : e ∈ nkeys uf.nodes := by rw [hkeys]; exact he
    obtain ⟨ρ, uf', hfeq, hroot, _⟩ := find_specD hwf he'
    obtain ⟨rx, hrx, hrxm⟩ := root_some hwf he'
    have hρrx : ρ = rx := Option.some.inj (hroot.symm.trans hrx)
    refine ⟨ρ, by rw [hfeq], ?_⟩
    rw [hρrx, ← hkeys]
    exact hrxm
  · unfold connected_components
    have hp := ccAux_perm (nkeys uf.nodes) uf [] (fun x hx => hx)
    simp only [List.map_nil, List.flatten_nil, List.nil_append] at hp
    exact hp.trans (by rw [hkeys])

/-- Witness for C10: three elements, one union. -/
theorem C10_unionfind_invariants_witness :
    ([1, 2, 3] : List ℕ).Nodup ∧
    ((((applyUnions (init [1, 2, 3]) [(1, 2)]).union 1 2).2.same 1 2).1 = true) ∧
    (((applyUnions (init [1, 2, 3]) [(1, 2)]).connected_components.flatten).Perm
      [1, 2, 3]) := by
  have h := C10_unionfind_invariants [1, 2, 3] (by decide) [(1, 2)]
  exact ⟨by decide, h.1 1 2 (by decide) (by decide), h.2.2⟩

end UnionFind

/-! ## Geometry oracle

The merging engine consumes the shapely library exclusively through the
operations below; the library itself is an external collaborator of the
core (spec §1), so the engine is embedded parametrically in these
operations.  Scalars are embedded as `ℤ` (the engine only adds, subtracts
and compares them). -/

/-- Axis-aligned box, as built by `shapely.geometry.box`. -/
structure Box where
  x0 : ℤ
  y0 : ℤ
  x1 : ℤ
  y1 : ℤ
deriving Repr, DecidableEq

/-- Embeds `shapely.affinity.translate` on a box. -/
def Box.translate (b : Box) (dx dy : ℤ) : Box :=
  ⟨b.x0 + dx, b.y0 + dy, b.x1 + dx, b.y1 + dy⟩

/-- The geometric operations the merger calls on polygons: box/polygon
intersection tests, polygon/polygon Euclidean distance, area, and the
dilate/union/erode chain of `_do_merge` (folded into one oracle since its
output is never inspected by the engine). -/
structure GeomOps (P : Type) where
  intersects : Box → P → Bool
  dist : P → P → ℤ
  area : P → ℤ
  mergeGeoms : ℤ → List P → P

/-- Python exception kinds distinguished by the embedding. -/
inductive PyErr where
  | typeError : PyErr
  | attributeError : PyErr
  | keyError : PyErr
  | valueError : PyErr
  | indexError : PyErr
deriving Repr, DecidableEq

/-! ## Tile border index — `src/sldc/merger.py`, class `TilePolygons` -/

/-- Embedding of a constructed `TilePolygons` object.  Sides are the
source's integer constants `TOP = 0`, `BOTTOM = 1`, `LEFT = 2`, `RIGHT = 3`,
`NONE = 4`. -/
structure TilePolygons where
  tile_id : ℤ
  filter_dist : Option ℤ
  by_side : ℕ → List ℕ

namespace TilePolygons

/-- The four probe boxes of `_compute_by_side`, translated by the tile
offset. -/
def sideBoxes (tile : TileTopology.TileView) (fd : ℤ) (s : ℕ) : Box :=
  let w := tile.width
  let h := tile.height
  if s = 0 then (Box.mk 0 0 w fd).translate tile.offset_x tile.offset_y
  else if s = 1 then (Box.mk 0 (h - fd) w h).translate tile.offset_x tile.offset_y
  else if s = 2 then (Box.mk 0 0 fd h).translate tile.offset_x tile.offset_y
  else (Box.mk (w - fd) 0 w h).translate tile.offset_x tile.offset_y

/-- Embeds the grouping loop of `_compute_by_side`: the source iterates the
polygons in insertion order and appends each id to the bucket of every side
whose box intersects it, or to the `NONE` (4) bucket if no side matched;
each bucket therefore holds, in insertion order, exactly the ids whose
polygon matches its side, which is what this filter computes. -/
def compute_by_side {P : Type} (g : GeomOps P) (tile : TileTopology.TileView)
    (fd : ℤ) (polys : List (ℕ × P)) : ℕ → List ℕ := fun s =>
  if s < 4 then
    (polys.filter fun q => g.intersects (sideBoxes tile fd s) q.2).map Prod.fst
  else if s = 4 then
    (polys.filter fun q =>
      !(g.intersects (sideBoxes tile fd 0) q.2 || g.intersects (sideBoxes tile fd 1) q.2 ||
        g.intersects (sideBoxes tile fd 2) q.2 || g.intersects (sideBoxes tile fd 3) q.2)).map
      Prod.fst
  else []

/-- Embeds `TilePolygons.__init__`, which eagerly runs `_compute_by_side`.
When `filter_dist` is `None` the source builds `box(0, 0, width, None)` and
shapely raises `TypeError` on the `None` coordinate, so construction
fails. -/
def init {P : Type} (g : GeomOps P) (topology : TileTopology) (tile_id : ℤ)
    (polygons_dict : List (ℕ × P)) (filter_dist : Option ℤ) :
    Except PyErr TilePolygons :=
  match filter_dist with
  | none => .error .typeError
  | some fd =>
    match topology.tile tile_id with
    | .error e => .error (if e = "IndexError" then .indexError else .valueError)
    | .ok tile => .ok ⟨tile_id, some fd, compute_by_side g tile fd polygons_dict⟩

/-- Embeds `TilePolygons.polygons_by_side`.  When `filter_dist` is `None`
the source returns `self.polygons`, a property that reads the attribute
`self._polygons` — which `__init__` never assigns (it only assigns
`self._polygons_dict`), so the access raises `AttributeError`. -/
def polygons_by_side (tp : TilePolygons) (side : ℕ) : Except PyErr (List ℕ) :=
  match tp.filter_dist with
  | none => .error .attributeError
  | some _ => .ok (tp.by_side side)

/-- Embeds the class method `TilePolygons.opposite_side` (a `dict.get`,
returning `None` off the four sides). -/
def opposite_side (side : ℕ) : Option ℕ :=
  if side = 0 then some 1
  else if side = 1 then some 0
  else if side = 2 then some 3
  else if side = 3 then some 2
  else none

end TilePolygons

/-! ## Merging engine — `src/sldc/merger.py`, class `SemanticMerger` -/

/-- Dictionary lookup that raises `KeyError` when the key is missing
(a plain Python `dict[key]` access). -/
def exceptGet {κ α : Type} [DecidableEq κ] (dict : List (κ × α)) (k : κ) :
    Except PyErr α :=
  match dictGet dict k with
  | some v => pure v
  | none => .error .keyError

/-- Sorted insertion without duplicates. -/
def insertSorted (x : ℤ) : List ℤ → List ℤ
  | [] => [x]
  | y :: ys =>
    if x < y then x :: y :: ys
    else if x = y then y :: ys
    else y :: insertSorted x ys

/-- Ascending duplicate-free ordering of a list (the value computed by
`np.unique`). -/
def sortedDedup (l : List ℤ) : List ℤ := l.foldr insertSorted []

/-- Embeds `aggr_max_area_label` (`src/sldc/merger.py`): among the distinct
labels in ascending order, pick the one whose summed area is largest,
strictly improving over the initial `(-1, -1)`. -/
def aggr_max_area_label (areas : List ℤ) (labels : List ℤ) : ℤ :=
  let unique_labels := sortedDedup labels
  (unique_labels.foldl (fun (acc : ℤ × ℤ) l =>
    let area := ((areas.zip labels).filter fun q => q.2 = l).foldl (fun s q => s + q.1) 0
    if area > acc.1 then (area, l) else acc) (-1, -1)).2

namespace SemanticMerger

/-- Embeds `SemanticMerger._build_dicts`: flatten the per-tile polygon
lists into a global dictionary keyed by the running counter (starting at
`cnt = 1`), record their labels (all `1` when `labels` is `None`, else
`labels[i][j]`, raising `IndexError` when the label lists are too short),
and build one `TilePolygons` per tile with probe width
`tolerance + topology.overlap`.  The iteration is the Python
`zip(tiles, polygons)`, which stops at the shorter list. -/
def build_dicts {P : Type} (g : GeomOps P) (tolerance : ℤ)
    (topology : TileTopology) :
    List ℤ → List (List P) → Option (List (List ℤ)) → ℕ →
    Except PyErr (List (ℤ × TilePolygons) × List (ℕ × P) × List (ℕ × ℤ))
  | [], _, _, _ => .ok ([], [], [])
  | _ :: _, [], _, _ => .ok ([], [], [])
  | tile_id :: ts, ps :: pss, labelsOpt, cnt =>
    let ids := (List.range ps.length).map fun j => cnt + j
    let curr : List (ℕ × P) := ids.zip ps
    match (match labelsOpt with
           | none => .ok (ids.map fun i => ((i : ℕ), (1 : ℤ)))
           | some [] => .error .indexError
           | some (ls :: _) =>
             if ls.length < ps.length then .error .indexError
             else .ok (ids.zip (ls.take ps.length)) :
           Except PyErr (List (ℕ × ℤ))) with
    | .error e => .error e
    | .ok currLabels =>
      match TilePolygons.init g topology tile_id curr
          (some (tolerance + topology.overlap)) with
      | .error e => .error e
      | .ok tp =>
        match build_dicts g tolerance topology ts pss
            (match labelsOpt with
             | none => none
             | some l => some l.tail) (cnt + ps.length) with
        | .error e => .error e
        | .ok rest =>
          .ok ((tile_id, tp) :: rest.1, curr ++ rest.2.1, currLabels ++ rest.2.2)

/-- Embeds one iteration of the pair loop in `_register_merge`: skip pairs
already in one component, then union when the polygons are closer than the
tolerance and carry the same label. -/
def register_pair {P : Type} (g : GeomOps P) (tolerance : ℤ)
    (polygons_dict : List (ℕ × P)) (labels_dict : List (ℕ × ℤ))
    (uf : UnionFind) (id1 id2 : ℕ) : Except PyErr UnionFind :=
  match uf.same id1 id2 with
  | (true, uf') => .ok uf'
  | (false, uf') =>
    match dictGet polygons_dict id1 with
    | none => .error .keyError
    | some p1 =>
      match dictGet polygons_dict id2 with
      | none => .error .keyError
      | some p2 =>
        match dictGet labels_dict id1 with
        | none => .error .keyError
        | some l1 =>
          match dictGet labels_dict id2 with
          | none => .error .keyError
          | some l2 =>
            if g.dist p1 p2 < tolerance ∧ l1 = l2 then .ok (uf'.union id1 id2).2
            else .ok uf'

/-- Embeds `SemanticMerger._register_merge` (the 2-by-2 comparison of the
two candidate lists). -/
def register_merge {P : Type} (g : GeomOps P) (tolerance : ℤ)
    (polygons1 polygons2 : List ℕ) (polygons_dict : List (ℕ × P))
    (labels_dict : List (ℕ × ℤ)) (uf : UnionFind) : Except PyErr UnionFind :=
  polygons1.foldlM (fun uf1 id1 =>
    polygons2.foldlM (fun uf2 id2 =>
      register_pair g tolerance polygons_dict labels_dict uf2 id1 id2) uf1) uf

/-- Embeds one neighbour direction of the registration loop in `merge`:
nothing for an absent neighbour, otherwise compare this tile's candidates
on the side with the neighbour's candidates on the opposite side
(`tiles_dict[neighbour]` raises `KeyError` when the neighbour tile was not
part of the call). -/
def register_side {P : Type} (g : GeomOps P) (tolerance : ℤ)
    (tiles_dict : List (ℤ × TilePolygons)) (polygons_dict : List (ℕ × P))
    (labels_dict : List (ℕ × ℤ)) (tp : TilePolygons) (side : ℕ)
    (neighbour : Option ℤ) (uf : UnionFind) : Except PyErr UnionFind :=
  match neighbour with
  | none => .ok uf
  | some nb =>
    match tp.polygons_by_side side with
    | .error e => .error e
    | .ok curr =>
      match dictGet tiles_dict nb with
      | none => .error .keyError
      | some neighTp =>
        match (match TilePolygons.opposite_side side with
               | some os => neighTp.polygons_by_side os
               | none => .ok [] : Except PyErr (List ℕ)) with
        | .error e => .error e
        | .ok neigh =>
          register_merge g tolerance curr neigh polygons_dict labels_dict uf

/-- Embeds one iteration of the tile loop in the registration phase of
`merge`: enumerate the tile's four neighbour directions (`enumerate` order:
0 top, 1 bottom, 2 left, 3 right) and register the merges of the facing
candidate lists. -/
def register_tile {P : Type} (g : GeomOps P) (tolerance : ℤ)
    (topology : TileTopology) (tiles_dict : List (ℤ × TilePolygons))
    (polygons_dict : List (ℕ × P)) (labels_dict : List (ℕ × ℤ))
    (uf : UnionFind) (tpair : ℤ × TilePolygons) : Except PyErr UnionFind :=
  match topology.tile_neighbours tpair.1 with
  | .error _ => .error .valueError
  | .ok nbs =>
    [(0, nbs.1), (1, nbs.2.1), (2, nbs.2.2.1), (3, nbs.2.2.2)].foldlM
      (fun uf1 dir =>
        register_side g tolerance tiles_dict polygons_dict labels_dict tpair.2
          dir.1 dir.2 uf1) uf

/-- Embeds the registration phase of `merge`: a union-find over all global
polygon ids, then the tile loop above. -/
def register_all {P : Type} (g : GeomOps P) (tolerance : ℤ)
    (topology : TileTopology) (tiles_dict : List (ℤ × TilePolygons))
    (polygons_dict : List (ℕ × P)) (labels_dict : List (ℕ × ℤ)) :
    Except PyErr UnionFind :=
  tiles_dict.foldlM
    (register_tile g tolerance topology tiles_dict polygons_dict labels_dict)
    (UnionFind.init (dictKeys polygons_dict))

/-- Embeds the component loop body of `SemanticMerger._do_merge`: emit the
polygon of a singleton component unchanged; for larger components apply the
dilate/union/erode chain (the `mergeGeoms` oracle) and pick the label of
largest total area. -/
def merge_component {P : Type} (g : GeomOps P) (tolerance : ℤ)
    (polygons_dict : List (ℕ × P)) (labels_dict : List (ℕ × ℤ))
    (acc : List P × List ℤ) (component : List ℕ) :
    Except PyErr (List P × List ℤ) :=
  match component with
  | [c0] =>
    match dictGet polygons_dict c0 with
    | none => .error .keyError
    | some poly =>
      match dictGet labels_dict c0 with
      | none => .error .keyError
      | some label => .ok (acc.1 ++ [poly], acc.2 ++ [label])
  | _ =>
    match component.mapM (exceptGet polygons_dict) with
    | .error e => .error e
    | .ok polys =>
      match component.mapM (exceptGet labels_dict) with
      | .error e => .error e
      | .ok lbls =>
        .ok (acc.1 ++ [g.mergeGeoms tolerance polys],
             acc.2 ++ [aggr_max_area_label (polys.map g.area) lbls])

/-- Embeds `SemanticMerger._do_merge`: fold the component loop over the
connected components. -/
def do_merge {P : Type} (g : GeomOps P) (tolerance : ℤ) (uf : UnionFind)
    (polygons_dict : List (ℕ × P)) (labels_dict : List (ℕ × ℤ)) :
    Except PyErr (List P × List ℤ) :=
  uf.connected_components.foldlM
    (merge_component g tolerance polygons_dict labels_dict) ([], [])

/-- Embeds `SemanticMerger.merge`: build the dictionaries, return an empty
result when no polygon was passed, otherwise run the registration and the
effective merge.  The labels component is `none` exactly when `labels` was
`None` (the source then returns only the polygon array). -/
def merge {P : Type} (g : GeomOps P) (tolerance : ℤ) (tiles : List ℤ)
    (polygons : List (List P)) (tile_topology : TileTopology)
    (labels : Option (List (List ℤ))) :
    Except PyErr (List P × Option (List ℤ)) :=
  match build_dicts g tolerance tile_topology tiles polygons labels 1 with
  | .error e => .error e
  | .ok dicts =>
    if dicts.2.1.length ≤ 0 then
      .ok ([], labels.map fun _ => [])
    else
      match register_all g tolerance tile_topology dicts.1 dicts.2.1 dicts.2.2 with
      | .error e => .error e
      | .ok uf =>
        match do_merge g tolerance uf dicts.2.1 dicts.2.2 with
        | .error e => .error e
        | .ok res =>
          match labels with
          | none => .ok (res.1, none)
          | some _ => .ok (res.1, some res.2)

/-- The dictionaries and the union-find state at the end of the
registration phase of `merge` (the intermediate state the merging decision
claims are about). -/
def merge_uf {P : Type} (g : GeomOps P) (tolerance : ℤ) (tiles : List ℤ)
    (polygons : List (List P)) (tile_topology : TileTopology)
    (labels : Option (List (List ℤ))) :
    Except PyErr ((List (ℤ × TilePolygons) × List (ℕ × P) × List (ℕ × ℤ)) × UnionFind) :=
  match build_dicts g tolerance tile_topology tiles polygons labels 1 with
  | .error e => .error e
  | .ok dicts =>
    match register_all g tolerance tile_topology dicts.1 dicts.2.1 dicts.2.2 with
    | .error e => .error e
    | .ok uf => .ok (dicts, uf)

/-- The neighbour of tile `t` in direction `side` as enumerated by the
registration loop of `merge`. -/
def neighbourAt (topology : TileTopology) (t : ℤ) (side : ℕ) : Option ℤ :=
  match topology.tile_neighbours t with
  | .error _ => none
  | .ok nbs =>
    if side = 0 then nbs.1
    else if side = 1 then nbs.2.1
    else if side = 2 then nbs.2.2.1
    else if side = 3 then nbs.2.2.2
    else none

end SemanticMerger

/-! ## Concrete geometry instance

Axis-aligned rectangles with integer corners instantiate the geometry
oracle for the concrete runs below.  `rectDist` equals the Euclidean
distance computed by shapely whenever the two rectangles overlap in one of
the two axes, which holds for every rectangle pair used in this file (all
share the y-range 0..100 or 0..10). -/

structure Rect where
  x0 : ℤ
  y0 : ℤ
  x1 : ℤ
  y1 : ℤ
deriving Repr, DecidableEq

/-- Closed box/rectangle intersection test (shapely `intersects`, which
counts boundary contact). -/
def rectIntersects (b : Box) (r : Rect) : Bool :=
  decide (b.x0 ≤ r.x1 ∧ r.x0 ≤ b.x1 ∧ b.y0 ≤ r.y1 ∧ r.y0 ≤ b.y1)

/-- Separation of two rectangles (equals shapely's Euclidean distance when
the axis gaps are not both positive, which is the case for every pair used
below). -/
def rectDist (a b : Rect) : ℤ :=
  let dx := max 0 (max (b.x0 - a.x1) (a.x0 - b.x1))
  let dy := max 0 (max (b.y0 - a.y1) (a.y0 - b.y1))
  max dx dy

def rectArea (r : Rect) : ℤ := (r.x1 - r.x0) * (r.y1 - r.y0)

/-- Geometry oracle on rectangles.  The merged-geometry operation only
feeds the (never-inspected) polygon slot of non-singleton components and is
modelled as picking the first member. -/
def rectGeom : GeomOps Rect :=
  ⟨rectIntersects, rectDist, rectArea, fun _ rs => rs.headD ⟨0, 0, 0, 0⟩⟩

/-- Two 100×100 tiles side by side over a 200×100 image, no overlap. -/
def cexTopo : TileTopology := ⟨200, 100, 100, 100, 0⟩

def P1rect : Rect := ⟨80, 0, 85, 100⟩

def P4rect : Rect := ⟨95, 0, 99, 100⟩

def P3rect : Rect := ⟨100, 0, 102, 100⟩

def P2rect : Rect := ⟨110, 0, 115, 100⟩

/-- Registration state of the concrete merge call used to refute the
"only if" direction of the C1 claim: tolerance 20, tile 1 holds `P1` and
the bridge `P4`, tile 2 holds the bridge `P3` and `P2`. -/
def cexRun := SemanticMerger.merge_uf rectGeom 20 [1, 2]
  [[P1rect, P4rect], [P3rect, P2rect]] cexTopo none

/-- Whether the merge run put polygons 1 (`P1`) and 4 (`P2`) in one
component. -/
def cexSame14 : Bool :=
  match cexRun with
  | .ok st => (st.2.same 1 4).1
  | .error _ => false

/-- Whether polygon 1 is a border candidate on tile 1's RIGHT side. -/
def cexCandidate1 : Bool :=
  match cexRun with
  | .ok st =>
    match dictGet st.1.1 1 with
    | some tp => decide (1 ∈ tp.by_side 3)
    | none => false
  | .error _ => false

/-- Whether polygon 4 is a border candidate on tile 2's LEFT side. -/
def cexCandidate4 : Bool :=
  match cexRun with
  | .ok st =>
    match dictGet st.1.1 2 with
    | some tp => decide (4 ∈ tp.by_side 2)
    | none => false
  | .error _ => false

/-- Whether polygons 1 and 4 carry the same (defined) label. -/
def cexLabelEq : Bool :=
  match cexRun with
  | .ok st => decide (dictGet st.1.2.2 1 = dictGet st.1.2.2 4 ∧
      (dictGet st.1.2.2 1).isSome)
  | .error _ => false

/-- Counterexample for C1: in the concrete merge call above, polygons `P1`
and `P2` are facing border candidates of the two adjacent tiles with equal
labels but Euclidean distance 25 ≥ tolerance 20 — the claim's biconditional
therefore demands that they not be merged — yet the engine unions them into
one component through the chain `P1 – P3 – P4 – P2` of pairwise-close
bridge polygons, so the "only if" direction of the claim is false. -/
theorem C1_merge_iff_counterexample :
    SemanticMerger.neighbourAt cexTopo 1 3 = some 2 ∧
    cexCandidate1 = true ∧
    cexCandidate4 = true ∧
    cexLabelEq = true ∧
    rectGeom.dist P1rect P2rect = 25 ∧
    ¬(rectGeom.dist P1rect P2rect < 20) ∧
    cexSame14 = true ∧
    ¬(cexSame14 = true ↔ (rectGeom.dist P1rect P2rect < 20 ∧ cexLabelEq = true)) := by
  refine ⟨by decide, by decide, by decide, by decide, by decide, by decide, by decide, ?_⟩
  intro h
  exact absurd ((h.mp (by decide)).1) (by decide)

/-- Single-tile 10×10 topology. -/
def topoSingle : TileTopology := ⟨10, 10, 10, 10, 0⟩

/-- Claim C6 evaluated on the code: constructing a tile border index with
an undefined (`None`) tolerance raises `TypeError` inside
`_compute_by_side` (shapely's `box` is given `None` as a coordinate), and
`polygons_by_side` on a hypothetical instance with `filter_dist = None`
raises `AttributeError`, because it returns the property `self.polygons`,
which reads the never-assigned attribute `self._polygons`.  The claim's
promised "return ALL polygon ids without error" behaviour is unreachable. -/
theorem C6_polygons_by_side_code_bug :
    TilePolygons.init rectGeom topoSingle 1 [(1, P1rect)] none =
      .error PyErr.typeError ∧
    (∀ side : ℕ, TilePolygons.polygons_by_side ⟨1, none, fun _ => [1]⟩ side =
      .error PyErr.attributeError) :=
  ⟨rfl, fun _ => rfl⟩

/-! ## Invariants of the registration phase of `SemanticMerger.merge` -/

theorem dictGet_some_mem {κ α : Type} [DecidableEq κ] {l : List (κ × α)} {e : κ} {v : α}
    (h : dictGet l e = some v) : (e, v) ∈ l := by
  induction l with
  | nil => exact Option.noConfusion h
  | cons p rest ih =>
    obtain ⟨k, w⟩ := p
    by_cases hk : k = e
    · subst hk
      rw [dictGet, if_pos rfl] at h
      cases Option.some.inj h
      exact List.mem_cons_self _ _
    · rw [dictGet, if_neg hk] at h
      exact List.mem_cons_of_mem _ (ih h)

/-- `find` on an element outside the key set leaves the state unchanged and
returns `None`. -/
theorem UnionFind.find_not_mem {uf : UnionFind} {e : ℕ}
    (h : e ∉ UnionFind.nkeys uf.nodes) : uf.find e = (none, uf) := by
  have hd : dictGet uf.nodes e = none := dictGet_eq_none_of_not_mem h
  have hfa : UnionFind.findAux uf.bound uf.nodes e = (none, uf.nodes) := by
    cases uf.bound with
    | zero => rfl
    | succ n =>
      rw [UnionFind.findAux_succ, hd]
  unfold UnionFind.find UnionFind.findWithRank
  rw [hfa]
  rfl

/-- Specification of `same` without membership preconditions: the state is
only compressed, and a `True` answer certifies membership of both elements
and equality of their roots. -/
theorem UnionFind.same_inv {uf : UnionFind} {d : ℕ → ℕ}
    (hwf : UnionFind.WFWith uf.nodes uf.bound d) (a b : ℕ) :
    ∃ res uf',
      uf.same a b = (res, uf') ∧
      uf'.bound = uf.bound ∧
      UnionFind.nkeys uf'.nodes = UnionFind.nkeys uf.nodes ∧
      UnionFind.WFWith uf'.nodes uf'.bound d ∧
      (∀ x, x ∈ UnionFind.nkeys uf.nodes → UnionFind.root uf' x = UnionFind.root uf x) ∧
      (res = true → a ∈ UnionFind.nkeys uf.nodes ∧ b ∈ UnionFind.nkeys uf.nodes ∧
        UnionFind.root uf a = UnionFind.root uf b) := by
  by_cases ha : a ∈ UnionFind.nkeys uf.nodes
  · by_cases hb : b ∈ UnionFind.nkeys uf.nodes
    · obtain ⟨res, uf', heq, hiff, hbd, hk, hw, _, hpres⟩ := UnionFind.same_specD hwf ha hb
      exact ⟨res, uf', heq, hbd, hk, hw, hpres, fun hr => ⟨ha, hb, hiff.mp hr⟩⟩
    · obtain ⟨ρ₁, uf₁, hf1, _, hbd1, hk1, hw1, _, hpres1⟩ := UnionFind.find_specD hwf ha
      have hb₁ : b ∉ UnionFind.nkeys uf₁.nodes := by rw [hk1]; exact hb
      refine ⟨false, uf₁, ?_, hbd1, hk1, hw1, hpres1, fun hc => Bool.noConfusion hc⟩
      unfold UnionFind.same
      rw [hf1]
      show (match uf₁.find b with
            | (p2, uf2) => (decide (p2 = some ρ₁), uf2)) = _
      rw [UnionFind.find_not_mem hb₁]
      simp
  · refine ⟨false, uf, ?_, rfl, rfl, hwf, fun x _ => rfl, fun hc => Bool.noConfusion hc⟩
    unfold UnionFind.same
    rw [UnionFind.find_not_mem ha]

/-- Monadic left fold over `Except` preserving an invariant and a
transitive monotonicity relation, step by step. -/
theorem foldlM_except_inv {ε α β : Type} (Inv : β → Prop) (Mono : β → β → Prop)
    (hrefl : ∀ u, Mono u u)
    (htrans : ∀ a b c, Mono a b → Mono b c → Mono a c)
    (step : β → α → Except ε β)
    (hstep : ∀ u a u', Inv u → step u a = .ok u' → Inv u' ∧ Mono u u') :
    ∀ (l : List α) (u u' : β), Inv u → l.foldlM step u = .ok u' →
      Inv u' ∧ Mono u u' := by
  intro l
  induction l with
  | nil =>
    intro u u' hi h
    have h' : (Except.ok u : Except ε β) = .ok u' := h
    cases Except.ok.inj h'
    exact ⟨hi, hrefl u⟩
  | cons a rest ih =>
    intro u u' hi h
    rw [List.foldlM_cons] at h
    cases hs : step u a with
    | error e =>
      rw [hs] at h
      exact Except.noConfusion h
    | ok u₁ =>
      rw [hs] at h
      have h' : rest.foldlM step u₁ = .ok u' := h
      obtain ⟨hi₁, hm₁⟩ := hstep u a u₁ hi hs
      obtain ⟨hi', hm'⟩ := ih u₁ u' hi₁ h'
      exact ⟨hi', htrans _ _ _ hm₁ hm'⟩

/-- Monadic left fold over `Except` preserving a target property `P` when
every step does (under the invariant). -/
theorem foldlM_except_pres {ε α β : Type} (Inv : β → Prop) (P : β → Prop)
    (step : β → α → Except ε β)
    (hinv : ∀ u a u', Inv u → step u a = .ok u' → Inv u')
    (hP : ∀ u a u', Inv u → P u → step u a = .ok u' → P u') :
    ∀ (l : List α) (u u' : β), Inv u → P u → l.foldlM step u = .ok u' → P u' := by
  intro l
  induction l with
  | nil =>
    intro u u' hi hp h
    have h' : (Except.ok u : Except ε β) = .ok u' := h
    cases Except.ok.inj h'
    exact hp
  | cons a rest ih =>
    intro u u' hi hp h
    rw [List.foldlM_cons] at h
    cases hs : step u a with
    | error e =>
      rw [hs] at h
      exact Except.noConfusion h
    | ok u₁ =>
      rw [hs] at h
      exact ih u₁ u' (hinv u a u₁ hi hs) (hP u a u₁ hi hp hs) h

/-- A successful monadic left fold over `Except` establishes `P` when some
element of the list establishes it and every step preserves it. -/
theorem foldlM_except_estab {ε α β : Type} (Inv : β → Prop) (P : β → Prop)
    (step : β → α → Except ε β)
    (hinv : ∀ u a u', Inv u → step u a = .ok u' → Inv u')
    (hP : ∀ u a u', Inv u → P u → step u a = .ok u' → P u')
    (a₀ : α) (hestab : ∀ u u', Inv u → step u a₀ = .ok u' → P u') :
    ∀ (l : List α) (u u' : β), Inv u → a₀ ∈ l → l.foldlM step u = .ok u' → P u' := by
  intro l
  induction l with
  | nil =>
    intro u u' _ hmem _
    exact absurd hmem (List.not_mem_nil a₀)
  | cons a rest ih =>
    intro u u' hi hmem h
    rw [List.foldlM_cons] at h
    cases hs : step u a with
    | error e =>
      rw [hs] at h
      exact Except.noConfusion h
    | ok u₁ =>
      rw [hs] at h
      have h' : rest.foldlM step u₁ = .ok u' := h
      have hi₁ : Inv u₁ := hinv u a u₁ hi hs
      rcases List.mem_cons.mp hmem with h0 | h0
      · have hp₁ : P u₁ := hestab u u₁ hi (by rw [h0]; exact hs)
        exact foldlM_except_pres Inv P step hinv hP rest u₁ u' hi₁ hp₁ h'
      · exact ih u₁ u' hi₁ h0 h'

namespace SemanticMerger

/-- Invariant carried by the union-find through the registration loops of
`merge`: well-formedness, key set equal to the global polygon ids, and a
constant label on each component. -/
def regInv (K : List ℕ) (ld : List (ℕ × ℤ)) (u : UnionFind) : Prop :=
  UnionFind.wf u ∧ UnionFind.nkeys u.nodes = K ∧
    ∀ x y, x ∈ K → y ∈ K → UnionFind.root u x = UnionFind.root u y →
      dictGet ld x = dictGet ld y

/-- The registration steps only coarsen the partition: root equality over
the key set is preserved forward. -/
def ufMono (K : List ℕ) (u v : UnionFind) : Prop :=
  ∀ x y, x ∈ K → y ∈ K → UnionFind.root u x = UnionFind.root u y →
    UnionFind.root v x = UnionFind.root v y

theorem ufMono_refl (K : List ℕ) (u : UnionFind) : ufMono K u u :=
  fun _ _ _ _ h => h

theorem ufMono_trans {K : List ℕ} {a b c : UnionFind}
    (h1 : ufMono K a b) (h2 : ufMono K b c) : ufMono K a c :=
  fun x y hx hy h => h2 x y hx hy (h1 x y hx hy h)

/-- Reduction of `register_pair` once the `same` test came back `False`. -/
theorem register_pair_false {P : Type} (g : GeomOps P) (tolerance : ℤ)
    (pd : List (ℕ × P)) (ld : List (ℕ × ℤ)) (uf uf₁ : UnionFind) (i j : ℕ)
    (hseq : uf.same i j = (false, uf₁)) :
    register_pair g tolerance pd ld uf i j =
      match dictGet pd i with
      | none => .error .keyError
      | some p1 =>
        match dictGet pd j with
        | none => .error .keyError
        | some p2 =>
          match dictGet ld i with
          | none => .error .keyError
          | some l1 =>
            match dictGet ld j with
            | none => .error .keyError
            | some l2 =>
              if g.dist p1 p2 < tolerance ∧ l1 = l2 then .ok (uf₁.union i j).2
              else .ok uf₁ := by
  unfold register_pair
  rw [hseq]

/-- One pair registration preserves the registration invariant and only
coarsens the partition. -/
theorem register_pair_inv {P : Type} {g : GeomOps P} {tolerance : ℤ}
    {pd : List (ℕ × P)} {ld : List (ℕ × ℤ)} {uf uf' : UnionFind} {i j : ℕ}
    (hinv : regInv (dictKeys pd) ld uf)
    (h : register_pair g tolerance pd ld uf i j = .ok uf') :
    regInv (dictKeys pd) ld uf' ∧ ufMono (dictKeys pd) uf uf' := by
  obtain ⟨⟨d, hwfd⟩, hkeys, hlab⟩ := hinv
  obtain ⟨res, uf₁, hseq, hbd1, hk1, hw1, hpres1, hres⟩ := UnionFind.same_inv hwfd i j
  have hmemuf : ∀ x, x ∈ dictKeys pd → x ∈ UnionFind.nkeys uf.nodes := by
    intro x hx
    rw [hkeys]
    exact hx
  have hpres1' : ∀ x, x ∈ dictKeys pd →
      UnionFind.root uf₁ x = UnionFind.root uf x :=
    fun x hx => hpres1 x (hmemuf x hx)
  have hinv₁ : regInv (dictKeys pd) ld uf₁ ∧ ufMono (dictKeys pd) uf uf₁ := by
    refine ⟨⟨⟨d, hw1⟩, hk1.trans hkeys, ?_⟩, ?_⟩
    · intro x y hx hy hroot
      refine hlab x y hx hy ?_
      rw [← hpres1' x hx, ← hpres1' y hy]
      exact hroot
    · intro x y hx hy hroot
      rw [hpres1' x hx, hpres1' y hy]
      exact hroot
  cases res with
  | true =>
    have h' : (Except.ok uf₁ : Except PyErr UnionFind) = .ok uf' := by
      unfold register_pair at h
      rw [hseq] at h
      exact h
    cases Except.ok.inj h'
    exact hinv₁
  | false =>
    rw [register_pair_false g tolerance pd ld uf uf₁ i j hseq] at h
    obtain ⟨⟨⟨d₁, hw₁'⟩, hkeys₁, hlab₁⟩, hmono₁⟩ := hinv₁
    split at h
    · exact Except.noConfusion h
    rename_i p1 hp1
    split at h
    · exact Except.noConfusion h
    rename_i p2 hp2
    split at h
    · exact Except.noConfusion h
    rename_i l1 hl1
    split at h
    · exact Except.noConfusion h
    rename_i l2 hl2
    split at h
    · -- the union branch
      rename_i hcond
      have hi : i ∈ dictKeys pd := dictGet_mem_keys hp1
      have hj : j ∈ dictKeys pd := dictGet_mem_keys hp2
      have hi₁ : i ∈ UnionFind.nkeys uf₁.nodes := by rw [hkeys₁]; exact hi
      have hj₁ : j ∈ UnionFind.nkeys uf₁.nodes := by rw [hkeys₁]; exact hj
      obtain ⟨ures, uf₂, huf, hufwf, hukeys, _, huchar⟩ := UnionFind.union_specD hw₁' hi₁ hj₁
      have huf2 : (uf₁.union i j).2 = uf₂ := by rw [huf]
      rw [huf2] at h
      cases Except.ok.inj h
      have hmem₁ : ∀ x, x ∈ dictKeys pd → x ∈ UnionFind.nkeys uf₁.nodes := by
        intro x hx
        rw [hkeys₁]
        exact hx
      refine ⟨⟨hufwf, hukeys.trans hkeys₁, ?_⟩, ?_⟩
      · intro x y hx hy hroot
        rcases (huchar x y (hmem₁ x hx) (hmem₁ y hy)).mp hroot with hc | ⟨hc1, hc2⟩ | ⟨hc1, hc2⟩
        · exact hlab₁ x y hx hy hc
        · have e1 : dictGet ld x = dictGet ld i := hlab₁ x i hx hi hc1
          have e2 : dictGet ld j = dictGet ld y := hlab₁ j y hj hy hc2
          rw [e1, hl1, hcond.2, ← hl2, e2]
        · have e1 : dictGet ld x = dictGet ld j := hlab₁ x j hx hj hc1
          have e2 : dictGet ld i = dictGet ld y := hlab₁ i y hi hy hc2
          rw [e1, hl2, ← hcond.2, ← hl1, e2]
      · refine ufMono_trans hmono₁ ?_
        intro x y hx hy hroot
        exact (huchar x y (hmem₁ x hx) (hmem₁ y hy)).mpr (Or.inl hroot)
    · -- the skip branch
      cases Except.ok.inj h
      exact ⟨⟨⟨d₁, hw₁'⟩, hkeys₁, hlab₁⟩, hmono₁⟩

/-- A pair registration on a close same-label pair makes the two polygons'
roots equal. -/
theorem register_pair_estab {P : Type} {g : GeomOps P} {tolerance : ℤ}
    {pd : List (ℕ × P)} {ld : List (ℕ × ℤ)} {uf uf' : UnionFind} {i j : ℕ}
    {p1 p2 : P} {l1 l2 : ℤ}
    (hinv : regInv (dictKeys pd) ld uf)
    (hp1 : dictGet pd i = some p1) (hp2 : dictGet pd j = some p2)
    (hl1 : dictGet ld i = some l1) (hl2 : dictGet ld j = some l2)
    (hdist : g.dist p1 p2 < tolerance) (hlabeq : l1 = l2)
    (h : register_pair g tolerance pd ld uf i j = .ok uf') :
    UnionFind.root uf' i = UnionFind.root uf' j := by
  obtain ⟨⟨d, hwfd⟩, hkeys, _⟩ := hinv
  obtain ⟨res, uf₁, hseq, hbd1, hk1, hw1, hpres1, hres⟩ := UnionFind.same_inv hwfd i j
  have hi : i ∈ dictKeys pd := dictGet_mem_keys hp1
  have hj : j ∈ dictKeys pd := dictGet_mem_keys hp2
  have hiu : i ∈ UnionFind.nkeys uf.nodes := by rw [hkeys]; exact hi
  have hju : j ∈ UnionFind.nkeys uf.nodes := by rw [hkeys]; exact hj
  cases res with
  | true =>
    have h' : (Except.ok uf₁ : Except PyErr UnionFind) = .ok uf' := by
      unfold register_pair at h
      rw [hseq] at h
      exact h
    cases Except.ok.inj h'
    rw [hpres1 i hiu, hpres1 j hju]
    exact (hres rfl).2.2
  | false =>
    rw [register_pair_false g tolerance pd ld uf uf₁ i j hseq] at h
    split at h
    · exact Except.noConfusion h
    rename_i p1' hp1'
    split at h
    · exact Except.noConfusion h
    rename_i p2' hp2'
    split at h
    · exact Except.noConfusion h
    rename_i l1' hl1'
    split at h
    · exact Except.noConfusion h
    rename_i l2' hl2'
    obtain rfl : p1' = p1 := Option.some.inj (hp1'.symm.trans hp1)
    obtain rfl : p2' = p2 := Option.some.inj (hp2'.symm.trans hp2)
    obtain rfl : l1' = l1 := Option.some.inj (hl1'.symm.trans hl1)
    obtain rfl : l2' = l2 := Option.some.inj (hl2'.symm.trans hl2)
    have hi₁ : i ∈ UnionFind.nkeys uf₁.nodes := by rw [hk1]; exact hiu
    have hj₁ : j ∈ UnionFind.nkeys uf₁.nodes := by rw [hk1]; exact hju
    obtain ⟨ures, uf₂, huf, _, _, _, huchar⟩ := UnionFind.union_specD hw1 hi₁ hj₁
    split at h
    · have huf2 : (uf₁.union i j).2 = uf₂ := by rw [huf]
      rw [huf2] at h
      cases Except.ok.inj h
      exact (huchar i j hi₁ hj₁).mpr (Or.inr (Or.inl ⟨rfl, rfl⟩))
    · rename_i hcond
      exact absurd ⟨hdist, hlabeq⟩ hcond

end SemanticMerger

namespace SemanticMerger

/-- `register_merge` preserves the registration invariant and only coarsens
the partition. -/
theorem register_merge_inv {P : Type} {g : GeomOps P} {tolerance : ℤ}
    {l1 l2 : List ℕ} {pd : List (ℕ × P)} {ld : List (ℕ × ℤ)} {uf uf' : UnionFind}
    (hinv : regInv (dictKeys pd) ld uf)
    (h : register_merge g tolerance l1 l2 pd ld uf = .ok uf') :
    regInv (dictKeys pd) ld uf' ∧ ufMono (dictKeys pd) uf uf' := by
  unfold register_merge at h
  refine foldlM_except_inv _ (ufMono (dictKeys pd)) (ufMono_refl _)
    (fun _ _ _ => ufMono_trans) _ ?_ l1 uf uf' hinv h
  intro u a u' hu hs
  exact foldlM_except_inv _ (ufMono (dictKeys pd)) (ufMono_refl _)
    (fun _ _ _ => ufMono_trans) _
    (fun u2 a2 u2' hu2 hs2 => register_pair_inv hu2 hs2) l2 u u' hu hs

/-- `register_merge` on candidate lists containing a close same-label pair
makes the two polygons' roots equal. -/
theorem register_merge_estab {P : Type} {g : GeomOps P} {tolerance : ℤ}
    {l1 l2 : List ℕ} {pd : List (ℕ × P)} {ld : List (ℕ × ℤ)} {uf uf' : UnionFind}
    {i j : ℕ} {p1 p2 : P} {lb1 lb2 : ℤ}
    (hinv : regInv (dictKeys pd) ld uf)
    (hi : i ∈ l1) (hj : j ∈ l2)
    (hp1 : dictGet pd i = some p1) (hp2 : dictGet pd j = some p2)
    (hl1 : dictGet ld i = some lb1) (hl2 : dictGet ld j = some lb2)
    (hdist : g.dist p1 p2 < tolerance) (hlabeq : lb1 = lb2)
    (h : register_merge g tolerance l1 l2 pd ld uf = .ok uf') :
    UnionFind.root uf' i = UnionFind.root uf' j := by
  have hiK : i ∈ dictKeys pd := dictGet_mem_keys hp1
  have hjK : j ∈ dictKeys pd := dictGet_mem_keys hp2
  unfold register_merge at h
  refine foldlM_except_estab (regInv (dictKeys pd) ld)
    (fun u => UnionFind.root u i = UnionFind.root u j) _ ?_ ?_ i ?_ l1 uf uf' hinv hi h
  · intro u a u' hu hs
    exact (foldlM_except_inv _ (ufMono (dictKeys pd)) (ufMono_refl _)
      (fun _ _ _ => ufMono_trans) _
      (fun u2 a2 u2' hu2 hs2 => register_pair_inv hu2 hs2) l2 u u' hu hs).1
  · intro u a u' hu hp hs
    exact (foldlM_except_inv _ (ufMono (dictKeys pd)) (ufMono_refl _)
      (fun _ _ _ => ufMono_trans) _
      (fun u2 a2 u2' hu2 hs2 => register_pair_inv hu2 hs2) l2 u u' hu hs).2 i j hiK hjK hp
  · intro u u' hu hs
    refine foldlM_except_estab (regInv (dictKeys pd) ld)
      (fun v => UnionFind.root v i = UnionFind.root v j) _ ?_ ?_ j ?_ l2 u u' hu hj hs
    · intro u2 a2 u2' hu2 hs2
      exact (register_pair_inv hu2 hs2).1
    · intro u2 a2 u2' hu2 hpr hs2
      exact (register_pair_inv hu2 hs2).2 i j hiK hjK hpr
    · intro u2 u2' hu2 hs2
      exact register_pair_estab hu2 hp1 hp2 hl1 hl2 hdist hlabeq hs2

end SemanticMerger

/-- `polygons_by_side` on a constructed index (defined tolerance) returns
the side's candidate list. -/
theorem TilePolygons.polygons_by_side_some {tp : TilePolygons} {fd : ℤ}
    (h : tp.filter_dist = some fd) (side : ℕ) :
    tp.polygons_by_side side = .ok (tp.by_side side) := by
  unfold TilePolygons.polygons_by_side
  rw [h]

namespace SemanticMerger

theorem register_side_none {P : Type} (g : GeomOps P) (tolerance : ℤ)
    (td : List (ℤ × TilePolygons)) (pd : List (ℕ × P)) (ld : List (ℕ × ℤ))
    (tp : TilePolygons) (side : ℕ) (uf : UnionFind) :
    register_side g tolerance td pd ld tp side none uf = .ok uf := rfl

theorem register_side_some {P : Type} (g : GeomOps P) (tolerance : ℤ)
    (td : List (ℤ × TilePolygons)) (pd : List (ℕ × P)) (ld : List (ℕ × ℤ))
    (tp : TilePolygons) (side : ℕ) (nbv : ℤ) (uf : UnionFind) :
    register_side g tolerance td pd ld tp side (some nbv) uf =
      match tp.polygons_by_side side with
      | .error e => .error e
      | .ok curr =>
        match dictGet td nbv with
        | none => .error .keyError
        | some neighTp =>
          match (match TilePolygons.opposite_side side with
                 | some os => neighTp.polygons_by_side os
                 | none => .ok [] : Except PyErr (List ℕ)) with
          | .error e => .error e
          | .ok neigh => register_merge g tolerance curr neigh pd ld uf := rfl

/-- `register_side` preserves the registration invariant and only coarsens
the partition. -/
theorem register_side_inv {P : Type} {g : GeomOps P} {tolerance : ℤ}
    {td : List (ℤ × TilePolygons)} {pd : List (ℕ × P)} {ld : List (ℕ × ℤ)}
    {tp : TilePolygons} {side : ℕ} {nb : Option ℤ} {uf uf' : UnionFind}
    (hinv : regInv (dictKeys pd) ld uf)
    (h : register_side g tolerance td pd ld tp side nb uf = .ok uf') :
    regInv (dictKeys pd) ld uf' ∧ ufMono (dictKeys pd) uf uf' := by
  cases nb with
  | none =>
    rw [register_side_none] at h
    cases Except.ok.inj h
    exact ⟨hinv, ufMono_refl _ _⟩
  | some nbv =>
    rw [register_side_some] at h
    split at h
    · exact Except.noConfusion h
    rename_i curr hcurr
    split at h
    · exact Except.noConfusion h
    rename_i neighTp hneigh
    split at h
    · exact Except.noConfusion h
    rename_i neigh hneigh2
    exact register_merge_inv hinv h

/-- `register_side` towards a present neighbour holding a facing close
same-label candidate makes the two polygons' roots equal. -/
theorem register_side_estab {P : Type} {g : GeomOps P} {tolerance : ℤ}
    {td : List (ℤ × TilePolygons)} {pd : List (ℕ × P)} {ld : List (ℕ × ℤ)}
    {tp tp2 : TilePolygons} {side os : ℕ} {nbv : ℤ} {uf uf' : UnionFind}
    {i j : ℕ} {p1 p2 : P} {lb1 lb2 : ℤ} {fd fd2 : ℤ}
    (hinv : regInv (dictKeys pd) ld uf)
    (hfd : tp.filter_dist = some fd)
    (hnbtp : dictGet td nbv = some tp2)
    (hfd2 : tp2.filter_dist = some fd2)
    (hos : TilePolygons.opposite_side side = some os)
    (hi : i ∈ tp.by_side side) (hj : j ∈ tp2.by_side os)
    (hp1 : dictGet pd i = some p1) (hp2 : dictGet pd j = some p2)
    (hl1 : dictGet ld i = some lb1) (hl2 : dictGet ld j = some lb2)
    (hdist : g.dist p1 p2 < tolerance) (hlabeq : lb1 = lb2)
    (h : register_side g tolerance td pd ld tp side (some nbv) uf = .ok uf') :
    UnionFind.root uf' i = UnionFind.root uf' j := by
  rw [register_side_some, TilePolygons.polygons_by_side_some hfd, hnbtp, hos] at h
  have h2 : (match tp2.polygons_by_side os with
             | .error e => (.error e : Except PyErr UnionFind)
             | .ok neigh =>
               register_merge g tolerance (tp.by_side side) neigh pd ld uf) = .ok uf' := h
  rw [TilePolygons.polygons_by_side_some hfd2] at h2
  have h3 : register_merge g tolerance (tp.by_side side) (tp2.by_side os) pd ld uf =
      .ok uf' := h2
  exact register_merge_estab hinv hi hj hp1 hp2 hl1 hl2 hdist hlabeq h3

/-- The direction list enumerated for a tile whose `neighbourAt` is defined
contains that direction, and the side has an opposite. -/
theorem neighbourAt_char {topo : TileTopology} {t : ℤ} {side : ℕ} {nbv : ℤ}
    (h : neighbourAt topo t side = some nbv) :
    ∃ nbs, topo.tile_neighbours t = .ok nbs ∧
      (side, some nbv) ∈
        ([(0, nbs.1), (1, nbs.2.1), (2, nbs.2.2.1), (3, nbs.2.2.2)] :
          List (ℕ × Option ℤ)) ∧
      ∃ os, TilePolygons.opposite_side side = some os := by
  unfold neighbourAt at h
  split at h
  · exact Option.noConfusion h
  rename_i nbs hnbs
  by_cases h0 : side = 0
  · subst h0
    rw [if_pos rfl] at h
    exact ⟨nbs, hnbs, by rw [← h]; exact List.mem_cons_self _ _, 1, rfl⟩
  rw [if_neg h0] at h
  by_cases h1 : side = 1
  · subst h1
    rw [if_pos rfl] at h
    refine ⟨nbs, hnbs, ?_, 0, rfl⟩
    rw [← h]
    exact List.mem_cons_of_mem _ (List.mem_cons_self _ _)
  rw [if_neg h1] at h
  by_cases h2 : side = 2
  · subst h2
    rw [if_pos rfl] at h
    refine ⟨nbs, hnbs, ?_, 3, rfl⟩
    rw [← h]
    exact List.mem_cons_of_mem _ (List.mem_cons_of_mem _ (List.mem_cons_self _ _))
  rw [if_neg h2] at h
  by_cases h3 : side = 3
  · subst h3
    rw [if_pos rfl] at h
    refine ⟨nbs, hnbs, ?_, 2, rfl⟩
    rw [← h]
    exact List.mem_cons_of_mem _ (List.mem_cons_of_mem _
      (List.mem_cons_of_mem _ (List.mem_cons_self _ _)))
  rw [if_neg h3] at h
  exact Option.noConfusion h

/-- `register_tile` preserves the registration invariant and only coarsens
the partition. -/
theorem register_tile_inv {P : Type} {g : GeomOps P} {tolerance : ℤ}
    {topo : TileTopology} {td : List (ℤ × TilePolygons)} {pd : List (ℕ × P)}
    {ld : List (ℕ × ℤ)} {uf uf' : UnionFind} {tpair : ℤ × TilePolygons}
    (hinv : regInv (dictKeys pd) ld uf)
    (h : register_tile g tolerance topo td pd ld uf tpair = .ok uf') :
    regInv (dictKeys pd) ld uf' ∧ ufMono (dictKeys pd) uf uf' := by
  unfold register_tile at h
  split at h
  · exact Except.noConfusion h
  rename_i nbs hnbs
  refine foldlM_except_inv _ (ufMono (dictKeys pd)) (ufMono_refl _)
    (fun _ _ _ => ufMono_trans) _ ?_ _ uf uf' hinv h
  intro u a u' hu hs
  exact register_side_inv hu hs

/-- Processing a tile that faces a close same-label candidate pair makes the
two polygons' roots equal. -/
theorem register_tile_estab {P : Type} {g : GeomOps P} {tolerance : ℤ}
    {topo : TileTopology} {td : List (ℤ × TilePolygons)} {pd : List (ℕ × P)}
    {ld : List (ℕ × ℤ)} {uf uf' : UnionFind} {t : ℤ} {tp tp2 : TilePolygons}
    {side os : ℕ} {nbv : ℤ} {i j : ℕ} {p1 p2 : P} {lb1 lb2 : ℤ} {fd fd2 : ℤ}
    (hinv : regInv (dictKeys pd) ld uf)
    (hnb : neighbourAt topo t side = some nbv)
    (hfd : tp.filter_dist = some fd)
    (hnbtp : dictGet td nbv = some tp2)
    (hfd2 : tp2.filter_dist = some fd2)
    (hos : TilePolygons.opposite_side side = some os)
    (hi : i ∈ tp.by_side side) (hj : j ∈ tp2.by_side os)
    (hp1 : dictGet pd i = some p1) (hp2 : dictGet pd j = some p2)
    (hl1 : dictGet ld i = some lb1) (hl2 : dictGet ld j = some lb2)
    (hdist : g.dist p1 p2 < tolerance) (hlabeq : lb1 = lb2)
    (h : register_tile g tolerance topo td pd ld uf (t, tp) = .ok uf') :
    UnionFind.root uf' i = UnionFind.root uf' j := by
  have hiK : i ∈ dictKeys pd := dictGet_mem_keys hp1
  have hjK : j ∈ dictKeys pd := dictGet_mem_keys hp2
  obtain ⟨nbs, htn, hdirmem, _⟩ := neighbourAt_char hnb
  unfold register_tile at h
  rw [show ((t, tp) : ℤ × TilePolygons).1 = t from rfl, htn] at h
  have h' : ([(0, nbs.1), (1, nbs.2.1), (2, nbs.2.2.1), (3, nbs.2.2.2)] :
      List (ℕ × Option ℤ)).foldlM
      (fun uf1 dir => register_side g tolerance td pd ld tp dir.1 dir.2 uf1) uf =
      .ok uf' := h
  refine foldlM_except_estab (regInv (dictKeys pd) ld)
    (fun u => UnionFind.root u i = UnionFind.root u j) _ ?_ ?_ (side, some nbv) ?_
    _ uf uf' hinv hdirmem h'
  · intro u a u' hu hs
    exact (register_side_inv hu hs).1
  · intro u a u' hu hp hs
    exact (register_side_inv hu hs).2 i j hiK hjK hp
  · intro u u' hu hs
    exact register_side_estab hu hfd hnbtp hfd2 hos hi hj hp1 hp2 hl1 hl2 hdist hlabeq hs

/-- The invariant holds at the freshly initialised union-find. -/
theorem regInv_init {K : List ℕ} (ld : List (ℕ × ℤ)) (hnd : K.Nodup) :
    regInv K ld (UnionFind.init K) := by
  refine ⟨⟨fun _ => 0, UnionFind.wf_init K hnd⟩, UnionFind.nkeys_init K, ?_⟩
  intro x y hx hy hroot
  rw [UnionFind.root_init hx, UnionFind.root_init hy] at hroot
  cases Option.some.inj hroot
  rfl

/-- The registration phase yields a well-formed union-find over the global
polygon ids on which every component carries one label. -/
theorem register_all_inv {P : Type} {g : GeomOps P} {tolerance : ℤ}
    {topo : TileTopology} {td : List (ℤ × TilePolygons)} {pd : List (ℕ × P)}
    {ld : List (ℕ × ℤ)} {uf' : UnionFind}
    (hnd : (dictKeys pd).Nodup)
    (h : register_all g tolerance topo td pd ld = .ok uf') :
    regInv (dictKeys pd) ld uf' := by
  unfold register_all at h
  exact (foldlM_except_inv _ (ufMono (dictKeys pd)) (ufMono_refl _)
    (fun _ _ _ => ufMono_trans) _
    (fun u a u' hu hs => register_tile_inv hu hs) td _ uf'
    (regInv_init ld hnd) h).1

/-- The registration phase merges every facing close same-label candidate
pair. -/
theorem register_all_estab {P : Type} {g : GeomOps P} {tolerance : ℤ}
    {topo : TileTopology} {td : List (ℤ × TilePolygons)} {pd : List (ℕ × P)}
    {ld : List (ℕ × ℤ)} {uf' : UnionFind} {t : ℤ} {tp tp2 : TilePolygons}
    {side os : ℕ} {nbv : ℤ} {i j : ℕ} {p1 p2 : P} {lb1 lb2 : ℤ} {fd fd2 : ℤ}
    (hnd : (dictKeys pd).Nodup)
    (hmem : (t, tp) ∈ td)
    (hnb : neighbourAt topo t side = some nbv)
    (hfd : tp.filter_dist = some fd)
    (hnbtp : dictGet td nbv = some tp2)
    (hfd2 : tp2.filter_dist = some fd2)
    (hos : TilePolygons.opposite_side side = some os)
    (hi : i ∈ tp.by_side side) (hj : j ∈ tp2.by_side os)
    (hp1 : dictGet pd i = some p1) (hp2 : dictGet pd j = some p2)
    (hl1 : dictGet ld i = some lb1) (hl2 : dictGet ld j = some lb2)
    (hdist : g.dist p1 p2 < tolerance) (hlabeq : lb1 = lb2)
    (h : register_all g tolerance topo td pd ld = .ok uf') :
    UnionFind.root uf' i = UnionFind.root uf' j := by
  have hiK : i ∈ dictKeys pd := dictGet_mem_keys hp1
  have hjK : j ∈ dictKeys pd := dictGet_mem_keys hp2
  unfold register_all at h
  refine foldlM_except_estab (regInv (dictKeys pd) ld)
    (fun u => UnionFind.root u i = UnionFind.root u j) _ ?_ ?_ (t, tp) ?_ td _ uf'
    (regInv_init ld hnd) hmem h
  · intro u a u' hu hs
    exact (register_tile_inv hu hs).1
  · intro u a u' hu hp hs
    exact (register_tile_inv hu hs).2 i j hiK hjK hp
  · intro u u' hu hs
    exact register_tile_estab hu hnb hfd hnbtp hfd2 hos hi hj hp1 hp2 hl1 hl2 hdist
      hlabeq hs

end SemanticMerger

theorem dictKeys_append {κ α : Type} (a b : List (κ × α)) :
    dictKeys (a ++ b) = dictKeys a ++ dictKeys b :=
  List.map_append _ _ _

theorem dictKeys_zip {κ α : Type} : ∀ (l1 : List κ) (l2 : List α),
    l1.length = l2.length → dictKeys (l1.zip l2) = l1 := by
  intro l1
  induction l1 with
  | nil => intro l2 _; rfl
  | cons k ks ih =>
    intro l2 h
    cases l2 with
    | nil => exact absurd h (by simp)
    | cons v vs =>
      show k :: dictKeys (ks.zip vs) = k :: ks
      rw [ih vs (by simpa using h)]

/-- A successfully constructed tile border index records the probe width it
was built with. -/
theorem TilePolygons.init_filter_dist {P : Type} {g : GeomOps P} {topo : TileTopology}
    {tid : ℤ} {pdict : List (ℕ × P)} {fd : ℤ} {tp : TilePolygons}
    (h : TilePolygons.init g topo tid pdict (some fd) = .ok tp) :
    tp.filter_dist = some fd := by
  have h' : (match topo.tile tid with
             | .error e =>
               (.error (if e = "IndexError" then .indexError else .valueError) :
                 Except PyErr TilePolygons)
             | .ok tile =>
               .ok ⟨tid, some fd, TilePolygons.compute_by_side g tile fd pdict⟩) =
      .ok tp := h
  split at h'
  · exact Except.noConfusion h'
  rename_i tile htile
  cases Except.ok.inj h'
  rfl

namespace SemanticMerger

/-- Reduction of `_build_dicts` on a non-empty tile/polygon pair. -/
theorem build_dicts_cons {P : Type} (g : GeomOps P) (tolerance : ℤ)
    (topo : TileTopology) (tile_id : ℤ) (ts : List ℤ) (ps : List P)
    (pss : List (List P)) (labelsOpt : Option (List (List ℤ))) (cnt : ℕ) :
    build_dicts g tolerance topo (tile_id :: ts) (ps :: pss) labelsOpt cnt =
      match (match labelsOpt with
             | none => .ok (((List.range ps.length).map fun j => cnt + j).map
                 fun i => ((i : ℕ), (1 : ℤ)))
             | some [] => .error .indexError
             | some (ls :: _) =>
               if ls.length < ps.length then .error .indexError
               else .ok (((List.range ps.length).map fun j => cnt + j).zip
                   (ls.take ps.length)) :
             Except PyErr (List (ℕ × ℤ))) with
      | .error e => .error e
      | .ok currLabels =>
        match TilePolygons.init g topo tile_id
            (((List.range ps.length).map fun j => cnt + j).zip ps)
            (some (tolerance + topo.overlap)) with
        | .error e => .error e
        | .ok tp =>
          match build_dicts g tolerance topo ts pss
              (match labelsOpt with
               | none => none
               | some l => some l.tail) (cnt + ps.length) with
          | .error e => .error e
          | .ok rest =>
            .ok ((tile_id, tp) :: rest.1,
                 (((List.range ps.length).map fun j => cnt + j).zip ps) ++ rest.2.1,
                 currLabels ++ rest.2.2) := rfl

/-- Structural facts about `_build_dicts`: the global polygon ids are the
consecutive counters from `cnt`, and every constructed tile border index has
a defined probe width. -/
theorem build_dicts_inv {P : Type} (g : GeomOps P) (tolerance : ℤ)
    (topo : TileTopology) :
    ∀ (ts : List ℤ) (pss : List (List P)) (lso : Option (List (List ℤ))) (cnt : ℕ)
      (res : List (ℤ × TilePolygons) × List (ℕ × P) × List (ℕ × ℤ)),
      build_dicts g tolerance topo ts pss lso cnt = .ok res →
      (∃ m, dictKeys res.2.1 = (List.range m).map fun j => cnt + j) ∧
      (∀ q ∈ res.1, ∃ fd, TilePolygons.filter_dist q.2 = some fd) := by
  intro ts
  induction ts with
  | nil =>
    intro pss lso cnt res h
    have h' : (Except.ok (([], [], []) :
        List (ℤ × TilePolygons) × List (ℕ × P) × List (ℕ × ℤ)) :
        Except PyErr _) = .ok res := h
    cases Except.ok.inj h'
    exact ⟨⟨0, rfl⟩, fun q hq => absurd hq (List.not_mem_nil q)⟩
  | cons tile_id ts' ih =>
    intro pss lso cnt res h
    cases pss with
    | nil =>
      have h' : (Except.ok (([], [], []) :
          List (ℤ × TilePolygons) × List (ℕ × P) × List (ℕ × ℤ)) :
          Except PyErr _) = .ok res := h
      cases Except.ok.inj h'
      exact ⟨⟨0, rfl⟩, fun q hq => absurd hq (List.not_mem_nil q)⟩
    | cons ps pss' =>
      rw [build_dicts_cons] at h
      split at h
      · exact Except.noConfusion h
      rename_i currLabels hcl
      split at h
      · exact Except.noConfusion h
      rename_i tp htp
      split at h
      · exact Except.noConfusion h
      rename_i rest hrest
      cases Except.ok.inj h
      obtain ⟨⟨m', hkeys'⟩, hfd'⟩ := ih pss' _ (cnt + ps.length) rest hrest
      constructor
      · refine ⟨ps.length + m', ?_⟩
        show dictKeys ((((List.range ps.length).map fun j => cnt + j).zip ps) ++
            rest.2.1) = _
        rw [dictKeys_append, dictKeys_zip _ _ (by simp), hkeys', List.range_add,
          List.map_append, List.map_map]
        congr 1
        exact List.map_congr_left fun j _ => by simp [Function.comp_def]; omega
      · intro q hq
        rcases List.mem_cons.mp hq with h1 | h1
        · refine ⟨tolerance + topo.overlap, ?_⟩
          rw [h1]
          exact TilePolygons.init_filter_dist htp
        · exact hfd' q h1

end SemanticMerger

/-- The dictionaries of the counterexample run. -/
def cexDs : List (ℤ × TilePolygons) × List (ℕ × Rect) × List (ℕ × ℤ) :=
  match cexRun with
  | .ok st => st.1
  | .error _ => ([], [], [])

/-- The final union-find of the counterexample run. -/
def cexUf : UnionFind :=
  match cexRun with
  | .ok st => st.2
  | .error _ => UnionFind.init []

/-- The border index of tile 1 in the counterexample run. -/
def cexTp1 : TilePolygons :=
  match dictGet cexDs.1 1 with
  | some tp => tp
  | none => ⟨0, none, fun _ => []⟩

/-- The border index of tile 2 in the counterexample run. -/
def cexTp2 : TilePolygons :=
  match dictGet cexDs.1 2 with
  | some tp => tp
  | none => ⟨0, none, fun _ => []⟩

/-- Claim C1, amended.  For every merge call and every pair of facing border
candidates `p1` (on tile A's side towards B) and `p2` (on B's opposite
side): IF their distance is below the tolerance and their labels are equal
then the engine unions them into one component, and two polygons with
different labels are never in one component; but the "only if" direction of
the claimed biconditional is false (see the counterexample): being in one
component is the transitive closure of the pairwise criterion, not the
criterion itself. -/
theorem C1_merge_candidate_pairs_amended {P : Type} (g : GeomOps P) (tolerance : ℤ)
    (tiles : List ℤ) (polygons : List (List P)) (topo : TileTopology)
    (labels : Option (List (List ℤ)))
    (ds : List (ℤ × TilePolygons) × List (ℕ × P) × List (ℕ × ℤ)) (uf : UnionFind)
    (t nb : ℤ) (tp tp2 : TilePolygons) (side os : ℕ) (i j : ℕ)
    (p1 p2 : P) (l1 l2 : ℤ)
    (hrun : SemanticMerger.merge_uf g tolerance tiles polygons topo labels =
      .ok (ds, uf))
    (hmem : (t, tp) ∈ ds.1)
    (hnb : SemanticMerger.neighbourAt topo t side = some nb)
    (hnbtp : dictGet ds.1 nb = some tp2)
    (hos : TilePolygons.opposite_side side = some os)
    (hi : i ∈ tp.by_side side)
    (hj : j ∈ tp2.by_side os)
    (hp1 : dictGet ds.2.1 i = some p1) (hp2 : dictGet ds.2.1 j = some p2)
    (hl1 : dictGet ds.2.2 i = some l1) (hl2 : dictGet ds.2.2 j = some l2) :
    ((g.dist p1 p2 < tolerance ∧ l1 = l2) → (uf.same i j).1 = true) ∧
    (l1 ≠ l2 → (uf.same i j).1 = false) := by
  unfold SemanticMerger.merge_uf at hrun
  split at hrun
  · exact Except.noConfusion hrun
  rename_i dicts hbd
  split at hrun
  · exact Except.noConfusion hrun
  rename_i uf₀ hra
  have hpair := Except.ok.inj hrun
  injection hpair with hds huf
  rw [hds] at hbd
  rw [hds, huf] at hra
  obtain ⟨⟨m, hmkeys⟩, hfds⟩ :=
    SemanticMerger.build_dicts_inv g tolerance topo tiles polygons labels 1 ds hbd
  have hnd : (dictKeys ds.2.1).Nodup := by
    rw [hmkeys]
    exact List.Nodup.map (fun a b hab => by omega) (List.nodup_range m)
  obtain ⟨fd, hfd⟩ := hfds (t, tp) hmem
  obtain ⟨fd2, hfd2⟩ := hfds (nb, tp2) (dictGet_some_mem hnbtp)
  have hreg := SemanticMerger.register_all_inv hnd hra
  obtain ⟨⟨d, hwfd⟩, hkeys, hlab⟩ := hreg
  have hiK : i ∈ dictKeys ds.2.1 := dictGet_mem_keys hp1
  have hjK : j ∈ dictKeys ds.2.1 := dictGet_mem_keys hp2
  have hiu : i ∈ UnionFind.nkeys uf.nodes := by rw [hkeys]; exact hiK
  have hju : j ∈ UnionFind.nkeys uf.nodes := by rw [hkeys]; exact hjK
  obtain ⟨res, uf₁, hseq, hiff, _, _, _, _, _⟩ := UnionFind.same_specD hwfd hiu hju
  have hfst : (uf.same i j).1 = res := by rw [hseq]
  constructor
  · intro hcond
    have hroot : UnionFind.root uf i = UnionFind.root uf j :=
      SemanticMerger.register_all_estab hnd hmem hnb hfd hnbtp hfd2 hos hi hj
        hp1 hp2 hl1 hl2 hcond.1 hcond.2 hra
    rw [hfst]
    exact hiff.mpr hroot
  · intro hne
    rw [hfst]
    cases hres : res with
    | false => rfl
    | true =>
      have hroot := hiff.mp hres
      have hlabeq := hlab i j hiK hjK hroot
      rw [hl1, hl2] at hlabeq
      exact absurd (Option.some.inj hlabeq) hne

/-- Witness: in the counterexample run, polygons 1 (`P1`) and 3 (`P3`) are
facing candidates at distance 15 < 20 with equal labels, and the engine
indeed reports them in one component. -/
theorem C1_merge_candidate_pairs_amended_witness :
    rectGeom.dist P1rect P3rect < 20 ∧ (cexUf.same 1 3).1 = true :=
  ⟨by decide,
   (C1_merge_candidate_pairs_amended rectGeom 20 [1, 2]
      [[P1rect, P4rect], [P3rect, P2rect]] cexTopo none cexDs cexUf 1 2
      cexTp1 cexTp2 3 2 1 3 P1rect P3rect 1 1 rfl
      (dictGet_some_mem (show dictGet cexDs.1 1 = some cexTp1 from rfl))
      (by decide) rfl rfl (by decide) (by decide) rfl rfl rfl rfl).1
     ⟨by decide, rfl⟩⟩

/-! ## The single-tile merge (claim C7) -/

/-- On a one-tile grid, tile 1 has no neighbours in any direction. -/
theorem TileTopology.tile_neighbours_single (t : TileTopology) (hp : t.params_ok)
    (hc : t.tile_count = 1) :
    t.tile_neighbours 1 = .ok (none, none, none, none) := by
  have hh := t.tile_horizontal_count_pos hp
  rw [TileTopology.tile_neighbours_ok t 1 (by omega)]
  rw [if_neg (by omega : ¬(1 : ℤ) - t.tile_horizontal_count ≥ 1),
    if_neg (by omega : ¬(1 : ℤ) + t.tile_horizontal_count ≤ t.tile_count),
    if_neg (by omega : ¬(1 : ℤ) > 1),
    if_neg (by omega : ¬(1 : ℤ) < t.tile_count)]

/-- On a valid topology, the view of tile 1 is the top-left clamped tile. -/
theorem TileTopology.tile_one_ok (t : TileTopology) (hp : t.params_ok)
    (hc : 1 ≤ t.tile_count) :
    t.tile 1 = .ok ⟨0, 0, min t.max_width (t.image_width - 0),
      min t.max_height (t.image_height - 0)⟩ := by
  obtain ⟨hw, hh2, _, _, _⟩ := hp
  have hh := t.tile_horizontal_count_pos ⟨hw, hh2, by omega, by omega, by omega⟩
  have hchk : t.check_identifier 1 = .ok () := by
    unfold TileTopology.check_identifier
    rw [if_neg (by omega : ¬(1 : ℤ) > t.tile_count)]
  have hco : t.tile_coord 1 = (0, 0) := by
    unfold TileTopology.tile_coord
    norm_num
  have hoff : t.tile_offset 1 = .ok (0, 0) := by
    unfold TileTopology.tile_offset
    rw [hchk]
    simp only [hco]
    norm_num
  unfold TileTopology.tile
  rw [hchk]
  simp only [hoff]
  rw [if_neg (not_not_intro ⟨le_refl 0, by omega, le_refl 0, by omega⟩)]

/-- Appending to an absent bucket key creates the bucket at the end. -/
theorem UnionFind.bucketAdd_not_mem :
    ∀ (bs : List (ℕ × List ℕ)) (k e : ℕ), k ∉ dictKeys bs →
      UnionFind.bucketAdd bs k e = bs ++ [(k, [e])] := by
  intro bs
  induction bs with
  | nil => intro k e _; rfl
  | cons p rest ih =>
    intro k e hk
    obtain ⟨k', l⟩ := p
    have hne : k' ≠ k := fun hc => hk (by rw [← hc]; exact List.mem_cons_self _ _)
    show (if k' = k then (k', l ++ [e]) :: rest
          else (k', l) :: UnionFind.bucketAdd rest k e) = _
    rw [if_neg hne, ih k e (fun hc => hk (List.mem_cons_of_mem _ hc))]
    rfl

/-- On a state where every listed element is a self-loop, the components
iteration only buckets each element under itself. -/
theorem UnionFind.ccAux_selfloop :
    ∀ (l : List ℕ) (uf : UnionFind) (bs : List (ℕ × List ℕ)),
      (∀ e ∈ l, ∃ r, dictGet uf.nodes e = some (e, r)) →
      UnionFind.ccAux l uf bs =
        (l.foldl (fun b e => UnionFind.bucketAdd b e e) bs, uf) := by
  intro l
  induction l with
  | nil => intro uf bs _; rfl
  | cons e rest ih =>
    intro uf bs hself
    obtain ⟨r, hget⟩ := hself e (List.mem_cons_self _ _)
    rw [UnionFind.ccAux, hget]
    show (if e = e then UnionFind.ccAux rest uf (UnionFind.bucketAdd bs e e)
          else match uf.find e with
            | (root?, uf') =>
              UnionFind.ccAux rest uf' (UnionFind.bucketAdd bs (root?.getD e) e)) = _
    rw [if_pos rfl, ih uf (UnionFind.bucketAdd bs e e)
      (fun x hx => hself x (List.mem_cons_of_mem _ hx))]
    rfl

/-- Folding fresh self-buckets appends one singleton bucket per element. -/
theorem UnionFind.foldl_bucketAdd_fresh :
    ∀ (l : List ℕ) (bs : List (ℕ × List ℕ)), l.Nodup →
      (∀ e ∈ l, e ∉ dictKeys bs) →
      l.foldl (fun b e => UnionFind.bucketAdd b e e) bs =
        bs ++ l.map (fun e => (e, [e])) := by
  intro l
  induction l with
  | nil => intro bs _ _; simp
  | cons e rest ih =>
    intro bs hnd hfresh
    have he : e ∉ dictKeys bs := hfresh e (List.mem_cons_self _ _)
    have hf : ∀ x ∈ rest, x ∉ dictKeys (bs ++ [(e, [e])]) := by
      intro x hx
      rw [dictKeys_append]
      intro hmem
      rcases List.mem_append.mp hmem with h1 | h1
      · exact hfresh x (List.mem_cons_of_mem _ hx) h1
      · have hx1 : x = e := by simpa [dictKeys] using h1
        rw [hx1] at hx
        exact (List.nodup_cons.mp hnd).1 hx
    rw [List.foldl_cons, UnionFind.bucketAdd_not_mem bs e e he,
      ih (bs ++ [(e, [e])]) (List.Nodup.of_cons hnd) hf, List.append_assoc]
    rfl

/-- The connected components of a freshly initialised union-find are the
singletons, in element order. -/
theorem UnionFind.connected_components_init (K : List ℕ) (hnd : K.Nodup) :
    UnionFind.connected_components (UnionFind.init K) = K.map (fun e => [e]) := by
  unfold UnionFind.connected_components
  rw [UnionFind.nkeys_init,
    UnionFind.ccAux_selfloop K (UnionFind.init K) []
      (fun e he => ⟨0, UnionFind.dictGet_init he⟩),
    UnionFind.foldl_bucketAdd_fresh K [] hnd (fun e _ h => List.not_mem_nil e h)]
  simp

theorem map_dictGet_zip {κ α : Type} [DecidableEq κ] :
    ∀ (ks : List κ) (vs : List α), ks.Nodup → ks.length = vs.length →
      ks.map (dictGet (ks.zip vs)) = vs.map some := by
  intro ks
  induction ks with
  | nil =>
    intro vs _ h
    cases vs with
    | nil => rfl
    | cons v vs' => exact absurd h (by simp)
  | cons k ks' ih =>
    intro vs hnd h
    cases vs with
    | nil => exact absurd h (by simp)
    | cons v vs' =>
      show (dictGet ((k, v) :: ks'.zip vs') k) ::
          ks'.map (dictGet ((k, v) :: ks'.zip vs')) = some v :: vs'.map some
      have hhead : dictGet ((k, v) :: ks'.zip vs') k = some v := by
        rw [dictGet, if_pos rfl]
      have htail : ks'.map (dictGet ((k, v) :: ks'.zip vs')) =
          ks'.map (dictGet (ks'.zip vs')) := by
        refine List.map_congr_left fun x hx => ?_
        have hne : k ≠ x := fun hc => (List.nodup_cons.mp hnd).1 (hc ▸ hx)
        rw [dictGet, if_neg hne]
      rw [hhead, htail, ih vs' (List.Nodup.of_cons hnd) (by simpa using h)]

theorem dictGet_map_const {κ α : Type} [DecidableEq κ] :
    ∀ (ks : List κ) (c : α) (k : κ), k ∈ ks →
      dictGet (ks.map fun x => (x, c)) k = some c := by
  intro ks
  induction ks with
  | nil => intro c k hk; exact absurd hk (List.not_mem_nil k)
  | cons k0 ks' ih =>
    intro c k hk
    show (if k0 = k then some c else dictGet (ks'.map fun x => (x, c)) k) = some c
    by_cases h0 : k0 = k
    · rw [if_pos h0]
    · rw [if_neg h0]
      rcases List.mem_cons.mp hk with h1 | h1
      · exact absurd h1.symm h0
      · exact ih c k h1

namespace SemanticMerger

/-- The component step on a singleton component with successful lookups. -/
theorem merge_component_singleton {P : Type} (g : GeomOps P) (tolerance : ℤ)
    (pd : List (ℕ × P)) (ld : List (ℕ × ℤ)) (acc : List P × List ℤ)
    (c0 : ℕ) (p : P) (lb : ℤ)
    (hp : dictGet pd c0 = some p) (hl : dictGet ld c0 = some lb) :
    merge_component g tolerance pd ld acc [c0] = .ok (acc.1 ++ [p], acc.2 ++ [lb]) := by
  unfold merge_component
  show (match dictGet pd c0 with
        | none => (.error .keyError : Except PyErr (List P × List ℤ))
        | some poly =>
          match dictGet ld c0 with
          | none => .error .keyError
          | some label => .ok (acc.1 ++ [poly], acc.2 ++ [label])) = _
  rw [hp]
  show (match dictGet ld c0 with
        | none => (.error .keyError : Except PyErr (List P × List ℤ))
        | some label => .ok (acc.1 ++ [p], acc.2 ++ [label])) = _
  rw [hl]

/-- Folding the component step over singleton components with known lookup
values appends the polygons and labels in order. -/
theorem do_merge_fold {P : Type} (g : GeomOps P) (tolerance : ℤ)
    (pd : List (ℕ × P)) (ld : List (ℕ × ℤ)) :
    ∀ (ks : List ℕ) (ps : List P) (acc : List P × List ℤ),
      ks.map (dictGet pd) = ps.map some →
      (∀ k ∈ ks, dictGet ld k = some 1) →
      (ks.map (fun e => [e])).foldlM
        (merge_component g tolerance pd ld) acc =
        .ok (acc.1 ++ ps, acc.2 ++ ps.map fun _ => (1 : ℤ)) := by
  intro ks
  induction ks with
  | nil =>
    intro ps acc hmap _
    cases ps with
    | nil =>
      show (Except.ok acc : Except PyErr (List P × List ℤ)) =
        .ok (acc.1 ++ [], acc.2 ++ [])
      rw [List.append_nil, List.append_nil]
    | cons p ps' => exact absurd hmap (by simp)
  | cons k ks' ih =>
    intro ps acc hmap hld
    cases ps with
    | nil => exact absurd hmap (by simp)
    | cons p ps' =>
      rw [List.map_cons, List.map_cons] at hmap
      injection hmap with hhead htail
      rw [List.map_cons, List.foldlM_cons,
        merge_component_singleton g tolerance pd ld acc k p 1 hhead
          (hld k (List.mem_cons_self _ _))]
      have hrest := ih ps' (acc.1 ++ [p], acc.2 ++ [1]) htail
        (fun x hx => hld x (List.mem_cons_of_mem _ hx))
      show (ks'.map fun e => [e]).foldlM (merge_component g tolerance pd ld)
          (acc.1 ++ [p], acc.2 ++ [1]) = _
      rw [hrest]
      simp

/-- `_do_merge` on the discrete partition with a zip dictionary returns the
polygons in input order. -/
theorem do_merge_init_singletons {P : Type} (g : GeomOps P) (tolerance : ℤ)
    (ids : List ℕ) (ps : List P) (ld : List (ℕ × ℤ))
    (hnd : ids.Nodup) (hlen : ids.length = ps.length)
    (hld : ∀ k ∈ ids, dictGet ld k = some 1) :
    do_merge g tolerance (UnionFind.init ids) (ids.zip ps) ld =
      .ok (ps, ps.map fun _ => (1 : ℤ)) := by
  unfold do_merge
  rw [UnionFind.connected_components_init ids hnd]
  exact do_merge_fold g tolerance (ids.zip ps) ld ids ps ([], [])
    (map_dictGet_zip ids ps hnd hlen) hld

/-- The registration phase of a one-tile call performs no union at all. -/
theorem register_all_single {P : Type} (g : GeomOps P) (tolerance : ℤ)
    (topo : TileTopology) (tp : TilePolygons) (pd : List (ℕ × P))
    (ld : List (ℕ × ℤ))
    (hnb : topo.tile_neighbours 1 = .ok (none, none, none, none)) :
    register_all g tolerance topo [(1, tp)] pd ld =
      .ok (UnionFind.init (dictKeys pd)) := by
  have hstep : ∀ uf : UnionFind,
      register_tile g tolerance topo [(1, tp)] pd ld uf (1, tp) = .ok uf := by
    intro uf
    unfold register_tile
    rw [show ((1, tp) : ℤ × TilePolygons).1 = 1 from rfl, hnb]
    rfl
  unfold register_all
  rw [List.foldlM_cons, hstep (UnionFind.init (dictKeys pd))]
  rfl

/-- `_build_dicts` on a single tile with `labels = None`. -/
theorem build_dicts_single {P : Type} (g : GeomOps P) (tolerance : ℤ)
    (topo : TileTopology) (ps : List P) {tv : TileTopology.TileView}
    (htv : topo.tile 1 = .ok tv) :
    build_dicts g tolerance topo [1] [ps] none 1 =
      .ok ([(1, ⟨1, some (tolerance + topo.overlap),
              TilePolygons.compute_by_side g tv (tolerance + topo.overlap)
                (((List.range ps.length).map fun j => 1 + j).zip ps)⟩)],
           ((List.range ps.length).map fun j => 1 + j).zip ps,
           ((List.range ps.length).map fun j => 1 + j).map fun i => (i, (1 : ℤ))) := by
  have hinit : TilePolygons.init g topo 1
      (((List.range ps.length).map fun j => 1 + j).zip ps)
      (some (tolerance + topo.overlap)) =
      .ok ⟨1, some (tolerance + topo.overlap),
        TilePolygons.compute_by_side g tv (tolerance + topo.overlap)
          (((List.range ps.length).map fun j => 1 + j).zip ps)⟩ := by
    unfold TilePolygons.init
    show (match topo.tile 1 with
          | .error e =>
            (.error (if e = "IndexError" then .indexError else .valueError) :
              Except PyErr TilePolygons)
          | .ok tile =>
            .ok ⟨1, some (tolerance + topo.overlap),
              TilePolygons.compute_by_side g tile (tolerance + topo.overlap)
                (((List.range ps.length).map fun j => 1 + j).zip ps)⟩) = _
    rw [htv]
  rw [build_dicts_cons, hinit]
  show Except.ok
      ((1, (⟨1, some (tolerance + topo.overlap),
          TilePolygons.compute_by_side g tv (tolerance + topo.overlap)
            (((List.range ps.length).map fun j => 1 + j).zip ps)⟩ : TilePolygons)) ::
        [],
       ((((List.range ps.length).map fun j => 1 + j).zip ps) ++ []),
       ((((List.range ps.length).map fun j => 1 + j).map fun i => (i, (1 : ℤ))) ++ [])) =
      _
  rw [List.append_nil, List.append_nil]

end SemanticMerger

/-- Claim C7: merging on a single-tile topology (so the tile has no
neighbours) returns the input polygons unchanged and in order; with an empty
polygon list this is the empty result.  Stated for `labels = None` as in the
spec's single-tile scenario; the topology hypotheses say the grid is valid
and one tile covers the image. -/
theorem C7_merge_single_tile {P : Type} (g : GeomOps P) (tolerance : ℤ)
    (topo : TileTopology) (ps : List P)
    (hp : topo.params_ok) (hc : topo.tile_count = 1) :
    SemanticMerger.merge g tolerance [1] [ps] topo none = .ok (ps, none) := by
  have htv := TileTopology.tile_one_ok topo hp (by omega)
  have hbd := SemanticMerger.build_dicts_single g tolerance topo ps htv
  have hnd_ids : ((List.range ps.length).map fun j => 1 + j).Nodup :=
    List.Nodup.map (fun a b h => by omega) (List.nodup_range _)
  cases ps with
  | nil =>
    unfold SemanticMerger.merge
    rw [hbd]
    rfl
  | cons p0 ps' =>
    unfold SemanticMerger.merge
    simp only [hbd]
    rw [if_neg (by simp :
      ¬((((List.range (p0 :: ps').length).map fun j => 1 + j).zip (p0 :: ps')).length ≤ 0))]
    have hkeyszip : dictKeys
        (((List.range (p0 :: ps').length).map fun j => 1 + j).zip (p0 :: ps')) =
        (List.range (p0 :: ps').length).map fun j => 1 + j :=
      dictKeys_zip _ _ (by simp)
    have hra := SemanticMerger.register_all_single g tolerance topo
      ⟨1, some (tolerance + topo.overlap),
        TilePolygons.compute_by_side g
          ⟨0, 0, min topo.max_width (topo.image_width - 0),
           min topo.max_height (topo.image_height - 0)⟩
          (tolerance + topo.overlap)
          (((List.range (p0 :: ps').length).map fun j => 1 + j).zip (p0 :: ps'))⟩
      (((List.range (p0 :: ps').length).map fun j => 1 + j).zip (p0 :: ps'))
      (((List.range (p0 :: ps').length).map fun j => 1 + j).map fun i => (i, (1 : ℤ)))
      (TileTopology.tile_neighbours_single topo hp hc)
    rw [hkeyszip] at hra
    simp only [hra]
    have hdm := SemanticMerger.do_merge_init_singletons g tolerance
      ((List.range (p0 :: ps').length).map fun j => 1 + j) (p0 :: ps')
      (((List.range (p0 :: ps').length).map fun j => 1 + j).map fun i => (i, (1 : ℤ)))
      hnd_ids (by simp)
      (fun k hk => dictGet_map_const _ 1 k hk)
    simp only [hdm]

/-- Witness for C7: merging the two rectangles of the 10×10 single-tile
topology returns them unchanged. -/
theorem C7_merge_single_tile_witness :
    SemanticMerger.merge rectGeom 20 [1] [[P1rect, P4rect]] topoSingle none =
      .ok ([P1rect, P4rect], none) :=
  C7_merge_single_tile rectGeom 20 topoSingle [P1rect, P4rect] (by decide) (by decide)

/-! ## Segment-locate batching — `src/sldc/workflow.py`, `_batch_segment_locate` -/

/-- The per-tile effects used by `_batch_segment_locate`: `np_image` is
`Tile.np_image` (raising `TileExtractionException` on failure), `locate` is
the polygon list the segment+locate chain produces from one tile's image
(the `segment_batch` output is a numpy array whose first dimension is the
number of stacked images, so the i-th located list is a function of the
i-th kept tile and its image). -/
structure SegmentLocateOracle (Img Poly : Type) where
  np_image : ℤ → Except Unit Img
  locate : ℤ → Img → List Poly

/-- Embeds the tile-extraction loop of one batch: build each tile, read its
pixels inside the `try`, keep the successful ones and immediately record
`(tile_id, [])` for the failures. -/
def extract_batch {Img Poly : Type} (o : SegmentLocateOracle Img Poly) :
    List ℤ → List (ℤ × Img) × List (ℤ × List Poly)
  | [] => ([], [])
  | tid :: rest =>
    let r := extract_batch o rest
    match o.np_image tid with
    | .ok img => ((tid, img) :: r.1, r.2)
    | .error _ => (r.1, (tid, ([] : List Poly)) :: r.2)

/-- One batch of `_batch_segment_locate`: the failure entries recorded
during extraction followed by the kept tiles zipped with their located
polygons. -/
def process_batch {Img Poly : Type} (o : SegmentLocateOracle Img Poly)
    (batch : List ℤ) : List (ℤ × List Poly) :=
  (extract_batch o batch).2 ++
    (extract_batch o batch).1.map fun q => (q.1, o.locate q.1 q.2)

/-- Embeds the `for start in range(0, len(tile_ids), batch_size)` loop
(fuelled by the list length; the slice `tile_ids[start:end]` is
`take batch_size` of the remaining suffix). -/
def batch_segment_locate_aux {Img Poly : Type} (o : SegmentLocateOracle Img Poly)
    (bs : ℕ) : ℕ → List ℤ → List (ℤ × List Poly)
  | 0, _ => []
  | _ + 1, [] => []
  | fuel + 1, tid :: rest =>
    process_batch o ((tid :: rest).take bs) ++
      batch_segment_locate_aux o bs fuel ((tid :: rest).drop bs)

/-- Embeds `_batch_segment_locate` (the `tiles_polygons` result; the timing
object is not modelled). -/
def batch_segment_locate {Img Poly : Type} (o : SegmentLocateOracle Img Poly)
    (tile_ids : List ℤ) (batch_size : ℕ) : List (ℤ × List Poly) :=
  batch_segment_locate_aux o batch_size tile_ids.length tile_ids

theorem extract_batch_spec {Img Poly : Type} (o : SegmentLocateOracle Img Poly) :
    ∀ batch : List ℤ,
      ((((extract_batch o batch).2.map Prod.fst) ++
        ((extract_batch o batch).1.map Prod.fst)).Perm batch) ∧
      (∀ tid ∈ batch, o.np_image tid = .error () →
        (tid, ([] : List Poly)) ∈ (extract_batch o batch).2) ∧
      (∀ tid img, tid ∈ batch → o.np_image tid = .ok img →
        (tid, img) ∈ (extract_batch o batch).1) := by
  intro batch
  induction batch with
  | nil =>
    exact ⟨List.Perm.refl _, fun tid h => absurd h (List.not_mem_nil tid),
      fun tid img h => absurd h (List.not_mem_nil tid)⟩
  | cons t rest ih =>
    obtain ⟨ihperm, iherr, ihok⟩ := ih
    cases him : o.np_image t with
    | ok img =>
      have heq : extract_batch o (t :: rest) =
          ((t, img) :: (extract_batch o rest).1, (extract_batch o rest).2) := by
        show (match o.np_image t with
              | .ok img => ((t, img) :: (extract_batch o rest).1,
                  (extract_batch o rest).2)
              | .error _ => ((extract_batch o rest).1,
                  (t, ([] : List Poly)) :: (extract_batch o rest).2)) = _
        rw [him]
      rw [heq]
      refine ⟨?_, ?_, ?_⟩
      · refine List.Perm.trans ?_ (ihperm.cons t)
        show ((extract_batch o rest).2.map Prod.fst ++
            t :: (extract_batch o rest).1.map Prod.fst).Perm _
        exact List.perm_middle
      · intro tid htid herr
        rcases List.mem_cons.mp htid with h1 | h1
        · rw [h1] at herr
          rw [herr] at him
          exact Except.noConfusion him
        · exact iherr tid h1 herr
      · intro tid img' htid hok
        rcases List.mem_cons.mp htid with h1 | h1
        · subst h1
          rw [hok] at him
          cases Except.ok.inj him
          exact List.mem_cons_self _ _
        · exact List.mem_cons_of_mem _ (ihok tid img' h1 hok)
    | error u =>
      have heq : extract_batch o (t :: rest) =
          ((extract_batch o rest).1,
           (t, ([] : List Poly)) :: (extract_batch o rest).2) := by
        show (match o.np_image t with
              | .ok img => ((t, img) :: (extract_batch o rest).1,
                  (extract_batch o rest).2)
              | .error _ => ((extract_batch o rest).1,
                  (t, ([] : List Poly)) :: (extract_batch o rest).2)) = _
        rw [him]
      rw [heq]
      refine ⟨?_, ?_, ?_⟩
      · show (t :: ((extract_batch o rest).2.map Prod.fst ++
            (extract_batch o rest).1.map Prod.fst)).Perm _
        exact ihperm.cons t
      · intro tid htid herr
        rcases List.mem_cons.mp htid with h1 | h1
        · rw [h1]
          exact List.mem_cons_self _ _
        · exact List.mem_cons_of_mem _ (iherr tid h1 herr)
      · intro tid img' htid hok
        rcases List.mem_cons.mp htid with h1 | h1
        · rw [h1] at hok
          rw [hok] at him
          exact Except.noConfusion him
        · exact ihok tid img' h1 hok

theorem process_batch_spec {Img Poly : Type} (o : SegmentLocateOracle Img Poly)
    (batch : List ℤ) :
    (((process_batch o batch).map Prod.fst).Perm batch) ∧
    (∀ tid ∈ batch, o.np_image tid = .error () →
      (tid, ([] : List Poly)) ∈ process_batch o batch) ∧
    (∀ tid img, tid ∈ batch → o.np_image tid = .ok img →
      (tid, o.locate tid img) ∈ process_batch o batch) := by
  obtain ⟨hperm, herr, hok⟩ := extract_batch_spec o batch
  refine ⟨?_, ?_, ?_⟩
  · unfold process_batch
    rw [List.map_append, List.map_map]
    exact hperm
  · intro tid htid h
    exact List.mem_append_left _ (herr tid htid h)
  · intro tid img htid h
    exact List.mem_append_right _
      (List.mem_map_of_mem (fun q => (q.1, o.locate q.1 q.2)) (hok tid img htid h))

theorem batch_segment_locate_aux_spec {Img Poly : Type}
    (o : SegmentLocateOracle Img Poly) (bs : ℕ) (hbs : 1 ≤ bs) :
    ∀ (fuel : ℕ) (l : List ℤ), l.length ≤ fuel →
      (((batch_segment_locate_aux o bs fuel l).map Prod.fst).Perm l) ∧
      (∀ tid ∈ l, o.np_image tid = .error () →
        (tid, ([] : List Poly)) ∈ batch_segment_locate_aux o bs fuel l) ∧
      (∀ tid img, tid ∈ l → o.np_image tid = .ok img →
        (tid, o.locate tid img) ∈ batch_segment_locate_aux o bs fuel l) := by
  intro fuel
  induction fuel with
  | zero =>
    intro l hl
    have : l = [] := List.length_eq_zero.mp (by omega)
    subst this
    exact ⟨List.Perm.refl _, fun tid h => absurd h (List.not_mem_nil tid),
      fun tid img h => absurd h (List.not_mem_nil tid)⟩
  | succ f ih =>
    intro l hl
    cases l with
    | nil =>
      exact ⟨List.Perm.refl _, fun tid h => absurd h (List.not_mem_nil tid),
        fun tid img h => absurd h (List.not_mem_nil tid)⟩
    | cons t rest =>
      have hdroplen : ((t :: rest).drop bs).length ≤ f := by
        rw [List.length_drop]
        have : (t :: rest).length = rest.length + 1 := rfl
        omega
      obtain ⟨ihperm, iherr, ihok⟩ := ih ((t :: rest).drop bs) hdroplen
      obtain ⟨bperm, berr, bok⟩ := process_batch_spec o ((t :: rest).take bs)
      have heq : batch_segment_locate_aux o bs (f + 1) (t :: rest) =
          process_batch o ((t :: rest).take bs) ++
            batch_segment_locate_aux o bs f ((t :: rest).drop bs) := rfl
      rw [heq]
      refine ⟨?_, ?_, ?_⟩
      · rw [List.map_append]
        refine (bperm.append ihperm).trans ?_
        rw [List.take_append_drop]
      · intro tid htid herr
        have htid' : tid ∈ (t :: rest).take bs ++ (t :: rest).drop bs := by
          rw [List.take_append_drop]
          exact htid
        rcases List.mem_append.mp htid' with h1 | h1
        · exact List.mem_append_left _ (berr tid h1 herr)
        · exact List.mem_append_right _ (iherr tid h1 herr)
      · intro tid img htid hok'
        have htid' : tid ∈ (t :: rest).take bs ++ (t :: rest).drop bs := by
          rw [List.take_append_drop]
          exact htid
        rcases List.mem_append.mp htid' with h1 | h1
        · exact List.mem_append_left _ (bok tid img h1 hok')
        · exact List.mem_append_right _ (ihok tid img h1 hok')

/-- Claim C4: in the SegmentLocate phase, a tile whose pixels cannot be
obtained is caught per tile: it contributes `(tile_id, [])` to the results,
while every other tile of its batch and of the run is still processed — the
output covers exactly the input tile identifiers (as a permutation), each
failing tile maps to the empty polygon list and each successful tile to its
located polygons. -/
theorem C4_segment_locate_per_tile_failure {Img Poly : Type}
    (o : SegmentLocateOracle Img Poly) (tile_ids : List ℤ) (batch_size : ℕ)
    (hbs : 1 ≤ batch_size) :
    (((batch_segment_locate o tile_ids batch_size).map Prod.fst).Perm tile_ids) ∧
    (∀ tid ∈ tile_ids, o.np_image tid = .error () →
      (tid, ([] : List Poly)) ∈ batch_segment_locate o tile_ids batch_size) ∧
    (∀ tid img, tid ∈ tile_ids → o.np_image tid = .ok img →
      (tid, o.locate tid img) ∈ batch_segment_locate o tile_ids batch_size) :=
  batch_segment_locate_aux_spec o batch_size hbs tile_ids.length tile_ids (le_refl _)

/-- A concrete oracle where tile 2's pixels cannot be fetched. -/
def cexOracle : SegmentLocateOracle Unit ℕ :=
  ⟨fun tid => if tid = 2 then .error () else .ok (),
   fun tid _ => [tid.toNat]⟩

/-- Witness for C4: with batches of 2 over tiles 1..3 and tile 2 failing,
the run still covers all three tiles, tile 2 yields the empty list and
tiles 1 and 3 their located polygons. -/
theorem C4_segment_locate_per_tile_failure_witness :
    ((2 : ℤ), ([] : List ℕ)) ∈ batch_segment_locate cexOracle [1, 2, 3] 2 ∧
    ((1 : ℤ), [1]) ∈ batch_segment_locate cexOracle [1, 2, 3] 2 ∧
    ((3 : ℤ), [3]) ∈ batch_segment_locate cexOracle [1, 2, 3] 2 :=
  ⟨(C4_segment_locate_per_tile_failure cexOracle [1, 2, 3] 2 (by decide)).2.1 2
     (by decide) (by decide),
   (C4_segment_locate_per_tile_failure cexOracle [1, 2, 3] 2 (by decide)).2.2 1 ()
     (by decide) (by decide),
   (C4_segment_locate_per_tile_failure cexOracle [1, 2, 3] 2 (by decide)).2.2 3 ()
     (by decide) (by decide)⟩

/-! ## Dispatching and batch classification — `src/sldc/dispatcher.py` -/

/-- Elementwise value of the masked-assignment loop of `dispatch_map`: the
mapping dict is `{v: i for i, v in enumerate(mapping)}` (a later duplicate
value overwrites an earlier one), and a position holding label `lab` is
assigned exactly by the dict item whose key is `lab`, so it ends at the
last enumerate index of `lab` in the mapping, or at the initial `-1` when
the label is absent. -/
def mappingIdxAux : List ℤ → ℤ → ℤ → ℤ
  | [], _, _ => -1
  | v :: rest, i, lab =>
    let r := mappingIdxAux rest (i + 1) lab
    if r ≠ -1 then r
    else if v = lab then i else -1

def mappingIdx (mapping : List ℤ) (lab : ℤ) : ℤ := mappingIdxAux mapping 0 lab

/-- Embeds `Dispatcher.dispatch_map`: the raw dispatch labels (from
`dispatch_batch`, one `dispatch` call per polygon) are forwarded unmapped
when no mapping is defined, else mapped through the mapping dict with `-1`
for unmatched labels. -/
def dispatch_map {Poly : Type} (dispatch : Poly → ℤ) (mapping : Option (List ℤ))
    (polygons : List Poly) : List ℤ × List ℤ :=
  let dispatch_labels := polygons.map dispatch
  match mapping with
  | none => (dispatch_labels, dispatch_labels)
  | some m => (dispatch_labels, dispatch_labels.map (mappingIdx m))

/-- `np_polygons[disp_indexes == index]`: the sublist at the positions whose
dispatch index equals `index`, in order. -/
def maskFilter {α : Type} (xs : List α) (disp : List ℤ) (idx : ℤ) : List α :=
  ((xs.zip disp).filter fun q => decide (q.2 = idx)).map Prod.fst

/-- `out[disp == idx] = vals`: the numpy masked assignment, writing the
values in order at the positions whose dispatch index equals `idx`. -/
def scatter {α : Type} : List ℤ → ℤ → List α → List α → List α
  | [], _, _, _ => []
  | _ :: _, _, _, [] => []
  | d :: ds, idx, vals, c :: cs =>
    if d = idx then
      match vals with
      | v :: vs => v :: scatter ds idx vs cs
      | [] => c :: scatter ds idx [] cs
    else c :: scatter ds idx vals cs

/-- Embeds one iteration of the classification loop of
`dispatch_classify_batch`: skip the unmatched pseudo-index `-1`, otherwise
run the classifier of the index once on the polygons sharing it and scatter
the predictions and probabilities back; the third accumulator component
records the `predict_batch` invocations. -/
def classify_step {Poly : Type} (predict_batch : ℤ → List Poly → List ℤ × List ℤ)
    (polygons : List Poly) (disp_indexes : List ℤ)
    (acc : List (Option ℤ) × List ℤ × List (ℤ × List Poly)) (index : ℤ) :
    List (Option ℤ) × List ℤ × List (ℤ × List Poly) :=
  if index = -1 then acc
  else
    (scatter disp_indexes index
       (((predict_batch index (maskFilter polygons disp_indexes index)).1).map some)
       acc.1,
     scatter disp_indexes index
       ((predict_batch index (maskFilter polygons disp_indexes index)).2) acc.2.1,
     acc.2.2 ++ [(index, maskFilter polygons disp_indexes index)])

/-- Embeds `DispatcherClassifier.dispatch_classify_batch`: dispatch and map
the polygons, then for each distinct dispatch index (`np.unique`, ascending)
other than `-1` classify the polygons sharing it; returns the predictions
(`None`-initialised), the probabilities (`0`-initialised), the raw dispatch
labels, and the recorded classifier invocations. -/
def dispatch_classify_batch {Poly : Type} (dispatch : Poly → ℤ)
    (mapping : Option (List ℤ)) (predict_batch : ℤ → List Poly → List ℤ × List ℤ)
    (polygons : List Poly) :
    List (Option ℤ) × List ℤ × List ℤ × List (ℤ × List Poly) :=
  let dm := dispatch_map dispatch mapping polygons
  let res := (sortedDedup dm.2).foldl
    (classify_step predict_batch polygons dm.2)
    (polygons.map fun _ => (none : Option ℤ), polygons.map fun _ => (0 : ℤ), [])
  (res.1, res.2.1, dm.1, res.2.2)

theorem maskFilter_nil_right {α : Type} (xs : List α) (idx : ℤ) :
    maskFilter xs [] idx = [] := by
  cases xs <;> rfl

theorem maskFilter_cons {α : Type} (c : α) (cs : List α) (d : ℤ) (ds : List ℤ)
    (idx : ℤ) :
    maskFilter (c :: cs) (d :: ds) idx =
      if d = idx then c :: maskFilter cs ds idx else maskFilter cs ds idx := by
  unfold maskFilter
  rw [List.zip_cons_cons, List.filter_cons]
  by_cases h : d = idx
  · simp [h]
  · simp [h]

theorem maskFilter_length {α : Type} :
    ∀ (xs : List α) (disp : List ℤ) (idx : ℤ), xs.length = disp.length →
      (maskFilter xs disp idx).length =
        (disp.filter fun d => decide (d = idx)).length := by
  intro xs
  induction xs with
  | nil =>
    intro disp idx h
    cases disp with
    | nil => rfl
    | cons d ds => exact absurd h (by simp)
  | cons c cs ih =>
    intro disp idx h
    cases disp with
    | nil => exact absurd h (by simp)
    | cons d ds =>
      by_cases hd : d = idx <;>
        simp [maskFilter_cons, List.filter_cons, hd, ih ds idx (by simpa using h)]

theorem maskFilter_map {α β : Type} (f : α → β) :
    ∀ (xs : List α) (disp : List ℤ) (idx : ℤ),
      maskFilter (xs.map f) disp idx = (maskFilter xs disp idx).map f := by
  intro xs
  induction xs with
  | nil => intro disp idx; cases disp <;> rfl
  | cons c cs ih =>
    intro disp idx
    cases disp with
    | nil => rfl
    | cons d ds =>
      rw [List.map_cons, maskFilter_cons, maskFilter_cons]
      by_cases hd : d = idx
      · rw [if_pos hd, if_pos hd, List.map_cons, ih]
      · rw [if_neg hd, if_neg hd, ih]

theorem scatter_spec {α : Type} :
    ∀ (disp : List ℤ) (idx : ℤ) (vals out : List α),
      out.length = disp.length →
      vals.length = (disp.filter fun d => decide (d = idx)).length →
      (scatter disp idx vals out).length = disp.length ∧
      maskFilter (scatter disp idx vals out) disp idx = vals ∧
      (∀ idx', idx' ≠ idx →
        maskFilter (scatter disp idx vals out) disp idx' =
          maskFilter out disp idx') := by
  intro disp
  induction disp with
  | nil =>
    intro idx vals out hlen hcount
    have hout : out = [] := List.length_eq_zero.mp (by simpa using hlen)
    have hvals : vals = [] := List.length_eq_zero.mp (by simpa using hcount)
    subst hout
    subst hvals
    exact ⟨rfl, rfl, fun idx' _ => rfl⟩
  | cons d ds ih =>
    intro idx vals out hlen hcount
    cases out with
    | nil => exact absurd hlen (by simp)
    | cons c cs =>
      have hlen' : cs.length = ds.length := by simpa using hlen
      rw [List.filter_cons] at hcount
      by_cases hd : d = idx
      · have hcount' : vals.length =
            ((ds.filter fun x => decide (x = idx)).length) + 1 := by
          simpa [hd] using hcount
        cases vals with
        | nil => exact absurd hcount' (by simp)
        | cons v vs =>
          have hvs : vs.length = (ds.filter fun x => decide (x = idx)).length := by
            simpa using hcount'
          have hscat : scatter (d :: ds) idx (v :: vs) (c :: cs) =
              v :: scatter ds idx vs cs := by
            show (if d = idx then v :: scatter ds idx vs cs
                  else c :: scatter ds idx (v :: vs) cs) = v :: scatter ds idx vs cs
            rw [if_pos hd]
          obtain ⟨ih1, ih2, ih3⟩ := ih idx vs cs hlen' hvs
          rw [hscat]
          refine ⟨by simpa using ih1, ?_, ?_⟩
          · rw [maskFilter_cons, if_pos hd, ih2]
          · intro idx' hne
            have hdne : ¬(d = idx') := fun hc => hne (hc ▸ hd.symm ▸ rfl)
            rw [maskFilter_cons, if_neg hdne, maskFilter_cons, if_neg hdne,
              ih3 idx' hne]
      · have hcount' : vals.length = ((ds.filter fun x => decide (x = idx)).length) := by
          simpa [hd] using hcount
        have hscat : scatter (d :: ds) idx vals (c :: cs) =
            c :: scatter ds idx vals cs := by
          cases vals with
          | nil =>
            show (if d = idx then c :: scatter ds idx [] cs
                  else c :: scatter ds idx [] cs) = c :: scatter ds idx [] cs
            rw [if_neg hd]
          | cons v vs =>
            show (if d = idx then v :: scatter ds idx vs cs
                  else c :: scatter ds idx (v :: vs) cs) =
              c :: scatter ds idx (v :: vs) cs
            rw [if_neg hd]
        obtain ⟨ih1, ih2, ih3⟩ := ih idx vals cs hlen' hcount'
        rw [hscat]
        refine ⟨by simpa using ih1, ?_, ?_⟩
        · rw [maskFilter_cons, if_neg hd, ih2]
        · intro idx' hne
          by_cases hd' : d = idx'
          · rw [maskFilter_cons, if_pos hd', maskFilter_cons, if_pos hd',
              ih3 idx' hne]
          · rw [maskFilter_cons, if_neg hd', maskFilter_cons, if_neg hd',
              ih3 idx' hne]

theorem insertSorted_mem (x : ℤ) :
    ∀ (l : List ℤ) (y : ℤ), y ∈ insertSorted x l ↔ y = x ∨ y ∈ l := by
  intro l
  induction l with
  | nil =>
    intro y
    show y ∈ [x] ↔ _
    simp
  | cons z zs ih =>
    intro y
    show y ∈ (if x < z then x :: z :: zs
              else if x = z then z :: zs else z :: insertSorted x zs) ↔ _
    by_cases h1 : x < z
    · rw [if_pos h1]
      simp [or_assoc]
    · rw [if_neg h1]
      by_cases h2 : x = z
      · rw [if_pos h2]
        subst h2
        simp only [List.mem_cons]
        tauto
      · rw [if_neg h2]
        simp only [List.mem_cons, ih]
        tauto

theorem insertSorted_sorted (x : ℤ) :
    ∀ (l : List ℤ), l.Sorted (· < ·) → (insertSorted x l).Sorted (· < ·) := by
  intro l
  induction l with
  | nil =>
    intro _
    simp [insertSorted]
  | cons z zs ih =>
    intro hs
    rw [List.sorted_cons] at hs
    show (if x < z then x :: z :: zs
          else if x = z then z :: zs else z :: insertSorted x zs).Sorted (· < ·)
    by_cases h1 : x < z
    · rw [if_pos h1, List.sorted_cons]
      refine ⟨?_, List.sorted_cons.mpr hs⟩
      intro b hb
      rcases List.mem_cons.mp hb with h | h
      · rw [h]; exact h1
      · exact h1.trans (hs.1 b h)
    · rw [if_neg h1]
      by_cases h2 : x = z
      · rw [if_pos h2]
        exact List.sorted_cons.mpr hs
      · rw [if_neg h2, List.sorted_cons]
        refine ⟨?_, ih hs.2⟩
        intro b hb
        rcases (insertSorted_mem x zs b).mp hb with h | h
        · rw [h]; omega
        · exact hs.1 b h

theorem sortedDedup_sorted (l : List ℤ) : (sortedDedup l).Sorted (· < ·) := by
  induction l with
  | nil => simp [sortedDedup]
  | cons x xs ih => exact insertSorted_sorted x (sortedDedup xs) ih

theorem sortedDedup_nodup (l : List ℤ) : (sortedDedup l).Nodup :=
  (sortedDedup_sorted l).nodup

theorem mem_sortedDedup (l : List ℤ) (x : ℤ) : x ∈ sortedDedup l ↔ x ∈ l := by
  induction l with
  | nil => simp [sortedDedup]
  | cons z zs ih =>
    show x ∈ insertSorted z (sortedDedup zs) ↔ _
    rw [insertSorted_mem, ih]
    simp

/-- Invariant of the classification loop: lengths are preserved, each
processed non-unmatched index was classified exactly once on its polygon
group with the outputs scattered at the group's positions, and untouched or
unmatched positions keep their current values. -/
theorem classify_loop_spec {Poly : Type}
    (predict_batch : ℤ → List Poly → List ℤ × List ℤ)
    (polygons : List Poly) (disp : List ℤ)
    (hlen : ∀ idx ps, (predict_batch idx ps).1.length = ps.length ∧
      (predict_batch idx ps).2.length = ps.length)
    (hp : polygons.length = disp.length) :
    ∀ (us : List ℤ) (out1 : List (Option ℤ)) (out2 : List ℤ)
      (log : List (ℤ × List Poly)),
      us.Nodup → out1.length = disp.length → out2.length = disp.length →
      (us.foldl (classify_step predict_batch polygons disp)
        (out1, out2, log)).1.length = disp.length ∧
      (us.foldl (classify_step predict_batch polygons disp)
        (out1, out2, log)).2.1.length = disp.length ∧
      (us.foldl (classify_step predict_batch polygons disp)
        (out1, out2, log)).2.2 =
        log ++ (us.filter fun u => decide (u ≠ -1)).map
          (fun idx => (idx, maskFilter polygons disp idx)) ∧
      (∀ idx', idx' ∉ us ∨ idx' = -1 →
        maskFilter (us.foldl (classify_step predict_batch polygons disp)
          (out1, out2, log)).1 disp idx' = maskFilter out1 disp idx' ∧
        maskFilter (us.foldl (classify_step predict_batch polygons disp)
          (out1, out2, log)).2.1 disp idx' = maskFilter out2 disp idx') ∧
      (∀ idx' ∈ us, idx' ≠ -1 →
        maskFilter (us.foldl (classify_step predict_batch polygons disp)
          (out1, out2, log)).1 disp idx' =
          ((predict_batch idx' (maskFilter polygons disp idx')).1).map some ∧
        maskFilter (us.foldl (classify_step predict_batch polygons disp)
          (out1, out2, log)).2.1 disp idx' =
          (predict_batch idx' (maskFilter polygons disp idx')).2) := by
  intro us
  induction us with
  | nil =>
    intro out1 out2 log _ h1 h2
    exact ⟨h1, h2, by simp, fun idx' _ => ⟨rfl, rfl⟩,
      fun idx' h => absurd h (List.not_mem_nil idx')⟩
  | cons u us' ih =>
    intro out1 out2 log hnd h1 h2
    rw [List.foldl_cons]
    by_cases hu : u = -1
    · have hstep : classify_step predict_batch polygons disp (out1, out2, log) u =
          (out1, out2, log) := by
        unfold classify_step
        rw [if_pos hu]
      rw [hstep]
      obtain ⟨ih1, ih2, ih3, ihun, ihto⟩ :=
        ih out1 out2 log (List.Nodup.of_cons hnd) h1 h2
      refine ⟨ih1, ih2, ?_, ?_, ?_⟩
      · rw [ih3, List.filter_cons]
        simp [hu]
      · intro idx' hidx
        refine ihun idx' ?_
        rcases hidx with h | h
        · exact Or.inl (fun hc => h (List.mem_cons_of_mem _ hc))
        · exact Or.inr h
      · intro idx' hidx hne
        rcases List.mem_cons.mp hidx with h | h
        · exact absurd (h.trans hu) hne
        · exact ihto idx' h hne
    · have hgl := maskFilter_length polygons disp u hp
      have hv1 : (((predict_batch u (maskFilter polygons disp u)).1).map some).length =
          (disp.filter fun d => decide (d = u)).length := by
        rw [List.length_map, (hlen u _).1, hgl]
      have hv2 : ((predict_batch u (maskFilter polygons disp u)).2).length =
          (disp.filter fun d => decide (d = u)).length := by
        rw [(hlen u _).2, hgl]
      obtain ⟨hs1len, hs1self, hs1other⟩ :=
        scatter_spec disp u (((predict_batch u (maskFilter polygons disp u)).1).map some)
          out1 h1 hv1
      obtain ⟨hs2len, hs2self, hs2other⟩ :=
        scatter_spec disp u ((predict_batch u (maskFilter polygons disp u)).2)
          out2 h2 hv2
      have hstep : classify_step predict_batch polygons disp (out1, out2, log) u =
          (scatter disp u
             (((predict_batch u (maskFilter polygons disp u)).1).map some) out1,
           scatter disp u ((predict_batch u (maskFilter polygons disp u)).2) out2,
           log ++ [(u, maskFilter polygons disp u)]) := by
        unfold classify_step
        rw [if_neg hu]
      rw [hstep]
      obtain ⟨ih1, ih2, ih3, ihun, ihto⟩ := ih _ _ _ (List.Nodup.of_cons hnd) hs1len hs2len
      refine ⟨ih1, ih2, ?_, ?_, ?_⟩
      · rw [ih3, List.filter_cons]
        simp only [hu, decide_not]
        rw [List.append_assoc]
        simp
      · intro idx' hidx
        have hne_u : idx' ≠ u := by
          rcases hidx with h | h
          · exact fun hc => h (hc ▸ List.mem_cons_self _ _)
          · exact fun hc => hu (hc ▸ h)
        have hnotin : idx' ∉ us' ∨ idx' = -1 := by
          rcases hidx with h | h
          · exact Or.inl (fun hc => h (List.mem_cons_of_mem _ hc))
          · exact Or.inr h
        obtain ⟨hu1, hu2⟩ := ihun idx' hnotin
        exact ⟨hu1.trans (hs1other idx' hne_u), hu2.trans (hs2other idx' hne_u)⟩
      · intro idx' hidx hne
        rcases List.mem_cons.mp hidx with h | h
        · subst h
          have hnotin : idx' ∉ us' ∨ idx' = -1 :=
            Or.inl (List.nodup_cons.mp hnd).1
          obtain ⟨hu1, hu2⟩ := ihun idx' hnotin
          exact ⟨hu1.trans hs1self, hu2.trans hs2self⟩
        · exact ihto idx' h hne

/-- Length of the mapped dispatch index array. -/
theorem dispatch_map_lengths {Poly : Type} (dispatch : Poly → ℤ)
    (mapping : Option (List ℤ)) (polygons : List Poly) :
    (dispatch_map dispatch mapping polygons).1 = polygons.map dispatch ∧
    (dispatch_map dispatch mapping polygons).2.length = polygons.length := by
  cases mapping with
  | none => exact ⟨rfl, by simp [dispatch_map]⟩
  | some m => exact ⟨rfl, by simp [dispatch_map]⟩

/-- Claim C8: `dispatch_classify_batch` returns prediction, probability and
dispatch arrays of the input length, aligned with the input list; every
unmatched polygon (mapped index `-1`) gets prediction `None` and
probability `0`; each classifier is invoked exactly once per distinct
non-unmatched dispatch index present, on exactly the polygons sharing that
index, and at the positions of that group the prediction/probability arrays
carry that one invocation's outputs in group order. -/
theorem C8_dispatch_classify_batch {Poly : Type} (dispatch : Poly → ℤ)
    (mapping : Option (List ℤ)) (predict_batch : ℤ → List Poly → List ℤ × List ℤ)
    (polygons : List Poly)
    (hlen : ∀ idx ps, (predict_batch idx ps).1.length = ps.length ∧
      (predict_batch idx ps).2.length = ps.length) :
    (dispatch_classify_batch dispatch mapping predict_batch polygons).1.length =
      polygons.length ∧
    (dispatch_classify_batch dispatch mapping predict_batch polygons).2.1.length =
      polygons.length ∧
    (dispatch_classify_batch dispatch mapping predict_batch polygons).2.2.1 =
      polygons.map dispatch ∧
    maskFilter (dispatch_classify_batch dispatch mapping predict_batch polygons).1
        (dispatch_map dispatch mapping polygons).2 (-1) =
      (maskFilter polygons (dispatch_map dispatch mapping polygons).2 (-1)).map
        (fun _ => none) ∧
    maskFilter (dispatch_classify_batch dispatch mapping predict_batch polygons).2.1
        (dispatch_map dispatch mapping polygons).2 (-1) =
      (maskFilter polygons (dispatch_map dispatch mapping polygons).2 (-1)).map
        (fun _ => 0) ∧
    (dispatch_classify_batch dispatch mapping predict_batch polygons).2.2.2 =
      ((sortedDedup (dispatch_map dispatch mapping polygons).2).filter
        fun u => decide (u ≠ -1)).map
        (fun idx => (idx,
          maskFilter polygons (dispatch_map dispatch mapping polygons).2 idx)) ∧
    (∀ idx, idx ∈ (dispatch_map dispatch mapping polygons).2 → idx ≠ -1 →
      maskFilter (dispatch_classify_batch dispatch mapping predict_batch polygons).1
          (dispatch_map dispatch mapping polygons).2 idx =
        ((predict_batch idx
          (maskFilter polygons (dispatch_map dispatch mapping polygons).2 idx)).1).map
          some ∧
      maskFilter
          (dispatch_classify_batch dispatch mapping predict_batch polygons).2.1
          (dispatch_map dispatch mapping polygons).2 idx =
        (predict_batch idx
          (maskFilter polygons (dispatch_map dispatch mapping polygons).2 idx)).2) := by
  obtain ⟨hfst, hlen2⟩ := dispatch_map_lengths dispatch mapping polygons
  have hp : polygons.length = (dispatch_map dispatch mapping polygons).2.length :=
    hlen2.symm
  obtain ⟨l1, l2, l3, lun, lto⟩ := classify_loop_spec predict_batch polygons
    (dispatch_map dispatch mapping polygons).2 hlen hp
    (sortedDedup (dispatch_map dispatch mapping polygons).2)
    (polygons.map fun _ => (none : Option ℤ)) (polygons.map fun _ => (0 : ℤ)) []
    (sortedDedup_nodup _) (by simpa using hp) (by simpa using hp)
  refine ⟨by rw [← hlen2]; exact l1, by rw [← hlen2]; exact l2, hfst, ?_, ?_, ?_, ?_⟩
  · obtain ⟨hu1, _⟩ := lun (-1) (Or.inr rfl)
    exact hu1.trans (maskFilter_map _ polygons _ _)
  · obtain ⟨_, hu2⟩ := lun (-1) (Or.inr rfl)
    exact hu2.trans (maskFilter_map _ polygons _ _)
  · exact l3
  · intro idx hidx hne
    exact lto idx ((mem_sortedDedup _ idx).mpr hidx) hne

/-- The dispatch rule of the concrete C8 instance (polygon 20 gets label 5,
which the mapping does not contain). -/
def cexDispatch : ℕ → ℤ := fun p => if p = 20 then 5 else 1

/-- The classifier oracle of the concrete C8 instance. -/
def cexPredict : ℤ → List ℕ → List ℤ × List ℤ :=
  fun idx ps => (ps.map (fun (p : ℕ) => (p : ℤ) + idx), ps.map (fun _ => (9 : ℤ)))

/-- Witness for C8 on polygons `[10, 20, 30]` with mapping `[1, 2]`: the
dispatch indexes are `[0, -1, 0]`, the single classifier invocation is on
the group `[10, 30]`, and polygon 20 stays unmatched with prediction `None`
and probability `0`. -/
theorem C8_dispatch_classify_batch_witness :
    (dispatch_classify_batch cexDispatch (some [1, 2]) cexPredict [10, 20, 30]).2.2.2 =
      [((0 : ℤ), [10, 30])] ∧
    (dispatch_classify_batch cexDispatch (some [1, 2]) cexPredict [10, 20, 30]).1 =
      [some 10, none, some 30] ∧
    (dispatch_classify_batch cexDispatch (some [1, 2]) cexPredict [10, 20, 30]).2.1 =
      [9, 0, 9] := by
  have h := C8_dispatch_classify_batch cexDispatch (some [1, 2]) cexPredict
    [10, 20, 30] (fun idx ps =>
      ⟨by simp only [cexPredict, List.length_map],
       by simp only [cexPredict, List.length_map]⟩)
  refine ⟨?_, by decide, by decide⟩
  rw [h.2.2.2.2.2.1]
  decide

/-! ## Workflow information merging — `src/sldc/information.py` -/

/-- Embeds `WorkflowInformation` (`src/sldc/information.py`): the per-run
parallel arrays and the timing dict (phase name to recorded times). -/
structure WorkflowInformation (Poly : Type) where
  polygons : List Poly
  dispatch : List ℤ
  classes : List ℤ
  probas : List ℤ
  timing : List (String × List ℤ)

/-- Embeds `WorkflowInformation.merge` (`src/sldc/information.py:214-230`):
`None` is ignored, otherwise the four parallel arrays are extended and the
method then evaluates `WorkflowTiming.merge_timings(self._timing,
other.timing)`.  The class `WorkflowTiming` (`src/sldc/timing.py`) has no
attribute `merge_timings` — the function of that name is module-level
(timing.py:198) and the classmethod of the same name is commented out
(timing.py:479) — so the attribute lookup raises `AttributeError` and the
call never returns normally. -/
def WorkflowInformation.merge {Poly : Type} (self : WorkflowInformation Poly)
    (other : Option (WorkflowInformation Poly)) :
    Except PyErr (WorkflowInformation Poly) :=
  match other with
  | none => .ok self
  | some o =>
    let _updated : WorkflowInformation Poly :=
      { self with
        polygons := self.polygons ++ o.polygons,
        dispatch := self.dispatch ++ o.dispatch,
        classes := self.classes ++ o.classes,
        probas := self.probas ++ o.probas }
    .error .attributeError

/-- Claim C9 evaluated on the code: merging two `WorkflowInformation`
instances always raises `AttributeError` (the `WorkflowTiming.merge_timings`
attribute does not exist), so no merge of two same-schema instances
succeeds and the claimed associativity law has no successful instance at
all.  (`sldc/__init__.py` imports `merge_information` from this module,
which does not define it: the module is stale relative to the package's
tests, which exercise a field-based `WorkflowInformation` API that this
source file does not contain.) -/
theorem C9_information_merge_code_bug {Poly : Type}
    (a b : WorkflowInformation Poly) :
    WorkflowInformation.merge a (some b) = .error PyErr.attributeError := rfl

/-! ## The floating-point pipeline of `tile_count_1d` (claim C2)

The source computes `int(math.ceil(float(length - overlap) / (tile_length -
overlap)))` through IEEE-754 doubles: the integer operand is converted with
`float()` (round to nearest, ties to even, 53-bit significand), the divisor
is converted likewise, the division rounds the exact quotient of the two
doubles to a double again, and `math.ceil`/`int` are exact on doubles.  The
model below embeds that pipeline with an unbounded exponent (overflow to
`inf` happens far beyond the ranges considered here); every value handled
is a dyadic rational, represented by integer arithmetic. -/

/-- Fuelled `⌊log₂⌋` on naturals; 1100 units of fuel cover every input
below `2^1100`, far beyond the double range. -/
def log2Aux : ℕ → ℕ → ℕ
  | 0, _ => 0
  | fuel + 1, n => if 2 ≤ n then log2Aux fuel (n / 2) + 1 else 0

/-- `⌊log₂ n⌋` of a positive integer: the binary exponent a double gives
`n`. -/
def bitLen (n : ℤ) : ℤ := (log2Aux 1100 n.toNat : ℤ)

/-- Round the rational `num / den` (`den > 0`) to the nearest integer, ties
to even — the IEEE-754 significand rounding. -/
def rne (num den : ℤ) : ℤ :=
  if 2 * (num - num.fdiv den * den) < den then num.fdiv den
  else if 2 * (num - num.fdiv den * den) > den then num.fdiv den + 1
  else if num.fdiv den % 2 = 0 then num.fdiv den else num.fdiv den + 1

/-- `⌈x / y⌉` on integers (`y > 0`), as the Python idiom `-((-x) // y)`. -/
def ceilDiv (x y : ℤ) : ℤ := -((-x).fdiv y)

/-- `⌊log₂ (a / b)⌋` for integers `1 ≤ b ≤ a`: the binary exponent of the
quotient. -/
def qlog2 (a b : ℤ) : ℤ :=
  if b * 2 ^ (bitLen a - bitLen b).toNat ≤ a then bitLen a - bitLen b
  else bitLen a - bitLen b - 1

/-- `float(a)` for a non-negative integer `a`: exact below `2^53`, else the
53-bit significand is rounded to nearest, ties to even. -/
def flInt (a : ℤ) : ℤ :=
  if a < 2 ^ 53 then a
  else rne a (2 ^ (bitLen a - 52).toNat) * 2 ^ (bitLen a - 52).toNat

/-- `int(math.ceil(A / B))` for two doubles holding the non-negative
integers `A ≥ B ≥ 1`: the exact quotient is rounded to a double (53-bit
significand at the quotient's binary exponent, nearest, ties to even) and
the ceiling of that double is taken exactly. -/
def ceilFlDiv (A B : ℤ) : ℤ :=
  if 0 ≤ qlog2 A B - 52 then
    rne A (B * 2 ^ (qlog2 A B - 52).toNat) * 2 ^ (qlog2 A B - 52).toNat
  else
    ceilDiv (rne (A * 2 ^ (52 - qlog2 A B).toNat) B) (2 ^ (52 - qlog2 A B).toNat)

namespace TileTopology

/-- Embeds the static method `TileTopology.tile_count_1d` faithfully,
IEEE-754 double arithmetic included:
`1 if length < tile_length else int(math.ceil(float(length - overlap) / (tile_length - overlap)))`. -/
def tile_count_1d_float (length tile_length overlap : ℤ) : ℤ :=
  if length < tile_length then 1
  else ceilFlDiv (flInt (length - overlap)) (flInt (tile_length - overlap))

end TileTopology

theorem log2Aux_spec : ∀ (fuel n : ℕ), 1 ≤ n → n < 2 ^ fuel →
    2 ^ log2Aux fuel n ≤ n ∧ n < 2 ^ (log2Aux fuel n + 1) := by
  intro fuel
  induction fuel with
  | zero =>
    intro n h1 h2
    norm_num at h2
    omega
  | succ f ih =>
    intro n h1 h2
    show 2 ^ (if 2 ≤ n then log2Aux f (n / 2) + 1 else 0) ≤ n ∧
      n < 2 ^ ((if 2 ≤ n then log2Aux f (n / 2) + 1 else 0) + 1)
    by_cases h : 2 ≤ n
    · rw [if_pos h]
      have hpow : 2 ^ (f + 1) = 2 * 2 ^ f := by rw [pow_succ]; ring
      have hlt : n / 2 < 2 ^ f := by omega
      obtain ⟨ihl, ihr⟩ := ih (n / 2) (by omega) hlt
      have e1 : 2 ^ (log2Aux f (n / 2) + 1) = 2 * 2 ^ log2Aux f (n / 2) := by
        rw [pow_succ]; ring
      have e2 : 2 ^ (log2Aux f (n / 2) + 1 + 1) = 2 * 2 ^ (log2Aux f (n / 2) + 1) := by
        rw [pow_succ 2 (log2Aux f (n / 2) + 1)]; ring
      omega
    · rw [if_neg h]
      norm_num
      omega

theorem bitLen_spec {n : ℤ} (h1 : 1 ≤ n) (h2 : n ≤ 2 ^ 54) :
    ∃ k : ℕ, bitLen n = (k : ℤ) ∧ 2 ^ k ≤ n ∧ n < 2 ^ (k + 1) := by
  have hn : (1 : ℕ) ≤ n.toNat := by omega
  have h54 : (2 : ℤ) ^ 54 = ((2 ^ 54 : ℕ) : ℤ) := by norm_cast
  have hle : n.toNat ≤ 2 ^ 54 := by
    have h2' : n ≤ ((2 ^ 54 : ℕ) : ℤ) := by rw [← h54]; exact h2
    omega
  have hlt : n.toNat < 2 ^ 1100 := by
    have hp : (2 : ℕ) ^ 54 < 2 ^ 1100 := Nat.pow_lt_pow_right (by omega) (by omega)
    omega
  obtain ⟨hl, hr⟩ := log2Aux_spec 1100 n.toNat hn hlt
  refine ⟨log2Aux 1100 n.toNat, rfl, ?_, ?_⟩
  · have hcast : ((2 ^ log2Aux 1100 n.toNat : ℕ) : ℤ) ≤ ((n.toNat : ℕ) : ℤ) := by
      exact_mod_cast hl
    push_cast at hcast
    omega
  · have hcast : ((n.toNat : ℕ) : ℤ) < ((2 ^ (log2Aux 1100 n.toNat + 1) : ℕ) : ℤ) := by
      exact_mod_cast hr
    push_cast at hcast
    omega

theorem rne_bounds {num den : ℤ} (hden : 0 < den) :
    num.fdiv den ≤ rne num den ∧ rne num den ≤ num.fdiv den + 1 := by
  unfold rne
  by_cases h1 : 2 * (num - num.fdiv den * den) < den
  · rw [if_pos h1]
    omega
  · rw [if_neg h1]
    by_cases h2 : 2 * (num - num.fdiv den * den) > den
    · rw [if_pos h2]
      omega
    · rw [if_neg h2]
      by_cases h3 : num.fdiv den % 2 = 0
      · rw [if_pos h3]
        omega
      · rw [if_neg h3]
        omega

theorem rne_den_one (x : ℤ) : rne x 1 = x := by
  unfold rne
  rw [Int.fdiv_one, if_pos (by omega)]

theorem ceilDiv_den_one (x : ℤ) : ceilDiv x 1 = x := by
  unfold ceilDiv
  rw [Int.fdiv_one]
  omega

theorem ceilDiv_bounds (x : ℤ) {y : ℤ} (hy : 0 < y) :
    (ceilDiv x y - 1) * y < x ∧ x ≤ ceilDiv x y * y := by
  unfold ceilDiv
  rw [Int.fdiv_eq_ediv _ (by omega)]
  have h1 := Int.ediv_add_emod (-x) y
  have h2 := Int.emod_nonneg (-x) (by omega : y ≠ 0)
  have h3 := Int.emod_lt_of_pos (-x) hy
  constructor
  · have e1 : (-(-x / y) - 1) * y = -(y * (-x / y)) - y := by ring
    rw [e1]
    omega
  · have e2 : -(-x / y) * y = -(y * (-x / y)) := by ring
    rw [e2]
    omega

theorem ceilDiv_eq_of_bounds {x y c : ℤ} (hy : 0 < y)
    (h1 : (c - 1) * y < x) (h2 : x ≤ c * y) : ceilDiv x y = c := by
  obtain ⟨b1, b2⟩ := ceilDiv_bounds x hy
  have hec : ceilDiv x y ≤ c := by
    by_contra hc
    push_neg at hc
    have hmul : c * y ≤ (ceilDiv x y - 1) * y :=
      mul_le_mul_of_nonneg_right (by omega) (by omega)
    omega
  have hce : c ≤ ceilDiv x y := by
    by_contra hc
    push_neg at hc
    have hmul : ceilDiv x y * y ≤ (c - 1) * y :=
      mul_le_mul_of_nonneg_right (by omega) (by omega)
    omega
  omega

theorem flInt_exact {a : ℤ} (h0 : 0 ≤ a) (h53 : a ≤ 2 ^ 53) : flInt a = a := by
  unfold flInt
  by_cases h : a < 2 ^ 53
  · rw [if_pos h]
  · have ha : a = 2 ^ 53 := by omega
    rw [if_neg h, ha]
    decide

theorem qlog2_le {a b : ℤ} (hb : 1 ≤ b) (hba : b ≤ a) (ha : a ≤ 2 ^ 54) :
    ∃ k : ℕ, qlog2 a b = (k : ℤ) ∧ b * 2 ^ k ≤ a := by
  obtain ⟨p, hp, hpl, hpr⟩ := bitLen_spec (le_trans hb hba) ha
  obtain ⟨s, hs, hsl, hsr⟩ := bitLen_spec hb (le_trans hba ha)
  have hsp : s ≤ p := by
    by_contra hc
    push_neg at hc
    have hle : (2 : ℤ) ^ (p + 1) ≤ 2 ^ s := pow_le_pow_right (by omega) (by omega)
    omega
  unfold qlog2
  rw [hp, hs]
  have hk0 : ((p : ℤ) - (s : ℤ)).toNat = p - s := by omega
  rw [hk0]
  by_cases hcond : b * 2 ^ (p - s) ≤ a
  · rw [if_pos hcond]
    exact ⟨p - s, by omega, hcond⟩
  · rw [if_neg hcond]
    have hps : s < p := by
      rcases eq_or_lt_of_le hsp with he | hl
      · exfalso
        apply hcond
        have : p - s = 0 := by omega
        rw [this]
        norm_num
        omega
      · exact hl
    refine ⟨p - s - 1, by omega, ?_⟩
    have hlt : b * 2 ^ (p - s - 1) < 2 ^ (s + 1) * 2 ^ (p - s - 1) :=
      mul_lt_mul_of_pos_right hsr (by positivity)
    have heq : (2 : ℤ) ^ (s + 1) * 2 ^ (p - s - 1) = 2 ^ p := by
      rw [← pow_add]
      congr 1
      omega
    omega

/-- On the float-exact range `1 ≤ b ≤ a ≤ 2^53`, the double-mediated
ceiling of `a / b` equals the exact integer ceiling: the conversions are
exact there, and the quotient rounding can never cross an integer — a
crossing would force the divisor up to the quotient's whole binary spacing,
which `a ≤ 2^53` only permits in a power-of-two configuration where the
quotient is exact. -/
theorem ceilFlDiv_exact {a b : ℤ} (hb : 1 ≤ b) (hba : b ≤ a) (ha : a ≤ 2 ^ 53) :
    ceilFlDiv a b = ceilDiv a b := by
  have hp52 : (2 : ℤ) ^ 52 = 4503599627370496 := by norm_num
  have hp53 : (2 : ℤ) ^ 53 = 9007199254740992 := by norm_num
  have hp54 : (2 : ℤ) ^ 54 = 18014398509481984 := by norm_num
  have ha54 : a ≤ 2 ^ 54 := by omega
  obtain ⟨k, hk, hkle⟩ := qlog2_le hb hba ha54
  unfold ceilFlDiv
  rw [hk]
  by_cases he : 0 ≤ (k : ℤ) - 52
  · rw [if_pos he]
    have hk52 : 52 ≤ k := by omega
    have hposk : (0 : ℤ) < 2 ^ k := by positivity
    have hb2 : b ≤ 2 := by
      have h1 : b * 2 ^ 52 ≤ b * 2 ^ k :=
        mul_le_mul_of_nonneg_left (pow_le_pow_right (by omega) hk52) (by omega)
      have h4 : b * 2 ^ 52 ≤ 2 * 2 ^ 52 := by omega
      exact le_of_mul_le_mul_right h4 (by positivity)
    have hk53 : k ≤ 53 := by
      by_contra hc
      push_neg at hc
      have h1 : (2 : ℤ) ^ 54 ≤ 2 ^ k := pow_le_pow_right (by omega) (by omega)
      have h3 : (2 : ℤ) ^ k ≤ b * 2 ^ k := le_mul_of_one_le_left (by positivity) hb
      omega
    have hbcase : b = 1 ∨ b = 2 := by omega
    rcases hbcase with rfl | rfl
    · interval_cases k
      · norm_num [rne_den_one, ceilDiv_den_one]
      · have haeq : a = 2 ^ 53 := by omega
        rw [haeq]
        decide
    · have hk52' : k = 52 := by
        by_contra hc
        have h2 : (2 : ℤ) ^ 53 ≤ 2 ^ k := pow_le_pow_right (by omega) (by omega)
        omega
      subst hk52'
      have haeq : a = 2 ^ 53 := by omega
      rw [haeq]
      decide
  · rw [if_neg he]
    have hk51 : k ≤ 51 := by omega
    set E := ((52 : ℤ) - (k : ℤ)).toNat with hEdef
    have hE : (E : ℤ) = 52 - (k : ℤ) := by omega
    have h2Epos : (0 : ℤ) < 2 ^ E := by positivity
    obtain ⟨hcb1, hcb2⟩ := ceilDiv_bounds a (by omega : (0 : ℤ) < b)
    set c := ceilDiv a b with hcdef
    set N := a * 2 ^ E with hNdef
    have hdiv := Int.ediv_add_emod N b
    have hr0 := Int.emod_nonneg N (by omega : b ≠ 0)
    have hrb := Int.emod_lt_of_pos N (by omega : (0 : ℤ) < b)
    have hfd : N.fdiv b = N / b := Int.fdiv_eq_ediv N (by omega)
    have hcomm : b * (N / b) = N / b * b := mul_comm _ _
    have hm01 : rne N b = N / b ∨ rne N b = N / b + 1 := by
      unfold rne
      rw [hfd]
      by_cases h1 : 2 * (N - N / b * b) < b
      · rw [if_pos h1]
        exact Or.inl rfl
      · rw [if_neg h1]
        by_cases h2 : 2 * (N - N / b * b) > b
        · rw [if_pos h2]
          exact Or.inr rfl
        · rw [if_neg h2]
          by_cases h3 : N / b % 2 = 0
          · rw [if_pos h3]
            exact Or.inl rfl
          · rw [if_neg h3]
            exact Or.inr rfl
    have hub : N ≤ (c * 2 ^ E) * b := by
      rw [show (c * 2 ^ E) * b = (c * b) * 2 ^ E from by ring, hNdef]
      exact mul_le_mul_of_nonneg_right hcb2 (by positivity)
    have hn0ub : N / b ≤ c * 2 ^ E := by
      have h := Int.ediv_le_ediv (by omega : (0 : ℤ) < b) hub
      rwa [Int.mul_ediv_cancel _ (by omega : b ≠ 0)] at h
    have hlb : ((c - 1) * 2 ^ E) * b < N := by
      rw [show ((c - 1) * 2 ^ E) * b = ((c - 1) * b) * 2 ^ E from by ring, hNdef]
      exact mul_lt_mul_of_pos_right hcb1 h2Epos
    have hn0lb : (c - 1) * 2 ^ E ≤ N / b := by
      rw [Int.le_ediv_iff_mul_le (by omega : (0 : ℤ) < b)]
      omega
    by_cases hreqz : N % b = 0
    · have hm : rne N b = N / b := by
        unfold rne
        rw [hfd]
        have hzero : N - N / b * b = 0 := by omega
        rw [hzero]
        rw [if_pos (by omega)]
      rw [hm]
      have hstrict : (c - 1) * 2 ^ E < N / b := by
        by_contra hcon
        push_neg at hcon
        have h1 : N / b * b ≤ ((c - 1) * 2 ^ E) * b :=
          mul_le_mul_of_nonneg_right hcon (by omega)
        omega
      exact ceilDiv_eq_of_bounds h2Epos hstrict hn0ub
    · have hrpos : 1 ≤ N % b := by omega
      have hn0ub2 : N / b ≤ c * 2 ^ E - 1 := by
        rcases lt_or_eq_of_le hn0ub with h | h
        · omega
        · exfalso
          have h1 : b * (N / b) = b * (c * 2 ^ E) := by rw [h]
          have h2 : b * (c * 2 ^ E) = (c * 2 ^ E) * b := mul_comm _ _
          omega
      by_cases hcase : (c - 1) * 2 ^ E + 1 ≤ N / b
      · refine ceilDiv_eq_of_bounds h2Epos ?_ ?_
        · rcases hm01 with h | h <;> omega
        · rcases hm01 with h | h <;> omega
      · have hn0eq : N / b = (c - 1) * 2 ^ E := by omega
        set r0 := a - (c - 1) * b with hr0def
        have hr0pos : 1 ≤ r0 := by omega
        have hrval : N % b = r0 * 2 ^ E := by
          have h1 : b * (N / b) = ((c - 1) * b) * 2 ^ E := by rw [hn0eq]; ring
          have h2 : r0 * 2 ^ E = a * 2 ^ E - ((c - 1) * b) * 2 ^ E := by
            rw [hr0def]
            ring
          omega
        have hup : 2 * (N % b) > b := by
          by_contra hcon
          push_neg at hcon
          have hble : b * 2 ^ k ≤ 2 ^ 53 := le_trans hkle ha
          have hsplit : (2 : ℤ) ^ 53 = 2 ^ (53 - k) * 2 ^ k := by
            rw [← pow_add]
            congr 1
            omega
          have hble2 : b ≤ 2 ^ (53 - k) := by
            rw [hsplit] at hble
            exact le_of_mul_le_mul_right hble (by positivity)
          have hEs : (2 : ℤ) ^ (53 - k) = 2 * 2 ^ E := by
            rw [show 53 - k = E + 1 from by omega, pow_succ]
            ring
          have hr0eq : r0 = 1 := by
            by_contra hcon2
            have h2r : 2 ≤ r0 := by omega
            have h1 : 2 * 2 ^ E ≤ r0 * 2 ^ E :=
              mul_le_mul_of_nonneg_right h2r (by positivity)
            omega
          have hbeq : b = 2 * 2 ^ E := by
            have h1 : N % b = 2 ^ E := by rw [hrval, hr0eq]; ring
            omega
          have hbk : b * 2 ^ k = 2 ^ 53 := by
            rw [hbeq, show (2 : ℤ) * 2 ^ E * 2 ^ k = 2 ^ (E + 1 + k) from by
              rw [pow_add, pow_succ]; ring]
            congr 1
            omega
          have haeq : a = 2 ^ 53 := by omega
          have hodd : a = 2 * ((c - 1) * 2 ^ E) + 1 := by
            have h1 : (c - 1) * b = 2 * ((c - 1) * 2 ^ E) := by rw [hbeq]; ring
            omega
          omega
        have hm : rne N b = N / b + 1 := by
          unfold rne
          rw [hfd]
          have hrr : N - N / b * b = N % b := by omega
          rw [hrr]
          rw [if_neg (by omega), if_pos hup]
        rw [hm, hn0eq]
        refine ceilDiv_eq_of_bounds h2Epos (by omega) (by omega)

namespace TileTopology

/-- On the double-exact range `length − overlap ≤ 2^53` (under the claim's
hypotheses), the float-mediated `tile_count_1d_float` agrees with the
exact-ceiling idealisation `tile_count_1d`. -/
theorem tile_count_1d_float_eq (length tile_length overlap : ℤ)
    (hlen : 1 ≤ length) (ho : 0 ≤ overlap) (hlt : overlap < tile_length)
    (hbound : length - overlap ≤ 2 ^ 53) :
    tile_count_1d_float length tile_length overlap =
      tile_count_1d length tile_length overlap := by
  unfold tile_count_1d_float tile_count_1d
  by_cases h : length < tile_length
  · rw [if_pos h, if_pos h]
  · rw [if_neg h, if_neg h]
    push_neg at h
    have hb : (1 : ℤ) ≤ tile_length - overlap := by omega
    have hba : tile_length - overlap ≤ length - overlap := by omega
    have h1 : flInt (length - overlap) = length - overlap :=
      flInt_exact (by omega) hbound
    have h2 : flInt (tile_length - overlap) = tile_length - overlap :=
      flInt_exact (by omega) (by omega)
    rw [h1, h2]
    exact ceilFlDiv_exact hb hba hbound

/-- C2 counterexample: at `length = 2^53 + 1`, `tile_length = 1`,
`overlap = 0` all the claim's hypotheses hold and `length` is not below
`tile_length`, yet the source's float-mediated `tile_count_1d` returns
`2^53` while the claimed exact ceiling `⌈(length − overlap) /
(tile_length − overlap)⌉` is `2^53 + 1`: `float(2^53 + 1)` rounds
ties-to-even down to `2^53.0` before the division. -/
theorem C2_tile_count_1d_counterexample :
    (1 : ℤ) ≤ 2 ^ 53 + 1 ∧ (0 : ℤ) ≤ 0 ∧ (0 : ℤ) < 1 ∧
    ¬ ((2 : ℤ) ^ 53 + 1 < 1) ∧
    tile_count_1d_float (2 ^ 53 + 1) 1 0 = 2 ^ 53 ∧
    ⌈((((2 : ℤ) ^ 53 + 1 : ℤ) : ℚ) - ((0 : ℤ) : ℚ)) /
        (((1 : ℤ) : ℚ) - ((0 : ℤ) : ℚ))⌉ = 2 ^ 53 + 1 ∧
    tile_count_1d_float (2 ^ 53 + 1) 1 0 ≠
      ⌈((((2 : ℤ) ^ 53 + 1 : ℤ) : ℚ) - ((0 : ℤ) : ℚ)) /
          (((1 : ℤ) : ℚ) - ((0 : ℤ) : ℚ))⌉ := by
  have hceil : ⌈((((2 : ℤ) ^ 53 + 1 : ℤ) : ℚ) - ((0 : ℤ) : ℚ)) /
      (((1 : ℤ) : ℚ) - ((0 : ℤ) : ℚ))⌉ = (2 : ℤ) ^ 53 + 1 := by
    rw [show (((0 : ℤ) : ℚ)) = 0 from by norm_num,
      show (((1 : ℤ) : ℚ)) = 1 from by norm_num, sub_zero, sub_zero, div_one,
      Int.ceil_intCast]
  have hflt : tile_count_1d_float (2 ^ 53 + 1) 1 0 = 2 ^ 53 := by decide
  refine ⟨by decide, by decide, by decide, by decide, hflt, hceil, ?_⟩
  rw [hflt, hceil]
  decide

/-- C2 (corrected): the source computes the ceiling through IEEE-754
doubles.  For every `length ≥ 1` and `0 ≤ overlap < tile_length` with
`length − overlap ≤ 2^53` (the range where the double pipeline is exact),
`tile_count_1d` returns `1` when `length < tile_length` and the exact
rational ceiling `⌈(length − overlap) / (tile_length − overlap)⌉`
otherwise; in particular it returns `3` for `700/300/100`.  Beyond
`2^53` the claimed identity fails — see the counterexample. -/
theorem C2_tile_count_1d_amended (length tile_length overlap : ℤ)
    (hlen : 1 ≤ length) (ho : 0 ≤ overlap) (hlt : overlap < tile_length)
    (hbound : length - overlap ≤ 2 ^ 53) :
    (length < tile_length → tile_count_1d_float length tile_length overlap = 1) ∧
    (tile_length ≤ length →
      tile_count_1d_float length tile_length overlap =
        ⌈((length : ℚ) - (overlap : ℚ)) / ((tile_length : ℚ) - (overlap : ℚ))⌉) ∧
    tile_count_1d_float 700 300 100 = 3 := by
  refine ⟨fun h => by unfold tile_count_1d_float; rw [if_pos h], fun h => ?_, by decide⟩
  rw [tile_count_1d_float_eq length tile_length overlap hlen ho hlt hbound]
  exact (tile_count_1d_ceil_rat length tile_length overlap hlen ho hlt).2.1 h

/-- Witness for the amended C2 theorem, instantiated at `700/300/100`. -/
theorem C2_tile_count_1d_amended_witness :
    tile_count_1d_float 700 300 100 = 3 :=
  (C2_tile_count_1d_amended 700 300 100 (by decide) (by decide) (by decide)
    (by decide)).2.2

end TileTopology
